import Mathlib

/-!
# GST: table-based ANS coder, bit I/O and histogram normalization

A shallow embedding of the entropy-coding layer exercised by
`src/ans/ans_ocl_test.cpp`.  The test drivers (symbol-by-symbol encoding into a
shared byte buffer, the byte-to-word conversion, the word reversal, the
expected-table loops) are translated from that file.  The headers it includes
(`ans_encode.h`, `ans_ocl.h`, `bits.h`, `histogram.h`) are not part of the
sources at hand; the operations they declare are modelled from the
specification, and every such definition says so in its doc comment.
-/

namespace ans

/-! ## Constants -/

/-- Modelled from the spec: `ans::kANSTableSize` (declared in the absent
`ans_ocl.h`), the tANS table size M = 2048. -/
def kANSTableSize : Nat := 2048

/-- Modelled from the spec: log2 of the table size M. -/
def kANSTableBits : Nat := 11

/-- Modelled from the spec: the I/O word width w = 16 bits. -/
def kWordBits : Nat := 16

/-- Modelled from the spec: the renormalisation base b = 2^w. -/
def kWordBase : Nat := 65536

/-! ## Bit I/O -/

/-- Modelled from the spec: the `BitWriter` of the absent `bits.h`.  `bytes` are
the bytes emitted so far (in memory order), `buffer` holds the bits accepted and
not yet emitted, `nbits` counts them. -/
structure BitWriter where
  bytes : List Nat
  buffer : Nat
  nbits : Nat
deriving DecidableEq

/-- Modelled from the spec: a writer freshly constructed on an output pointer. -/
def BitWriter.init : BitWriter := ⟨[], 0, 0⟩

/-- Modelled from the spec: "when at least 16 bits have been buffered emits them
as a little-endian 16-bit word (low byte first)".  The loop runs while sixteen
bits are buffered; `fuel` bounds the number of iterations. -/
def BitWriter.emitWords : Nat → BitWriter → BitWriter
  | 0, w => w
  | fuel + 1, w =>
    if 16 ≤ w.nbits then
      BitWriter.emitWords fuel
        ⟨w.bytes ++ [w.buffer % 256, w.buffer / 256 % 256], w.buffer >>> 16, w.nbits - 16⟩
    else w

/-- Modelled from the spec: `BitWriter::WriteBits(val, n)`: "accepts integer
values of a given bit width, accumulates them LSB-first" and emits whole words.
Each emission lowers `nbits` by 16, so `nbits` iterations always suffice. -/
def BitWriter.WriteBits (w : BitWriter) (val n : Nat) : BitWriter :=
  BitWriter.emitWords (w.nbits + n) ⟨w.bytes, w.buffer ||| (val <<< w.nbits), w.nbits + n⟩

/-- Modelled from the spec: the byte-count accessor `BitWriter::BytesWritten`. -/
def BitWriter.BytesWritten (w : BitWriter) : Nat := w.bytes.length

/-- Modelled from the spec: the `BitReader` of the absent `bits.h`.  `data` are
the bytes from the caller-supplied pointer on that were not loaded yet, `buffer`
the loaded bits not yet handed out, `nbits` their number. -/
structure BitReader where
  data : List Nat
  buffer : Nat
  nbits : Nat
deriving DecidableEq

/-- Modelled from the spec: a reader constructed on a pointer to `data`. -/
def BitReader.init (data : List Nat) : BitReader := ⟨data, 0, 0⟩

/-- Modelled from the spec: the reader "reads 16-bit little-endian words" until
`n` bits are buffered; running past the provided bytes is the malformed-stream
error (`none`). -/
def BitReader.refill (n : Nat) : List Nat → Nat → Nat → Option BitReader
  | [], buffer, nbits => if n ≤ nbits then some ⟨[], buffer, nbits⟩ else none
  | [b], buffer, nbits => if n ≤ nbits then some ⟨[b], buffer, nbits⟩ else none
  | lo :: hi :: rest, buffer, nbits =>
    if n ≤ nbits then some ⟨lo :: hi :: rest, buffer, nbits⟩
    else BitReader.refill n rest (buffer ||| ((lo ||| (hi <<< 8)) <<< nbits)) (nbits + 16)

/-- Modelled from the spec: `BitReader::ReadBits(n)`, "servicing bit-level
read(n) calls by shifting an internal buffer": the low `n` bits of the buffer
are returned and shifted out. -/
def BitReader.ReadBits (r : BitReader) (n : Nat) : Option (Nat × BitReader) :=
  match BitReader.refill n r.data r.buffer r.nbits with
  | none => none
  | some r1 => some (r1.buffer % 2 ^ n, ⟨r1.data, r1.buffer >>> n, r1.nbits - n⟩)

/-! ## Histogram normalization -/

/-- Modelled from the spec: the failures of normalization. -/
inductive HistogramError where
  | EmptyHistogram
  | AlphabetTooLarge
deriving DecidableEq

/-- Modelled from the spec: `round(a / b)` on non-negative integers, halves
rounded up. -/
def roundDiv (a b : Nat) : Nat := (2 * a + b) / (2 * b)

/-- Modelled from the spec: the proportionally rounded share of one bucket,
"F'[i] ≈ round(F[i]·M/T)", with a zero count staying zero and an observed
symbol receiving at least one slot. -/
def scaleCount (M T f : Nat) : Int :=
  if f = 0 then 0 else ((max 1 (roundDiv (f * M) T) : Nat) : Int)

/-- Modelled from the spec: the index of the largest-frequency entry (the first
one among equals); `best` and `bestIdx` carry the running maximum, `i` the
index of the head of the list. -/
def largestFrom : List Nat → Nat → Nat → Nat → Nat
  | [], _, bestIdx, _ => bestIdx
  | f :: rest, best, bestIdx, i =>
    if best < f then largestFrom rest f i (i + 1) else largestFrom rest best bestIdx (i + 1)

/-- Modelled from the spec: the index of the largest bucket of `F`. -/
def largestIndex (F : List Nat) : Nat := largestFrom F 0 0 0

/-- Modelled from the spec: `ans::GenerateHistogram(F, M)` of the absent
`histogram.h`: proportional rounding followed by "a final corrective pass that
adds or subtracts the signed residue (M − Σ F') from the largest-frequency
entry"; it "fails with EmptyHistogram when T = 0, AlphabetTooLarge when the
alphabet exceeds 256".  The result is a vector of signed integers, as in the
test's `std::vector<int> normalized_F`. -/
def GenerateHistogram (F : List Nat) (M : Nat) : Except HistogramError (List Int) :=
  if 256 < F.length then Except.error HistogramError.AlphabetTooLarge
  else if F.sum = 0 then Except.error HistogramError.EmptyHistogram
  else
    let rounded := F.map (scaleCount M F.sum)
    let k := largestIndex F
    Except.ok (rounded.set k (rounded.getD k 0 + ((M : Int) - rounded.sum)))

/-! ## The decoder tables -/

/-- The three parallel decoder tables (`cl_uchar` symbols, `cl_ushort`
frequencies and cumulative frequencies in the test). -/
structure Tables where
  symbols : List Nat
  frequencies : List Nat
  cumulative_frequencies : List Nat
deriving DecidableEq

/-- The three stores of the innermost loop body of the table-building loops of
`TEST(ANS_OpenCL, Initialization)`: slot `sum + j` receives the symbol `i` (cast
to `cl_uchar`), its frequency `f` and the running sum (both `cl_ushort`). -/
def storeSlot (i f sum : Nat) (t : Tables) (j : Nat) : Tables :=
  ⟨t.symbols.set (sum + j) (i % 256),
   t.frequencies.set (sum + j) (f % 65536),
   t.cumulative_frequencies.set (sum + j) (sum % 65536)⟩

/-- The inner loop `for (j = 0; j < normalized_F[i]; ++j)` of the table-building
loops. -/
def fillSymbol (t : Tables) (i f sum : Nat) : Tables :=
  (List.range f).foldl (storeSlot i f sum) t

/-- The outer loop `for (i = 0; i < normalized_F.size(); ++i)` of the
table-building loops, with `sum += normalized_F[i]` after each symbol.  The
arrays hold `kANSTableSize` slots; a symbol whose slots would run past the end
of the arrays makes the build fail (`none`) instead of storing out of bounds. -/
def fillTables (t : Tables) : List Nat → Nat → Nat → Option Tables
  | [], _, _ => some t
  | f :: rest, i, sum =>
    if kANSTableSize < sum + f then none
    else fillTables (fillSymbol t i f sum) rest (i + 1) (sum + f)

/-- The freshly allocated tables: `kANSTableSize` zeros each, as
`std::vector<cl_uchar> expected_symbols(ans::kANSTableSize, 0)`. -/
def Tables.zero : Tables :=
  ⟨List.replicate kANSTableSize 0, List.replicate kANSTableSize 0,
   List.replicate kANSTableSize 0⟩

/-- Modelled from the spec: the decoder's table construction (absent
`ans_ocl.h`), the range-packed layout "all slots for symbol 0 first, then symbol
1, and so on", built by the loops the test uses for its expected tables. -/
def BuildTables (F' : List Nat) : Option Tables := fillTables Tables.zero F' 0 0

/-- The counts of a normalized table as loop bounds: the test compares a
`size_t` counter with the `int` entry, so a negative entry stands for a bound
beyond every array and the build fails. -/
def toCounts : List Int → Option (List Nat)
  | [] => some []
  | f :: rest =>
    if f < 0 then none
    else match toCounts rest with
      | none => none
      | some cs => some (f.toNat :: cs)

/-- Modelled from the spec: the normalized table a coder built from the raw
frequencies `F` works with; `none` when normalization fails or yields an entry
that is not a count. -/
def normalizedCounts (F : List Nat) : Option (List Nat) :=
  match GenerateHistogram F kANSTableSize with
  | Except.error _ => none
  | Except.ok nF => toCounts nF

/-- Modelled from the spec: the table-owning part of `ans::OpenCLDecoder`
(absent `ans_ocl.h`). -/
structure OpenCLDecoder where
  tables : Tables
deriving DecidableEq

/-- Modelled from the spec: `OpenCLDecoder(ctx, F, ...)`: normalize `F` and
build the tables in freshly allocated arrays. -/
def OpenCLDecoder.new (F : List Nat) : Option OpenCLDecoder :=
  match normalizedCounts F with
  | none => none
  | some F' =>
    match BuildTables F' with
    | none => none
    | some t => some ⟨t⟩

/-- Modelled from the spec: `OpenCLDecoder::RebuildTable(F)`: the tables "are
rebuildable in place when a new frequency table arrives (the rebuild operation
preserves the instance and its device-side buffers)": the new layout is stored
into the arrays the decoder already owns. -/
def OpenCLDecoder.RebuildTable (d : OpenCLDecoder) (F : List Nat) : Option OpenCLDecoder :=
  match normalizedCounts F with
  | none => none
  | some F' =>
    match fillTables d.tables F' 0 0 with
    | none => none
    | some t => some ⟨t⟩

/-- Modelled from the spec: `cumulative[σ]`, the sum of the normalized
frequencies of the symbols below `σ`. -/
def cumulative (F' : List Nat) (σ : Nat) : Nat := (F'.take σ).sum

/-! ## The tANS encoder and decoder -/

/-- Modelled from the spec: `ans::OpenCLEncoder` (absent `ans_encode.h`): the
normalized table and the scalar state. -/
structure OpenCLEncoder where
  F : List Nat
  state : Nat
deriving DecidableEq

/-- Modelled from the spec: an encoder over the normalized table `F'` in the
initial state x₀ = M. -/
def OpenCLEncoder.ofNormalized (F' : List Nat) : OpenCLEncoder := ⟨F', kANSTableSize⟩

/-- Modelled from the spec: `OpenCLEncoder(F)`: normalize, start at x₀ = M. -/
def OpenCLEncoder.new (F : List Nat) : Option OpenCLEncoder :=
  match normalizedCounts F with
  | none => none
  | some F' => some (OpenCLEncoder.ofNormalized F')

/-- Modelled from the spec: `OpenCLEncoder::GetState`. -/
def OpenCLEncoder.GetState (e : OpenCLEncoder) : Nat := e.state

/-- Modelled from the spec: step 1 of Encode, "while x ≥ b·F'[s], emit the low w
bits of x to the bit writer and set x ← x >> w"; `bF` is b·F'[s] and `fuel`
bounds the iterations. -/
def encodeRenorm (bF : Nat) : Nat → Nat → BitWriter → Nat × BitWriter
  | 0, x, w => (x, w)
  | fuel + 1, x, w =>
    if bF ≤ x then encodeRenorm bF fuel (x >>> kWordBits) (w.WriteBits (x % kWordBase) kWordBits)
    else (x, w)

/-- Modelled from the spec: `OpenCLEncoder::Encode(symbol, writer)`.  With
F'[s] = 0 the loop of step 1 never exits (and step 2 divides by zero): `none`.
With F'[s] ≥ 1 every iteration lowers x, so x iterations suffice.  "An encoder
state that would exceed 2·b·M indicates an undersized M and is rejected." -/
def OpenCLEncoder.Encode (e : OpenCLEncoder) (symbol : Nat) (w : BitWriter) :
    Option (OpenCLEncoder × BitWriter) :=
  let f := e.F.getD symbol 0
  if f = 0 then none
  else
    let xw := encodeRenorm (kWordBase * f) e.state e.state w
    let x := ((xw.1 / f) <<< kANSTableBits) + cumulative e.F symbol + xw.1 % f
    if 2 * kWordBase * kANSTableSize < x then none
    else some (⟨e.F, x⟩, xw.2)

/-- Modelled from the spec: `ans::OpenCLCPUDecoder` (absent `ans_ocl.h`): the
tables and the scalar state. -/
structure OpenCLCPUDecoder where
  tables : Tables
  state : Nat
deriving DecidableEq

/-- Modelled from the spec: a CPU decoder over the normalized table `F'`
started in `state`. -/
def OpenCLCPUDecoder.ofNormalized (state : Nat) (F' : List Nat) : Option OpenCLCPUDecoder :=
  match BuildTables F' with
  | none => none
  | some t => some ⟨t, state⟩

/-- Modelled from the spec: `OpenCLCPUDecoder(state, F)`. -/
def OpenCLCPUDecoder.new (state : Nat) (F : List Nat) : Option OpenCLCPUDecoder :=
  match normalizedCounts F with
  | none => none
  | some F' => OpenCLCPUDecoder.ofNormalized state F'

/-- Modelled from the spec: step 2 of Decode, "while x < M, read w bits and set
x ← (x << w) | bits".  A failed read is the malformed-stream error.  Every
iteration consumes sixteen of the reader's bits, so the number of available
bits bounds the iterations, and with none left a further read fails. -/
def decodeRenorm : Nat → Nat → BitReader → Option (Nat × BitReader)
  | 0, x, r => if x < kANSTableSize then none else some (x, r)
  | fuel + 1, x, r =>
    if x < kANSTableSize then
      match r.ReadBits kWordBits with
      | none => none
      | some (bits, r1) => decodeRenorm fuel ((x <<< kWordBits) ||| bits) r1
    else some (x, r)

/-- Modelled from the spec: `OpenCLCPUDecoder::Decode(reader)`: "let slot = x
mod M.  Emit symbols[slot].  Set x ← F'[symbols[slot]] · (x >> log₂M) + slot −
cumulative[slot]", then renormalise.  A slot outside the tables or a symbol
"whose frequency is zero" is the malformed-stream error. -/
def OpenCLCPUDecoder.Decode (d : OpenCLCPUDecoder) (r : BitReader) :
    Option (Nat × OpenCLCPUDecoder × BitReader) :=
  let slot := d.state % kANSTableSize
  match d.tables.symbols[slot]?, d.tables.frequencies[slot]?,
        d.tables.cumulative_frequencies[slot]? with
  | some sym, some f, some c =>
    if f = 0 then none
    else
      match decodeRenorm (r.nbits + 8 * r.data.length)
              (f * (d.state >>> kANSTableBits) + slot - c) r with
      | none => none
      | some (x, r1) => some (sym, ⟨d.tables, x⟩, r1)
  | _, _, _ => none

/-! ## The drivers of `ans_ocl_test.cpp` -/

/-- The encoding loop of `TEST(ANS_OpenCL, DecodeSingleStream)`: for each symbol
a fresh `BitWriter` is placed at `stream.data() + bytes_written`, the symbol is
encoded, and `bytes_written` advances by `w.BytesWritten()`.  `stream` holds the
first `bytes_written` bytes of the buffer. -/
def encodeSymbols (enc : OpenCLEncoder) (stream : List Nat) :
    List Nat → Option (OpenCLEncoder × List Nat)
  | [] => some (enc, stream)
  | symbol :: rest =>
    match enc.Encode symbol BitWriter.init with
    | none => none
    | some (enc1, w) => encodeSymbols enc1 (stream ++ w.bytes) rest

/-- The loop `for (i = 0; i < bytes_written; i += 2)` of the test, which
assembles `(stream[i + 1] << 8) | stream[i]` into a `uint16_t`. -/
def toShorts : List Nat → List Nat
  | lo :: hi :: rest => (((hi <<< 8) ||| lo) % 65536) :: toShorts rest
  | _ => []

/-- The bytes of a vector of `uint16_t` in memory (low byte first), which is
what `reinterpret_cast<const uint8_t *>(short_stream.data())` hands to the
reader. -/
def shortsToBytes : List Nat → List Nat
  | [] => []
  | x :: rest => x % 256 :: x / 256 % 256 :: shortsToBytes rest

/-- The byte stream the test's CPU decoder reads: the emitted bytes gathered
into 16-bit words, the words reversed by `std::reverse`, seen as bytes again. -/
def reversedStream (stream : List Nat) : List Nat :=
  shortsToBytes (toShorts stream).reverse

/-- The decoding loop of the test: `n` calls of `cpu_decoder.Decode(r)`, each
result pushed to the back of `cpu_decoded_symbols`. -/
def decodeSymbols : Nat → OpenCLCPUDecoder → BitReader →
    Option (List Nat × OpenCLCPUDecoder × BitReader)
  | 0, d, r => some ([], d, r)
  | n + 1, d, r =>
    match d.Decode r with
    | none => none
    | some (sym, d1, r1) =>
      match decodeSymbols n d1 r1 with
      | none => none
      | some (syms, d2, r2) => some (sym :: syms, d2, r2)

/-- The inner loop `for (strm_idx = 0; strm_idx < num_interleaved; ++strm_idx)`
of `TEST(ANS_OpenCL, DecodeInterleavedStreams)`: encoder `strm_idx` encodes
`symbols[strm_idx][sym_idx]` through a fresh writer placed at the end of the
shared buffer.  An index outside `symbols` is `none`. -/
def encodeStreams (symbols : List (List Nat)) (sym_idx : Nat) :
    List OpenCLEncoder → Nat → List Nat → Option (List OpenCLEncoder × List Nat)
  | [], _, stream => some ([], stream)
  | enc :: encs, strm_idx, stream =>
    match symbols[strm_idx]? with
    | none => none
    | some row =>
      match row[sym_idx]? with
      | none => none
      | some symbol =>
        match enc.Encode symbol BitWriter.init with
        | none => none
        | some (enc1, w) =>
          match encodeStreams symbols sym_idx encs (strm_idx + 1) (stream ++ w.bytes) with
          | none => none
          | some (encs1, stream1) => some (enc1 :: encs1, stream1)

/-- The outer loop `for (sym_idx = 0; sym_idx < kNumEncodedSymbols; ++sym_idx)`
of the interleaved test; `count` symbol steps remain from `sym_idx` on. -/
def encodeInterleaved (symbols : List (List Nat)) :
    Nat → Nat → List OpenCLEncoder → List Nat → Option (List OpenCLEncoder × List Nat)
  | 0, _, encs, stream => some (encs, stream)
  | count + 1, sym_idx, encs, stream =>
    match encodeStreams symbols sym_idx encs 0 stream with
    | none => none
    | some (encs1, stream1) => encodeInterleaved symbols count (sym_idx + 1) encs1 stream1

/-- The `std::transform` of the interleaved test collecting `enc.GetState()`. -/
def getStates (encs : List OpenCLEncoder) : List Nat := encs.map OpenCLEncoder.GetState

/-- Modelled from the spec: one symbol step of a cooperative decode through one
shared bit reader in which the decoders advance in ascending rank 0, 1, …, N−1.
The result lists the symbol each rank decoded. -/
def decodeRanksAscending : List OpenCLCPUDecoder → BitReader →
    Option (List Nat × List OpenCLCPUDecoder × BitReader)
  | [], r => some ([], [], r)
  | d :: ds, r =>
    match d.Decode r with
    | none => none
    | some (sym, d1, r1) =>
      match decodeRanksAscending ds r1 with
      | none => none
      | some (syms, ds1, r2) => some (sym :: syms, d1 :: ds1, r2)

/-- Modelled from the spec: one symbol step of a cooperative decode through one
shared bit reader in which the decoders advance in descending rank N−1, …, 0,
the reverse of the order in which the encoders ran.  The result lists the
symbol each rank decoded (by rank). -/
def decodeRanksDescending : List OpenCLCPUDecoder → BitReader →
    Option (List Nat × List OpenCLCPUDecoder × BitReader)
  | [], r => some ([], [], r)
  | d :: ds, r =>
    match decodeRanksDescending ds r with
    | none => none
    | some (syms, ds1, r1) =>
      match d.Decode r1 with
      | none => none
      | some (sym, d1, r2) => some (sym :: syms, d1 :: ds1, r2)

/-- Modelled from the spec: a cooperative decode of `count` symbol steps, each
performed by `step`.  The result holds one row per step, in decoding order;
entry `j` of a row is the symbol decoder `j` produced at that step. -/
def cooperativeDecode
    (step : List OpenCLCPUDecoder → BitReader →
      Option (List Nat × List OpenCLCPUDecoder × BitReader)) :
    Nat → List OpenCLCPUDecoder → BitReader →
    Option (List (List Nat) × List OpenCLCPUDecoder × BitReader)
  | 0, ds, r => some ([], ds, r)
  | count + 1, ds, r =>
    match step ds r with
    | none => none
    | some (row, ds1, r1) =>
      match cooperativeDecode step count ds1 r1 with
      | none => none
      | some (rows, ds2, r2) => some (row :: rows, ds2, r2)

/-- The symbols stream `j` produced over the steps of a cooperative decode. -/
def decodedStream (rows : List (List Nat)) (j : Nat) : List Nat :=
  rows.map (fun row => row.getD j 0)

/-- A sequence of `WriteBits(val, n)` calls on one writer; each pair is
`(val, n)`. -/
def writeAll (w : BitWriter) : List (Nat × Nat) → BitWriter
  | [] => w
  | (val, n) :: rest => writeAll (w.WriteBits val n) rest

/-- A sequence of `ReadBits(n)` calls on one reader, collecting the values. -/
def readAll (r : BitReader) : List Nat → Option (List Nat × BitReader)
  | [] => some ([], r)
  | n :: rest =>
    match r.ReadBits n with
    | none => none
    | some (v, r1) =>
      match readAll r1 rest with
      | none => none
      | some (vs, r2) => some (v :: vs, r2)

/-! ## Auxiliary definitions used to state and prove the theorems -/

/-- The interleaved test as one function: `n` encoders over the normalized table
`F'` encode `count` symbol steps of `symbols` into one shared buffer, then
decoders started in the encoders' final states decode `count` symbol steps
cooperatively, each step performed by `step`, over the reversed words.  The
result holds the decoded rows. -/
def interleavedTrial
    (step : List OpenCLCPUDecoder → BitReader →
      Option (List Nat × List OpenCLCPUDecoder × BitReader))
    (F' : List Nat) (symbols : List (List Nat)) (n count : Nat) : Option (List (List Nat)) :=
  match encodeInterleaved symbols count 0 (List.replicate n (OpenCLEncoder.ofNormalized F')) [] with
  | none => none
  | some (encs, stream) =>
    match BuildTables F' with
    | none => none
    | some t =>
      match cooperativeDecode step count ((getStates encs).map (fun x => ⟨t, x⟩))
          (BitReader.init (reversedStream stream)) with
      | none => none
      | some (rows, _, _) => some rows

/-- The symbol whose range of slots contains slot `s` in the range-packed
layout of `F'` (used to state the layout; 0 past the end). -/
def findSlot : List Nat → Nat → Nat
  | [], _ => 0
  | f :: rest, s => if s < f then 0 else findSlot rest (s - f) + 1

/-- One array filled with `v` on the slots `start, …, start + len - 1`. -/
def fillRange (arr : List Nat) (start len v : Nat) : List Nat :=
  (List.range len).foldl (fun a j => a.set (start + j) v) arr

/-- The three arrays have `kANSTableSize` slots each. -/
def Tables.sized (t : Tables) : Prop :=
  t.symbols.length = kANSTableSize ∧ t.frequencies.length = kANSTableSize ∧
    t.cumulative_frequencies.length = kANSTableSize

/-- The rounded share of one bucket as a natural number. -/
def scaleNat (M T f : Nat) : Nat :=
  if f = 0 then 0 else max 1 (roundDiv (f * M) T)

/-- The state after the renormalisation loop of an Encode call entered in state
`x` with normalized frequency `f` (used to state the step lemmas). -/
def encRenormState (f x : Nat) : Nat := if 65536 * f ≤ x then x / 65536 else x

/-- The state after an Encode call entered in state `x`, for a symbol of
normalized frequency `f` and cumulative frequency `c`. -/
def encState (f c x : Nat) : Nat :=
  encRenormState f x / f * 2048 + c + encRenormState f x % f

/-- The bytes an Encode call entered in state `x` writes. -/
def encBytes (f x : Nat) : List Nat :=
  if 65536 * f ≤ x then [x % 65536 % 256, x % 65536 / 256 % 256] else []

/-- The tables `t` hold the range-packed layout of `F'`. -/
def TablesFor (F' : List Nat) (t : Tables) : Prop :=
  ∀ s, s < kANSTableSize →
    t.symbols[s]? = some (findSlot F' s) ∧
    t.frequencies[s]? = some (F'.getD (findSlot F' s) 0) ∧
    t.cumulative_frequencies[s]? = some (cumulative F' (findSlot F' s))

/-- The bytes a sequence of whole-word writes emits (low byte first). -/
def wordBytes : List (Nat × Nat) → List Nat
  | [] => []
  | p :: rest => p.1 % 256 :: p.1 / 256 % 256 :: wordBytes rest

/-- Entry `symbols[j][i]` of the symbol matrix (0 outside it). -/
def symAt (symbols : List (List Nat)) (j i : Nat) : Nat := (symbols.getD j []).getD i 0

/-- The symbols streams `start, …, start + n - 1` encode at symbol step `i`. -/
def rowAt (symbols : List (List Nat)) (i start n : Nat) : List Nat :=
  (List.range' start n).map (fun j => symAt symbols j i)

/-- Encoders over the table `F'` in the states `xs`. -/
def encodersOf (F' : List Nat) (xs : List Nat) : List OpenCLEncoder :=
  xs.map (fun x => ⟨F', x⟩)

/-- Decoders over the tables `t` in the states `xs`. -/
def decodersOf (t : Tables) (xs : List Nat) : List OpenCLCPUDecoder :=
  xs.map (fun x => ⟨t, x⟩)

/-- The symbol matrix has `n` streams of `count` symbols, each of non-zero
normalized frequency. -/
def ValidSymbols (F' : List Nat) (symbols : List (List Nat)) (n count : Nat) : Prop :=
  symbols.length = n ∧ ∀ row ∈ symbols, row.length = count ∧ ∀ s ∈ row, 1 ≤ F'.getD s 0

/-- The decoder the test `TableRebuilding` constructs first, from
`F = {3, 2, 1, 4, 3, 406}`. -/
def rebuildTestDecoder : OpenCLDecoder :=
  (OpenCLDecoder.new [3, 2, 1, 4, 3, 406]).getD ⟨Tables.zero⟩

/-! ## The symbol generator of `ans_ocl_test.cpp` -/

/-- The sum `std::accumulate(freqs.begin(), freqs.end(), 0)` of
`GenerateSymbols`, computed in `int`: a partial sum outside the 32-bit signed
range is undefined (`none`). -/
def accumulateInt : List Int → Int → Option Int
  | [], acc => some acc
  | f :: rest, acc =>
    if -2147483648 ≤ acc + f ∧ acc + f < 2147483648 then accumulateInt rest (acc + f)
    else none

/-- The inner loop of `GenerateSymbols` (ans_ocl_test.cpp, lines 47-53) for the
draw `r`: `freq += f; if (r < freq) break; symbol++`, from the values of
`symbol` and `freq` on.  The sum `freq` is an `int`; leaving the 32-bit signed
range is undefined (`none`). -/
def selectSymbol : List Int → Int → Nat → Int → Option Nat
  | [], _, symbol, _ => some symbol
  | f :: rest, r, symbol, freq =>
    if -2147483648 ≤ freq + f ∧ freq + f < 2147483648 then
      if r < freq + f then some symbol
      else selectSymbol rest r (symbol + 1) (freq + f)
    else none

/-- The outer loop `for (int i = 0; i < num_symbols; ++i)` of `GenerateSymbols`
with `remaining = num_symbols - i` iterations to go.  `rand i` is the
non-negative `int` the call of `rand()` in iteration `i` returns.  `M` is the
`int` sum converted to `uint32_t`; `rand() % M` with `M = 0` is undefined, as is
`++i` beyond the largest `int`; the assertion `symbol < freqs.size()` must
hold; the symbol is stored as a `cl_uchar`.  All failures are `none`. -/
def generateLoop (freqs : List Int) (rand : Nat → Nat) :
    Nat → Nat → List Nat → Option (List Nat)
  | 0, _, symbols => some symbols
  | remaining + 1, i, symbols =>
    match accumulateInt freqs 0 with
    | none => none
    | some total =>
      let M := (total % 4294967296).toNat
      if M = 0 then none
      else
        match selectSymbol freqs ((rand i % M : Nat) : Int) 0 0 with
        | none => none
        | some symbol =>
          if symbol < freqs.length then
            if 2147483647 ≤ i then none
            else generateLoop freqs rand remaining (i + 1) (symbols ++ [symbol % 256])
          else none

/-- The test helper `GenerateSymbols(freqs, num_symbols)` (ans_ocl_test.cpp,
lines 38-60): the assertion `freqs.size() < 256`, then one symbol per
iteration. -/
def GenerateSymbols (freqs : List Int) (num_symbols : Nat) (rand : Nat → Nat) :
    Option (List Nat) :=
  if freqs.length < 256 then generateLoop freqs rand num_symbols 0 [] else none

/-! ## Auxiliary definitions for the symbol generator -/

/-- The sum `freqs[0] + ... + freqs[k - 1]` of the first `k` frequencies. -/
def prefixSum (freqs : List Int) (k : Nat) : Int := (freqs.take k).sum

end ans

namespace demo

/-!
# GST demo: offset tables and the page scheduler

A shallow embedding of the offset computation of `LoadGTC` (`src/demo/demo.cpp`)
and of the batch path of `LoadTextures` (`src/demo/photos_sf.cpp`): the request
filled in by `AsyncGenTCReq::Preload`, the sizing loop of the pinned buffer, the
page bounds, and the page worker with the layout of its page buffer and its
destination region.  Arithmetic in `cl_uint` is modulo 2^32 and in `size_t`
modulo 2^64.  The declaration of `GenTC::GenTCHeader` is not part of the sources
at hand; its fields are modelled from the specification.  The file reading of
the two loaders, the final offsets, the sub-window grid, the work queue of
`AsyncTexRequest` and the option loop of `main` follow.
-/

/-! ## The container header and the offset tables of `demo.cpp` and `photos_sf.cpp` -/

/-- The value of an unsigned 32-bit integer (`cl_uint`, `uint32_t`) holding `n`:
arithmetic in these types wraps modulo 2^32. -/
def u32 (n : Nat) : Nat := n % 4294967296

/-- The value of a `size_t` (64 bits) holding `n`. -/
def u64 (n : Nat) : Nat := n % 18446744073709551616

/-- Modelled from the spec: `GenTC::GenTCHeader`, whose declaration is in a
header that is absent.  The spec's table gives `width` and `height` 4 bytes
each and the other five fields 8 bytes each, all unsigned. -/
structure GenTCHeader where
  width : Nat
  height : Nat
  palette_bytes : Nat
  y_cmp_sz : Nat
  chroma_cmp_sz : Nat
  palette_sz : Nat
  indices_sz : Nat
deriving DecidableEq

/-- Modelled from the spec: the field values a `GenTCHeader` can hold. -/
@[reducible] def GenTCHeader.InRange (hdr : GenTCHeader) : Prop :=
  hdr.width < 4294967296 ∧ hdr.height < 4294967296 ∧
  hdr.palette_bytes < 18446744073709551616 ∧ hdr.y_cmp_sz < 18446744073709551616 ∧
  hdr.chroma_cmp_sz < 18446744073709551616 ∧ hdr.palette_sz < 18446744073709551616 ∧
  hdr.indices_sz < 18446744073709551616

/-- The block count `hdr.height * hdr.width / 16` as `LoadGTC` and the page
worker compute it: the product of the two 32-bit fields wraps, the quotient is
a `cl_uint`. -/
def numBlocks (hdr : GenTCHeader) : Nat := u32 (hdr.height * hdr.width) / 16

/-- What `LoadGTC` (demo.cpp) leaves in `offsets[0..7]`, with the final values
of its two running `cl_uint` sums. -/
structure GTCOffsets where
  offsets : List Nat
  output_offset : Nat
  input_offset : Nat
deriving DecidableEq

/-- The offset computation of `LoadGTC` (demo.cpp, lines 173-185): each line
stores the running `cl_uint` sum and then adds the next size to it. -/
def LoadGTC_offsets (hdr : GenTCHeader) : GTCOffsets :=
  let num_blocks := numBlocks hdr
  let out0 := 0
  let out1 := u32 (out0 + u32 (2 * num_blocks))
  let out2 := u32 (out1 + u32 (4 * num_blocks))
  let out3 := u32 (out2 + u32 hdr.palette_bytes)
  let out4 := u32 (out3 + num_blocks)
  let in0 := 0
  let in1 := u32 (in0 + hdr.y_cmp_sz)
  let in2 := u32 (in1 + hdr.chroma_cmp_sz)
  let in3 := u32 (in2 + hdr.palette_sz)
  let in4 := u32 (in3 + hdr.indices_sz)
  ⟨[out0, out1, out2, out3, in0, in1, in2, in3], out4, in4⟩

/-- The conversion `static_cast<GLsizei>` of a 32-bit unsigned value to the
signed 32-bit `GLsizei` (two's complement). -/
def toGLsizei (n : Nat) : Int :=
  if u32 n < 2147483648 then (u32 n : Int) else (u32 n : Int) - 4294967296

/-- The size `GLsizei dxt_size = (width * height) / 2` of `LoadGTC` (demo.cpp,
lines 231-233).  The product is a signed 32-bit multiplication, whose overflow
is undefined: `none`. -/
def LoadGTC_dxt_size (hdr : GenTCHeader) : Option Int :=
  let width := toGLsizei hdr.width
  let height := toGLsizei hdr.height
  if -2147483648 ≤ width * height ∧ width * height < 2147483648 then
    some (Int.tdiv (width * height) 2)
  else none

/-- The `PBORequest` of photos_sf.cpp: destination size and offset, input size
and header (the input pointer and the buffer handle play no role in the
layout). -/
structure PBORequest where
  sz : Nat
  off : Nat
  in_sz : Nat
  hdr : GenTCHeader
deriving DecidableEq

/-- The request `AsyncGenTCReq::Preload` fills in for a file with header `hdr`
followed by `mem_sz` bytes: `_pbo.sz = (_hdr.width * _hdr.height) / 2` (a
32-bit product) and `_pbo.in_sz = _cmp_data.size()`; `off` is assigned later. -/
def Preload (hdr : GenTCHeader) (mem_sz : Nat) : PBORequest :=
  ⟨u32 (hdr.width * hdr.height) / 2, 0, mem_sz, hdr⟩

/-- The loop of `LoadTextures` that collects the requests: the sum
`total_pbo_size` of their `sz`. -/
def total_pbo_size (pbo_reqs : List PBORequest) : Nat := (pbo_reqs.map PBORequest.sz).sum

/-- The page size `kPageSize` of `LoadTextures`. -/
def kPageSize : Nat := 16

/-- The sizing loop of `LoadTextures` (photos_sf.cpp, lines 695-703): at every
index divisible by `kPageSize` the current `input_mem_sz` is pushed to
`input_sizes` and the room of the offset tables is added; then the request's
`in_sz` is added.  The result is `(input_sizes, input_mem_sz)`. -/
def inputSizesLoop : List PBORequest → Nat → List Nat → Nat → List Nat × Nat
  | [], _, input_sizes, input_mem_sz => (input_sizes, input_mem_sz)
  | req :: rest, i, input_sizes, input_mem_sz =>
    if i % kPageSize = 0 then
      inputSizesLoop rest (i + 1) (input_sizes ++ [input_mem_sz])
        (input_mem_sz + ((kPageSize * 4 * 4 * 2 + 511) / 512) * 512 + req.in_sz)
    else
      inputSizesLoop rest (i + 1) input_sizes (input_mem_sz + req.in_sz)

/-- The vector `input_sizes` of `LoadTextures`. -/
def input_sizes (pbo_reqs : List PBORequest) : List Nat := (inputSizesLoop pbo_reqs 0 [] 0).1

/-- The size `input_mem_sz` of the pinned buffer of `LoadTextures`. -/
def input_mem_sz (pbo_reqs : List PBORequest) : Nat := (inputSizesLoop pbo_reqs 0 [] 0).2

/-- One page job of `LoadTextures`: the values the worker captures.  The
iterators `page_start` and `page_end` are positions in `pbo_reqs`. -/
structure PageJob where
  page_id : Nat
  page_start : Nat
  page_end : Nat
  input_sz : Nat
deriving DecidableEq

/-- The loop `for (auto input_sz : input_sizes)` of `LoadTextures` (lines
737-750): for every page but the first, `page_start = page_end` and `page_end =
std::min(page_end + kPageSize, pbo_reqs.end())`; `n` is `pbo_reqs.size()`. -/
def pageJobsLoop (n : Nat) : List Nat → Nat → Nat → Nat → List PageJob
  | [], _, _, _ => []
  | input_sz :: rest, page_id, page_start, page_end =>
    if page_id > 0 then
      ⟨page_id, page_end, min (page_end + kPageSize) n, input_sz⟩ ::
        pageJobsLoop n rest (page_id + 1) page_end (min (page_end + kPageSize) n)
    else
      ⟨page_id, page_start, page_end, input_sz⟩ ::
        pageJobsLoop n rest (page_id + 1) page_start page_end

/-- The page jobs `LoadTextures` pushes to the pool: `page_start` begins at
`pbo_reqs.begin()` and `page_end` at `pbo_reqs.begin() + kPageSize`. -/
def pageJobs (pbo_reqs : List PBORequest) : List PageJob :=
  pageJobsLoop pbo_reqs.length (input_sizes pbo_reqs) 0 0 kPageSize

/-- The requests between the iterators of a job; a range that runs past
`pbo_reqs.end()` has no defined contents. -/
def jobRequests (pbo_reqs : List PBORequest) (job : PageJob) : Option (List PBORequest) :=
  if job.page_end ≤ pbo_reqs.length then
    some ((pbo_reqs.drop job.page_start).take (job.page_end - job.page_start))
  else none

/-- The locals of the page worker's loop over its requests.  Addresses are byte
offsets from `pinned_mem`.  The arrays `input_offsets` and `output_offsets`,
written through post-incremented indices that start at 0, are kept as the lists
of the values stored so far; `freq_copies` and `data_copies` record destination
and length of the two `memcpy` calls of each iteration. -/
structure PageLoop where
  freqs_buf : Nat
  data_buf : Nat
  output_offset : Nat
  input_offset : Nat
  input_offsets : List Nat
  output_offsets : List Nat
  freq_copies : List (Nat × Nat)
  data_copies : List (Nat × Nat)
deriving DecidableEq

/-- The body of the page worker's loop (photos_sf.cpp, lines 770-795) for one
request.  `req_sz = req->in_sz - 4 * 512` is a `size_t` subtraction; the
running offsets are `cl_uint`. -/
def pageStep (num_blocks : Nat) (s : PageLoop) (req : PBORequest) : PageLoop :=
  let req_sz := u64 (req.in_sz + 18446744073709551616 - 4 * 512)
  let in0 := s.input_offset
  let in1 := u32 (in0 + req.hdr.y_cmp_sz)
  let in2 := u32 (in1 + req.hdr.chroma_cmp_sz)
  let in3 := u32 (in2 + req.hdr.palette_sz)
  let in4 := u32 (in3 + req.hdr.indices_sz)
  let out0 := s.output_offset
  let out1 := u32 (out0 + u32 (2 * num_blocks))
  let out2 := u32 (out1 + u32 (4 * num_blocks))
  let out3 := u32 (out2 + u32 req.hdr.palette_bytes)
  let out4 := u32 (out3 + num_blocks)
  ⟨s.freqs_buf + 4 * 512, s.data_buf + req_sz, out4, in4,
   s.input_offsets ++ [in0, in1, in2, in3],
   s.output_offsets ++ [out0, out1, out2, out3],
   s.freq_copies ++ [(s.freqs_buf, 4 * 512)],
   s.data_copies ++ [(s.data_buf, req_sz)]⟩

/-- What a page worker of `LoadTextures` produces: where the four parts of the
page buffer start, what was written, the size of the device copy and the
destination region. -/
structure PageResult where
  num_hdrs : Nat
  num_blocks : Nat
  output_offsets_addr : Nat
  input_offsets_addr : Nat
  freqs_addr : Nat
  data_addr : Nat
  loop : PageLoop
  cmp_buf_sz : Nat
  dst_origin : Nat
  dst_size : Nat
deriving DecidableEq

/-- The page worker of `LoadTextures` (photos_sf.cpp, lines 749-813) on the
requests `page` between its iterators.  `num_blocks` is taken from
`*page_start` (an empty range has no such request); `input_offsets` starts
`4 * num_hdrs` words after `offsets_buf`, `output_offsets` at `offsets_buf`;
`freqs_buf` starts `offsets_sz` words after `offsets_buf`. -/
def pageWorker (page : List PBORequest) (input_sz page_id : Nat) : Option PageResult :=
  match page with
  | [] => none
  | first :: _ =>
    let num_hdrs := page.length
    let num_blocks := u32 (first.hdr.width * first.hdr.height) / 16
    let page_buf := input_sz
    let input_offsets_addr := page_buf + 4 * (4 * num_hdrs)
    let output_offsets_addr := page_buf
    let offsets_sz := (((num_hdrs * 4 * 2) + 127) / 128) * 128
    let freqs_buf := page_buf + 4 * offsets_sz
    let data_buf := freqs_buf + 4 * 512 * num_hdrs
    let s := page.foldl (pageStep num_blocks) ⟨freqs_buf, data_buf, 0, 0, [], [], [], []⟩
    let cmp_buf_sz := (offsets_sz * 4) + s.input_offset + num_hdrs * 4 * 512
    let kPageSizeBytes := kPageSize * num_blocks * 8
    some ⟨num_hdrs, num_blocks, output_offsets_addr, input_offsets_addr, freqs_buf, data_buf,
      s, cmp_buf_sz, page_id * kPageSizeBytes, kPageSizeBytes⟩

/-- The assertion `(dst_region.origin % (align / 8)) == 0` of the page worker,
`align` being `CL_DEVICE_MEM_BASE_ADDR_ALIGN` in bits; a zero divisor has no
defined result. -/
def alignmentAssert (origin align : Nat) : Option Bool :=
  if align / 8 = 0 then none else some (origin % (align / 8) == 0)

/-! ## Auxiliary definitions for the offset tables and the page layout -/

/-- The sum of the four compressed sizes of a header. -/
def cmpTotal (hdr : GenTCHeader) : Nat :=
  hdr.y_cmp_sz + hdr.chroma_cmp_sz + hdr.palette_sz + hdr.indices_sz

/-- The running prefix sums of the compressed sizes of the requests of a page,
four per request, starting from `base`. -/
def runningInputOffsets : List PBORequest → Nat → List Nat
  | [], _ => []
  | req :: rest, base =>
    base :: (base + req.hdr.y_cmp_sz) :: (base + req.hdr.y_cmp_sz + req.hdr.chroma_cmp_sz) ::
      (base + req.hdr.y_cmp_sz + req.hdr.chroma_cmp_sz + req.hdr.palette_sz) ::
      runningInputOffsets rest (base + cmpTotal req.hdr)

/-- The running prefix sums of the plane sizes `2N, 4N, palette_bytes, N` of the
requests of a page for one block count `N`, four per request, starting from
`base`. -/
def runningOutputOffsets (N : Nat) : List PBORequest → Nat → List Nat
  | [], _ => []
  | req :: rest, base =>
    base :: (base + 2 * N) :: (base + 6 * N) :: (base + 6 * N + req.hdr.palette_bytes) ::
      runningOutputOffsets N rest (base + 7 * N + req.hdr.palette_bytes)

/-- The bytes the planes of the requests of a page take for one block count. -/
def planeTotal (N : Nat) (page : List PBORequest) : Nat :=
  (page.map (fun req => 7 * N + req.hdr.palette_bytes)).sum

/-- The sum of the compressed sizes of the requests of a page. -/
def pageCmpTotal (page : List PBORequest) : Nat :=
  (page.map (fun req => cmpTotal req.hdr)).sum

/-- The sum of the input sizes `in_sz` of some requests. -/
def inSzTotal (reqs : List PBORequest) : Nat := (reqs.map PBORequest.in_sz).sum

/-- Destinations and lengths of `count` frequency-table copies of `4 * 512`
bytes each, laid out from `addr` on. -/
def freqLayout : Nat → Nat → List (Nat × Nat)
  | 0, _ => []
  | count + 1, addr => (addr, 4 * 512) :: freqLayout count (addr + 4 * 512)

/-- Destinations and lengths of the payload copies of the requests of a page,
laid out from `addr` on; each is `in_sz - 4 * 512` bytes as a `size_t`. -/
def payloadLayout : List PBORequest → Nat → List (Nat × Nat)
  | [], _ => []
  | req :: rest, addr =>
    (addr, u64 (req.in_sz + 18446744073709551616 - 4 * 512)) ::
      payloadLayout rest (addr + u64 (req.in_sz + 18446744073709551616 - 4 * 512))

/-- Whether the copies `(destination, length)` of a list follow one another
without gap or overlap and fill exactly the bytes `[lo, hi)`. -/
def tiles : List (Nat × Nat) → Nat → Nat → Bool
  | [], lo, hi => lo == hi
  | (dst, len) :: rest, lo, hi => dst == lo && tiles rest (lo + len) hi

/-- The requests the sizing loop of `LoadTextures` accounts to page `p`: a new
page starts at every index divisible by `kPageSize`. -/
def pageOf (pbo_reqs : List PBORequest) (p : Nat) : List PBORequest :=
  (pbo_reqs.drop (kPageSize * p)).take kPageSize

/-- The number of pages of `n` requests: one for every index divisible by
`kPageSize`. -/
def pageCount (n : Nat) : Nat := (n + 15) / 16

/-- The staging offsets in closed form: page `p` starts after 512 bytes of
offset tables for each earlier page and the inputs of the requests of the
earlier pages. -/
def sizesOf (reqs : List PBORequest) : List Nat :=
  (List.range (pageCount reqs.length)).map
    (fun p => 512 * p + inSzTotal (reqs.take (kPageSize * p)))

/-- The staging size in closed form: 512 bytes of offset tables for each page
and the inputs of all requests. -/
def memOf (reqs : List PBORequest) : Nat := 512 * pageCount reqs.length + inSzTotal reqs

/-- The image of 64 x 64 pixels used in the examples. -/
def hdr64 : GenTCHeader := ⟨64, 64, 100, 10, 20, 30, 40⟩

/-- The image of 32 x 32 pixels used in the examples. -/
def hdr32 : GenTCHeader := ⟨32, 32, 50, 1, 2, 3, 4⟩

/-- A page of two requests of different dimensions, used in the examples. -/
def mixedPage : List PBORequest := [Preload hdr64 3000, Preload hdr32 2500]

/-- A batch of 17 requests for images of 64 x 64 pixels, used in the examples. -/
def uniformBatch : List PBORequest := List.replicate 17 (Preload hdr64 3000)

/-- A batch of 5 requests for images of 64 x 64 pixels, used in the examples. -/
def smallBatch : List PBORequest := List.replicate 5 (Preload hdr64 3000)

/-- A batch of 16 requests for images of 64 x 64 pixels followed by one for an
image of 32 x 32 pixels, used in the examples. -/
def mixedBatch : List PBORequest := List.replicate 16 (Preload hdr64 3000) ++ [Preload hdr32 2500]

/-- The destination regions `(origin, size)` of the page jobs of a batch, in
page order: each job's worker runs on the requests between the job's iterators;
`none` where a worker has no defined result. -/
def pageRegions (pbo_reqs : List PBORequest) : List (Option (Nat × Nat)) :=
  (pageJobs pbo_reqs).map (fun job =>
    (jobRequests pbo_reqs job).bind (fun page =>
      (pageWorker page job.input_sz job.page_id).map (fun r => (r.dst_origin, r.dst_size))))

/-! ## Loading a container: `AsyncGenTCReq::Preload` and the head of `LoadGTC` -/

/-- Modelled from the spec: `sizeof(GenTC::GenTCHeader)`, the declaration being
absent: two 4-byte and five 8-byte fields, 48 bytes. -/
def kHeaderSz : Nat := 48

/-- The whole of `AsyncGenTCReq::Preload` (photos_sf.cpp, lines 354-382) on a
file of `length` bytes that starts with the bytes of `hdr`; `opened` tells
whether the stream could be opened.  A stream that cannot be opened ends the
program with `exit(EXIT_FAILURE)`; in a file shorter than the header `length -
kHeaderSz` wraps, the reads fail and `assert(is)` does not hold.  Both are
`none`.  No field of the header is examined; otherwise the request is filled
in. -/
def PreloadFile (opened : Bool) (length : Nat) (hdr : GenTCHeader) : Option PBORequest :=
  if !opened then none
  else
    let mem_sz := u64 (length + 18446744073709551616 - kHeaderSz)
    if length < kHeaderSz then none
    else some (Preload hdr mem_sz)

/-- The head of `LoadGTC` (demo.cpp, lines 148-169): the header and the number
of payload bytes read after it.  A stream that cannot be opened fails the
assertion `!"Error opening GenTC texture!"` and returns; in a file shorter than
the header the reads fail and `assert(is)` does not hold.  Both are `none`.  No
field of the header is examined. -/
def LoadGTC_read (opened : Bool) (length : Nat) (hdr : GenTCHeader) :
    Option (GenTCHeader × Nat) :=
  if !opened then none
  else
    let mem_sz := u64 (length + 18446744073709551616 - kHeaderSz)
    if length < kHeaderSz then none
    else some (hdr, mem_sz)

/-! ## The final offsets of `LoadTextures` -/

/-- The last loop of `LoadTextures` over `pbo_reqs` (photos_sf.cpp, lines
853-861): `req->off = output_offset; output_offset += req->sz`.  The running
`size_t` sum is bounded by `total_pbo_size`. -/
def assignOffsets : List PBORequest → Nat → List PBORequest
  | [], _ => []
  | req :: rest, output_offset =>
    { req with off := output_offset } :: assignOffsets rest (output_offset + req.sz)

/-! ## The sub-window grid -/

/-- The loop of `GetNumSubWindows2D` (photos_sf.cpp, lines 70-73) on the values
of `*nx` and `*ny`: `while ((*ny % 2) == 0 && 2 * aspect * *nx < *ny)`, with
`size_t` products modulo 2^64.  `fuel` bounds the iterations; running out of it
with the condition still true is `none`. -/
def subWindowsLoop (aspect : Nat) : Nat → Nat → Nat → Option (Nat × Nat)
  | 0, nx, ny =>
    if ny % 2 = 0 ∧ u64 (2 * aspect * nx) < ny then none else some (nx, ny)
  | fuel + 1, nx, ny =>
    if ny % 2 = 0 ∧ u64 (2 * aspect * nx) < ny then
      subWindowsLoop aspect fuel (u64 (nx * 2)) (ny / 2)
    else some (nx, ny)

/-- The function `GetNumSubWindows2D(count, aspect, nx, ny)`: the final values
of `*nx` and `*ny`.  Every iteration halves `*ny`, so `count` iterations are
allowed for. -/
def GetNumSubWindows2D (count aspect : Nat) : Option (Nat × Nat) :=
  subWindowsLoop aspect count 1 count

/-- The grid and the cell of a sub window. -/
structure CropCell where
  nx : Nat
  ny : Nat
  xo : Nat
  yo : Nat
deriving DecidableEq

/-- The integer part of `GetCropWindow(num, count, aspect, ...)` (photos_sf.cpp,
lines 76-90).  The float `aspect` enters through the outcome `less` of the test
`aspect < 1.f` and through the `size_t` value `a` that the branch taken
converts (`1.f / aspect`, or `aspect`); with `aspect ≥ 1` the two results of
`GetNumSubWindows2D` are stored into `ny` and `nx`, in this order.  `num % nx`
and `num / nx` with `nx = 0` are undefined: `none`.  The four float quotients
computed from the cell are left out. -/
def GetCropWindow (num count : Nat) (less : Bool) (a : Nat) : Option CropCell :=
  match GetNumSubWindows2D count a with
  | none => none
  | some (first, second) =>
    let nx := if less then first else second
    let ny := if less then second else first
    if nx = 0 then none
    else some ⟨nx, ny, num % nx, num / nx⟩

/-! ## The work queue of a texture request -/

/-- The class `AsyncTexRequest` of photos_sf.cpp: its queue `_fns` of functions,
front first.  The type `F` stands for `std::function<void()>`. -/
structure AsyncTexRequest (F : Type) where
  fns : List F

/-- The method `AsyncTexRequest::Run(ret)`: on an empty queue it returns false
and writes nothing; otherwise it stores the front in `*ret`, pops it and
returns true.  The result is the returned flag, the value of `*ret` and the
request afterwards. -/
def AsyncTexRequest.Run {F : Type} (req : AsyncTexRequest F) (ret : F) :
    Bool × F × AsyncTexRequest F :=
  match req.fns with
  | [] => (false, ret, req)
  | front :: rest => (true, front, ⟨rest⟩)

/-- The method `AsyncTexRequest::QueueWork(fn)`: `_fns.push(fn)`. -/
def AsyncTexRequest.QueueWork {F : Type} (req : AsyncTexRequest F) (fn : F) :
    AsyncTexRequest F :=
  ⟨req.fns ++ [fn]⟩

/-! ## The option loop of `main` -/

/-- What the option loop of `main` (photos_sf.cpp) ends in. -/
inductive OptionsResult where
  /-- The loop left through `break` with these values. -/
  | parsed (next_arg : Nat) (profiling async : Bool)
  /-- The usage message and `exit(EXIT_FAILURE)`. -/
  | usage
  /-- The loop passed `argv[next_arg]` to `strncmp` with `next_arg = argc`,
  where `argv[argc]` is a null pointer. -/
  | nullArgument (next_arg : Nat)
  /-- The iteration bound of the model was reached. -/
  | outOfFuel
deriving DecidableEq

/-- The loop `for (;;)` of `main` (lines 908-919).  `strncmp(argv[next_arg],
"-p", 3) == 0` compares up to three characters, the terminating one included,
so it holds exactly for the argument `-p`.  The loop has no test on `next_arg`;
`argv` holds `argc` strings and `argv[argc]` is null. -/
def optionLoop (argv : List String) : Nat → Nat → Bool → Bool → OptionsResult
  | 0, _, _, _ => OptionsResult.outOfFuel
  | fuel + 1, next_arg, profiling, async =>
    match argv[next_arg]? with
    | none => OptionsResult.nullArgument next_arg
    | some arg =>
      if arg = "-p" then optionLoop argv fuel (u32 (next_arg + 1)) true async
      else if arg = "-s" then optionLoop argv fuel (u32 (next_arg + 1)) profiling false
      else OptionsResult.parsed next_arg profiling async

/-- The head of `main` (lines 898-921): the test `argc <= 1`, then the option
loop from `next_arg = 1`; `argc + 1` iterations are allowed for. -/
def mainOptions (argv : List String) : OptionsResult :=
  if argv.length ≤ 1 then OptionsResult.usage
  else optionLoop argv (argv.length + 1) 1 false true

/-! ## Auxiliary definitions for the work queue, the loaders and the device copy -/

/-- The requests after `QueueWork(f1), ..., QueueWork(fk)` in this order. -/
def queueAll {F : Type} (req : AsyncTexRequest F) (fs : List F) : AsyncTexRequest F :=
  fs.foldl AsyncTexRequest.QueueWork req

/-- The results of `k` successive calls of `Run` that share the output
argument, oldest first: the returned flags with the values of `*ret` after each
call, the request and `*ret` after the last call. -/
def runCalls {F : Type} : Nat → AsyncTexRequest F → F → List (Bool × F) × AsyncTexRequest F × F
  | 0, req, ret => ([], req, ret)
  | k + 1, req, ret =>
    (((req.Run ret).1, (req.Run ret).2.1) ::
      (runCalls k (req.Run ret).2.2 (req.Run ret).2.1).1,
     (runCalls k (req.Run ret).2.2 (req.Run ret).2.1).2)

/-- A request whose header claims payloads of 60 bytes, one of them empty, in a
file of 3000 payload bytes, used in the examples. -/
def inconsistentHdr : GenTCHeader := ⟨64, 64, 100, 10, 20, 30, 0⟩

/-- A request with 2^32 compressed bytes in its first payload, used in the
examples. -/
def hugeRequest : PBORequest :=
  ⟨2048, 0, 2048 + 4294967296, ⟨64, 64, 100, 4294967296, 0, 0, 0⟩⟩

/-! ## Collecting and staging the requests in `LoadTextures` -/

/-- The loop of `LoadTextures` that collects the requests (photos_sf.cpp, lines
655-665), for requests that all need a pixel buffer, from the values of
`pbo_reqs` and `total_pbo_size` on: the request is appended, the assertion
`(pbo_req->sz % 512) == 0` must hold (`none` where it does not), and `sz` is
added to `total_pbo_size`. -/
def collectRequests : List PBORequest → List PBORequest → Nat → Option (List PBORequest × Nat)
  | [], pbo_reqs, total => some (pbo_reqs, total)
  | req :: rest, pbo_reqs, total =>
    if req.sz % 512 = 0 then collectRequests rest (pbo_reqs ++ [req]) (total + req.sz)
    else none

/-- What `LoadTextures` stages for the requests `reqs` (photos_sf.cpp, lines
655-850): the collecting loop with its assertion, the guard `if (total_pbo_size
> 0)` around the whole of the staging, and inside it one worker per page job,
run on the requests between the job's iterators.  A failed assertion is `none`;
a worker without a defined result is `none` in the list; with `total_pbo_size =
0` no worker runs. -/
def LoadTextures_pages (reqs : List PBORequest) : Option (List (Option PageResult)) :=
  match collectRequests reqs [] 0 with
  | none => none
  | some (pbo_reqs, total) =>
    if total > 0 then
      some ((pageJobs pbo_reqs).map (fun job =>
        (jobRequests pbo_reqs job).bind (fun page =>
          pageWorker page job.input_sz job.page_id)))
    else some []

/-- The requests `Preload` fills in for files given by their length and their
header, each at least as long as the header. -/
def preloaded (files : List (Nat × GenTCHeader)) : List PBORequest :=
  files.map (fun file => Preload file.2 (file.1 - kHeaderSz))

/-- The numbers of frequency-table copies and of payload bytes a page worker
staged. -/
def stagedBytes (r : PageResult) : Nat × Nat :=
  (r.loop.freq_copies.length, (r.loop.data_copies.map Prod.snd).sum)

/-- A batch of sixteen files of 48 + 3000 bytes whose header claims payloads of
60 bytes, used in the examples. -/
def inconsistentBatch : List (Nat × GenTCHeader) := List.replicate 16 (3048, inconsistentHdr)

end demo

namespace ans

/-! ## Facts about the table layout -/

theorem cumulative_zero (F' : List Nat) : cumulative F' 0 = 0 := by
  simp [cumulative]

theorem cumulative_succ (f : Nat) (rest : List Nat) (k : Nat) :
    cumulative (f :: rest) (k + 1) = f + cumulative rest k := by
  simp [cumulative]

theorem cumulative_nil (k : Nat) : cumulative [] k = 0 := by
  simp [cumulative]

theorem cumulative_add_le_sum (F' : List Nat) :
    ∀ k, cumulative F' k + F'.getD k 0 ≤ F'.sum := by
  induction F' with
  | nil => intro k; simp [cumulative]
  | cons f rest ih =>
    intro k
    cases k with
    | zero => simp [cumulative]
    | succ k =>
      have := ih k
      simp only [cumulative_succ, List.getD_cons_succ, List.sum_cons]
      omega

theorem findSlot_spec (F' : List Nat) :
    ∀ s, s < F'.sum →
      findSlot F' s < F'.length ∧ cumulative F' (findSlot F' s) ≤ s ∧
        s < cumulative F' (findSlot F' s) + F'.getD (findSlot F' s) 0 := by
  induction F' with
  | nil => intro s hs; simp at hs
  | cons f rest ih =>
    intro s hs
    simp only [List.sum_cons] at hs
    by_cases h : s < f
    · simp [findSlot, h, cumulative_zero]
    · have := ih (s - f) (by omega)
      simp only [findSlot, h, if_false, List.length_cons, cumulative_succ,
        List.getD_cons_succ]
      omega

theorem findSlot_unique (F' : List Nat) :
    ∀ s σ, cumulative F' σ ≤ s → s < cumulative F' σ + F'.getD σ 0 →
      findSlot F' s = σ := by
  induction F' with
  | nil => intro s σ _ h2; simp [cumulative] at h2
  | cons f rest ih =>
    intro s σ h1 h2
    cases σ with
    | zero =>
      simp only [cumulative_zero, List.getD_cons_zero] at h1 h2
      simp [findSlot]; omega
    | succ σ =>
      simp only [cumulative_succ, List.getD_cons_succ] at h1 h2
      have h : ¬ s < f := by omega
      have := ih (s - f) σ (by omega) (by omega)
      simp [findSlot, h, this]

theorem fillRange_length (arr : List Nat) (start len v : Nat) :
    (fillRange arr start len v).length = arr.length := by
  induction len with
  | zero => simp [fillRange]
  | succ n ih =>
    simp only [fillRange, List.range_succ, List.foldl_append, List.foldl_cons, List.foldl_nil,
      List.length_set] at ih ⊢
    exact ih

theorem fillRange_getElem_opt (arr : List Nat) (start len v s : Nat) :
    (fillRange arr start len v)[s]? =
      if start ≤ s ∧ s < start + len ∧ s < arr.length then some v else arr[s]? := by
  induction len with
  | zero =>
    have : ¬ (start ≤ s ∧ s < start + 0 ∧ s < arr.length) := by omega
    simp only [this, if_false]
    simp [fillRange]
  | succ n ih =>
    have hl := fillRange_length arr start n v
    simp only [fillRange, List.range_succ, List.foldl_append, List.foldl_cons,
      List.foldl_nil] at ih hl ⊢
    rw [List.getElem?_set]
    by_cases h : start + n = s
    · subst h
      simp only [hl, if_true]
      by_cases h2 : start + n < arr.length
      · simp [h2]
      · simp [h2]
        omega
    · simp only [h, if_false, ih]
      by_cases h3 : start ≤ s ∧ s < start + n ∧ s < arr.length
      · have : start ≤ s ∧ s < start + (n + 1) ∧ s < arr.length := by omega
        simp [h3, this]
      · have : ¬ (start ≤ s ∧ s < start + (n + 1) ∧ s < arr.length) := by omega
        simp [h3, this]

theorem fillSymbol_eq (t : Tables) (i f sum : Nat) :
    fillSymbol t i f sum =
      ⟨fillRange t.symbols sum f (i % 256), fillRange t.frequencies sum f (f % 65536),
       fillRange t.cumulative_frequencies sum f (sum % 65536)⟩ := by
  unfold fillSymbol fillRange
  generalize List.range f = js
  induction js using List.reverseRecOn with
  | nil => simp
  | append_singleton js j ih =>
    simp only [List.foldl_append, List.foldl_cons, List.foldl_nil, ih, storeSlot]

theorem Tables.zero_sized : Tables.zero.sized := by
  simp [Tables.sized, Tables.zero]

theorem fillSymbol_sized (t : Tables) (i f sum : Nat) (h : t.sized) :
    (fillSymbol t i f sum).sized := by
  rw [fillSymbol_eq]
  simpa [Tables.sized, fillRange_length] using h

theorem findSlot_cons_lt (f : Nat) (rest : List Nat) (s : Nat) (h : s < f) :
    findSlot (f :: rest) s = 0 := by
  simp [findSlot, h]

theorem findSlot_cons_ge (f : Nat) (rest : List Nat) (s : Nat) (h : ¬ s < f) :
    findSlot (f :: rest) s = findSlot rest (s - f) + 1 := by
  simp [findSlot, h]

theorem fillTables_spec (rest : List Nat) :
    ∀ (t : Tables) (i sum : Nat), t.sized → sum + rest.sum ≤ kANSTableSize →
      ∃ t1, fillTables t rest i sum = some t1 ∧ t1.sized ∧
        ∀ s,
          t1.symbols[s]? =
            (if sum ≤ s ∧ s < sum + rest.sum then some ((i + findSlot rest (s - sum)) % 256)
             else t.symbols[s]?) ∧
          t1.frequencies[s]? =
            (if sum ≤ s ∧ s < sum + rest.sum then
               some (rest.getD (findSlot rest (s - sum)) 0 % 65536)
             else t.frequencies[s]?) ∧
          t1.cumulative_frequencies[s]? =
            (if sum ≤ s ∧ s < sum + rest.sum then
               some ((sum + cumulative rest (findSlot rest (s - sum))) % 65536)
             else t.cumulative_frequencies[s]?) := by
  induction rest with
  | nil =>
    intro t i sum ht _
    refine ⟨t, rfl, ht, fun s => ?_⟩
    have : ¬ (sum ≤ s ∧ s < sum + ([] : List Nat).sum) := by simp
    simp only [this, if_false, and_self]
  | cons f rest ih =>
    intro t i sum ht hsum
    simp only [List.sum_cons] at hsum
    have hno : ¬ kANSTableSize < sum + f := by omega
    obtain ⟨t1, h1, hs1, hget⟩ :=
      ih (fillSymbol t i f sum) (i + 1) (sum + f) (fillSymbol_sized t i f sum ht) (by omega)
    refine ⟨t1, by simp only [fillTables, hno, if_false, h1], hs1, fun s => ?_⟩
    obtain ⟨g1, g2, g3⟩ := hget s
    rw [g1, g2, g3, fillSymbol_eq]
    simp only [fillRange_getElem_opt, List.sum_cons]
    obtain ⟨l1, l2, l3⟩ := ht
    rw [l1, l2, l3]
    by_cases hA : sum + f ≤ s ∧ s < sum + f + rest.sum
    · have hB : sum ≤ s ∧ s < sum + (f + rest.sum) := by omega
      have hC : ¬ s - sum < f := by omega
      have hD : s - sum - f = s - (sum + f) := by omega
      simp only [hA, hB, and_self, if_true, findSlot_cons_ge f rest _ hC, hD,
        List.getD_cons_succ, cumulative_succ]
      refine ⟨?_, trivial, ?_⟩
      · congr 2; omega
      · congr 2; omega
    · by_cases hE : sum ≤ s ∧ s < sum + f
      · have hB : sum ≤ s ∧ s < sum + (f + rest.sum) := by omega
        have hC : s - sum < f := by omega
        have hF : sum ≤ s ∧ s < sum + f ∧ s < kANSTableSize := by omega
        simp only [hA, hB, hF, and_self, if_true, if_false, findSlot_cons_lt f rest _ hC,
          List.getD_cons_zero, cumulative_zero, Nat.add_zero]
      · have hB : ¬ (sum ≤ s ∧ s < sum + (f + rest.sum)) := by omega
        have hF : ¬ (sum ≤ s ∧ s < sum + f ∧ s < kANSTableSize) := by omega
        simp only [hA, hB, hF, if_false, and_self]

theorem BuildTables_spec (F' : List Nat) (hlen : F'.length ≤ 256)
    (hsum : F'.sum = kANSTableSize) :
    ∃ t, BuildTables F' = some t ∧ t.sized ∧
      ∀ s, s < kANSTableSize →
        t.symbols[s]? = some (findSlot F' s) ∧
        t.frequencies[s]? = some (F'.getD (findSlot F' s) 0) ∧
        t.cumulative_frequencies[s]? = some (cumulative F' (findSlot F' s)) := by
  obtain ⟨t, h1, h2, h3⟩ :=
    fillTables_spec F' Tables.zero 0 0 Tables.zero_sized (by omega)
  refine ⟨t, h1, h2, fun s hs => ?_⟩
  obtain ⟨g1, g2, g3⟩ := h3 s
  have hin : s < F'.sum := by omega
  obtain ⟨f1, f2, f3⟩ := findSlot_spec F' s (by omega)
  have f4 := cumulative_add_le_sum F' (findSlot F' s)
  simp only [kANSTableSize] at hs hsum
  rw [g1, g2, g3]
  simp only [Nat.zero_le, true_and, Nat.zero_add, Nat.sub_zero, hin, if_true]
  refine ⟨?_, ?_, ?_⟩
  · rw [Nat.mod_eq_of_lt (by omega)]
  · rw [Nat.mod_eq_of_lt (by omega)]
  · rw [Nat.mod_eq_of_lt (by omega)]

theorem fillTables_fresh (F' : List Nat) (t : Tables) (ht : t.sized)
    (hsum : F'.sum = kANSTableSize) :
    fillTables t F' 0 0 = fillTables Tables.zero F' 0 0 := by
  obtain ⟨t1, h1, hs1, g1⟩ := fillTables_spec F' t 0 0 ht (by omega)
  obtain ⟨t2, h2, hs2, g2⟩ :=
    fillTables_spec F' Tables.zero 0 0 Tables.zero_sized (by omega)
  rw [h1, h2]
  have key : ∀ s : Nat, t1.symbols[s]? = t2.symbols[s]? ∧ t1.frequencies[s]? = t2.frequencies[s]? ∧
      t1.cumulative_frequencies[s]? = t2.cumulative_frequencies[s]? := by
    intro s
    obtain ⟨a1, a2, a3⟩ := g1 s
    obtain ⟨b1, b2, b3⟩ := g2 s
    rw [a1, a2, a3, b1, b2, b3]
    by_cases hin : 0 ≤ s ∧ s < 0 + F'.sum
    · simp only [hin, and_self, if_true]
    · have hs : kANSTableSize ≤ s := by omega
      obtain ⟨l1, l2, l3⟩ := ht
      obtain ⟨z1, z2, z3⟩ := Tables.zero_sized
      simp only [hin, if_false]
      refine ⟨?_, ?_, ?_⟩
      · rw [List.getElem?_eq_none (by omega), List.getElem?_eq_none (by omega)]
      · rw [List.getElem?_eq_none (by omega), List.getElem?_eq_none (by omega)]
      · rw [List.getElem?_eq_none (by omega), List.getElem?_eq_none (by omega)]
  have e1 : t1.symbols = t2.symbols := List.ext_getElem? (fun s => (key s).1)
  have e2 : t1.frequencies = t2.frequencies := List.ext_getElem? (fun s => (key s).2.1)
  have e3 : t1.cumulative_frequencies = t2.cumulative_frequencies :=
    List.ext_getElem? (fun s => (key s).2.2)
  cases t1
  cases t2
  simp only at e1 e2 e3
  simp [e1, e2, e3]

theorem fillTables_sized (rest : List Nat) :
    ∀ (t : Tables) (i sum : Nat) (t1 : Tables), t.sized →
      fillTables t rest i sum = some t1 → t1.sized := by
  induction rest with
  | nil =>
    intro t i sum t1 ht h
    simp only [fillTables, Option.some.injEq] at h
    exact h ▸ ht
  | cons f rest ih =>
    intro t i sum t1 ht h
    simp only [fillTables] at h
    split at h
    · exact absurd h (by simp)
    · exact ih _ _ _ _ (fillSymbol_sized t i f sum ht) h

/-! ## Facts about normalization -/

theorem sum_set_int (l : List Int) :
    ∀ (k : Nat) (v : Int), k < l.length → (l.set k v).sum = l.sum + (v - l.getD k 0) := by
  induction l with
  | nil => intro k v h; simp at h
  | cons a l ih =>
    intro k v h
    cases k with
    | zero => simp; ring
    | succ k =>
      simp only [List.length_cons, Nat.add_lt_add_iff_right] at h
      simp only [List.set_cons_succ, List.sum_cons, ih k v h, List.getD_cons_succ]
      ring

theorem largestFrom_range (rest : List Nat) :
    ∀ best bestIdx i, largestFrom rest best bestIdx i = bestIdx ∨
      (i ≤ largestFrom rest best bestIdx i ∧ largestFrom rest best bestIdx i < i + rest.length) := by
  induction rest with
  | nil => intro best bestIdx i; simp [largestFrom]
  | cons f rest ih =>
    intro best bestIdx i
    simp only [largestFrom, List.length_cons]
    split
    · rcases ih f i (i + 1) with h | h
      · right; omega
      · right; omega
    · rcases ih best bestIdx (i + 1) with h | h
      · left; exact h
      · right; omega

theorem largestIndex_lt (F : List Nat) (h : F ≠ []) : largestIndex F < F.length := by
  have hpos : 0 < F.length := List.length_pos.mpr h
  rcases largestFrom_range F 0 0 0 with h1 | h1
  · unfold largestIndex; omega
  · unfold largestIndex; omega

theorem GenerateHistogram_ok (F : List Nat) (M : Nat) (hlen : F.length ≤ 256)
    (hT : 0 < F.sum) :
    GenerateHistogram F M =
      Except.ok (((F.map (scaleCount M F.sum)).set (largestIndex F)
        ((F.map (scaleCount M F.sum)).getD (largestIndex F) 0 +
          ((M : Int) - (F.map (scaleCount M F.sum)).sum)))) := by
  have h1 : ¬ 256 < F.length := by omega
  have h2 : ¬ F.sum = 0 := by omega
  simp only [GenerateHistogram, h1, h2, if_false]

theorem toCounts_sum (nF : List Int) :
    ∀ cs, toCounts nF = some cs → ((cs.sum : Nat) : Int) = nF.sum ∧ cs.length = nF.length := by
  induction nF with
  | nil =>
    intro cs h
    simp only [toCounts, Option.some.injEq] at h
    subst h
    simp
  | cons f rest ih =>
    intro cs h
    simp only [toCounts] at h
    split at h
    · exact absurd h (by simp)
    · rename_i hf
      split at h
      · exact absurd h (by simp)
      · rename_i cs1 h1
        simp only [Option.some.injEq] at h
        subst h
        obtain ⟨i1, i2⟩ := ih cs1 h1
        simp only [List.sum_cons, List.length_cons, Nat.cast_add, i1, i2, and_true]
        have : ((f.toNat : Nat) : Int) = f := Int.toNat_of_nonneg (by omega)
        rw [this]

theorem GenerateHistogram_sum (F : List Nat) (M : Nat) (nF : List Int)
    (h : GenerateHistogram F M = Except.ok nF) :
    nF.length = F.length ∧ nF.sum = (M : Int) := by
  unfold GenerateHistogram at h
  split at h
  · exact absurd h (by simp)
  · split at h
    · exact absurd h (by simp)
    · rename_i h1 h2
      simp only [Except.ok.injEq] at h
      subst h
      have hne : F ≠ [] := by
        intro h0
        subst h0
        simp at h2
      have hk : largestIndex F < (F.map (scaleCount M F.sum)).length := by
        simpa using largestIndex_lt F hne
      refine ⟨by simp, ?_⟩
      rw [sum_set_int _ _ _ hk]
      ring

theorem normalizedCounts_sum (F F' : List Nat) (h : normalizedCounts F = some F') :
    F'.sum = kANSTableSize ∧ F'.length = F.length := by
  unfold normalizedCounts at h
  split at h
  · exact absurd h (by simp)
  · rename_i nF hg
    obtain ⟨a1, a2⟩ := GenerateHistogram_sum F kANSTableSize nF hg
    obtain ⟨b1, b2⟩ := toCounts_sum nF F' h
    refine ⟨?_, by omega⟩
    have : ((F'.sum : Nat) : Int) = (kANSTableSize : Int) := by rw [b1, a2]
    exact_mod_cast this

theorem scaleCount_eq (M T f : Nat) : scaleCount M T f = ((scaleNat M T f : Nat) : Int) := by
  unfold scaleCount scaleNat
  split <;> simp

theorem scaleNat_zero (M T : Nat) : scaleNat M T 0 = 0 := by
  simp [scaleNat]

theorem scaleNat_pos (M T f : Nat) (h : 0 < f) : 1 ≤ scaleNat M T f := by
  have : f ≠ 0 := by omega
  simp only [scaleNat, this, if_false]
  exact Nat.le_max_left _ _

theorem scaleNat_upper (M T f : Nat) (hT : 0 < T) : T * scaleNat M T f ≤ f * M + T := by
  unfold scaleNat
  split
  · simp
  · have h1 : 2 * T * roundDiv (f * M) T ≤ 2 * (f * M) + T := by
      unfold roundDiv
      exact Nat.mul_div_le _ _
    rcases Nat.le_total 1 (roundDiv (f * M) T) with h | h
    · rw [Nat.max_eq_right h]
      nlinarith
    · rw [Nat.max_eq_left h]
      omega

theorem scaleNat_lower (M T f : Nat) (hT : 0 < T) (hf : 0 < f) :
    2 * (f * M) < 2 * T * scaleNat M T f + T := by
  have hf0 : f ≠ 0 := by omega
  simp only [scaleNat, hf0, if_false]
  have h1 : 2 * (f * M) + T < 2 * T * (roundDiv (f * M) T + 1) := by
    unfold roundDiv
    have := Nat.lt_mul_div_succ (2 * (f * M) + T) (show 0 < 2 * T by omega)
    simpa [Nat.mul_add] using this
  have h2 : roundDiv (f * M) T ≤ max 1 (roundDiv (f * M) T) := Nat.le_max_right _ _
  have h3 : 2 * T * roundDiv (f * M) T ≤ 2 * T * max 1 (roundDiv (f * M) T) :=
    Nat.mul_le_mul_left _ h2
  nlinarith

theorem scaleNat_sum_le (M T : Nat) (hT : 0 < T) (F : List Nat) :
    T * (F.map (scaleNat M T)).sum ≤ F.sum * M + F.length * T := by
  induction F with
  | nil => simp
  | cons f rest ih =>
    have := scaleNat_upper M T f hT
    simp only [List.map_cons, List.sum_cons, List.length_cons]
    nlinarith

theorem map_scaleCount (M T : Nat) (F : List Nat) :
    F.map (scaleCount M T) = (F.map (scaleNat M T)).map (fun n : Nat => (n : Int)) := by
  simp [List.map_map, Function.comp_def, scaleCount_eq]

theorem sum_map_cast (l : List Nat) :
    (l.map (fun n : Nat => (n : Int))).sum = ((l.sum : Nat) : Int) := by
  induction l with
  | nil => simp
  | cons a l ih => simp only [List.map_cons, List.sum_cons, ih, Nat.cast_add]

theorem largestFrom_max (rest : List Nat) :
    ∀ (pre : List Nat) (best bestIdx : Nat),
      best ≤ (pre ++ rest).getD bestIdx 0 → (∀ f ∈ pre, f ≤ best) →
      ∀ f ∈ pre ++ rest,
        f ≤ (pre ++ rest).getD (largestFrom rest best bestIdx pre.length) 0 := by
  induction rest with
  | nil =>
    intro pre best bestIdx h1 h2 f hf
    simp only [List.append_nil] at h1 hf ⊢
    simp only [largestFrom]
    exact le_trans (h2 f hf) h1
  | cons g rest ih =>
    intro pre best bestIdx h1 h2 f hf
    have happ : pre ++ g :: rest = (pre ++ [g]) ++ rest :=
      (List.append_assoc pre [g] rest).symm
    have hlen : (pre ++ [g]).length = pre.length + 1 := by simp
    simp only [largestFrom]
    split
    · rename_i hlt
      have := ih (pre ++ [g]) g pre.length
        (by
          rw [← happ, List.getD_eq_getElem?_getD,
            List.getElem?_append_right (Nat.le_refl _), Nat.sub_self]
          simp)
        (by
          intro x hx
          rcases List.mem_append.mp hx with hx | hx
          · exact le_trans (h2 x hx) (le_of_lt hlt)
          · simp at hx; omega)
        f (by rw [← happ]; exact hf)
      rw [hlen, ← happ] at this
      exact this
    · rename_i hnlt
      have := ih (pre ++ [g]) best bestIdx
        (by rw [← happ]; exact h1)
        (by
          intro x hx
          rcases List.mem_append.mp hx with hx | hx
          · exact h2 x hx
          · simp at hx; omega)
        f (by rw [← happ]; exact hf)
      rw [hlen, ← happ] at this
      exact this

theorem largestIndex_max (F : List Nat) : ∀ f ∈ F, f ≤ F.getD (largestIndex F) 0 := by
  intro f hf
  have := largestFrom_max F [] 0 0 (Nat.zero_le _) (by simp) f (by simpa using hf)
  simpa [largestIndex] using this

theorem sum_le_length_mul_largest (F : List Nat) :
    F.sum ≤ F.length * F.getD (largestIndex F) 0 := by
  have := List.sum_le_card_nsmul F (F.getD (largestIndex F) 0) (largestIndex_max F)
  simpa using this

theorem largest_pos (F : List Nat) (hT : 0 < F.sum) : 0 < F.getD (largestIndex F) 0 := by
  have := sum_le_length_mul_largest F
  rcases Nat.eq_zero_or_pos (F.getD (largestIndex F) 0) with h | h
  · rw [h] at this; omega
  · exact h

theorem getD_map_scaleCount (M T : Nat) (F : List Nat) (i : Nat) :
    (F.map (scaleCount M T)).getD i 0 = ((scaleNat M T (F.getD i 0) : Nat) : Int) := by
  have h := List.getD_map (l := F) (d := 0) (n := i) (scaleCount M T)
  have h0 : scaleCount M T 0 = 0 := by simp [scaleCount]
  rw [h0] at h
  rw [h, scaleCount_eq]

theorem getD_set_int (l : List Int) (k i : Nat) (v : Int) (hk : k < l.length) :
    (l.set k v).getD i 0 = if k = i then v else l.getD i 0 := by
  simp only [List.getD_eq_getElem?_getD, List.getElem?_set]
  split
  · simp [hk]
  · rfl

theorem largest_share_pos (F : List Nat) (hT : 0 < F.sum) (hn : F.length ≤ 45) :
    (F.map (scaleNat kANSTableSize F.sum)).sum <
      kANSTableSize + scaleNat kANSTableSize F.sum (F.getD (largestIndex F) 0) := by
  have ha := scaleNat_sum_le kANSTableSize F.sum hT F
  have hb := scaleNat_lower kANSTableSize F.sum (F.getD (largestIndex F) 0) hT (largest_pos F hT)
  have hc := sum_le_length_mul_largest F
  have hpos := largest_pos F hT
  simp only [kANSTableSize] at ha hb ⊢
  generalize (F.map (scaleNat 2048 F.sum)).sum = S at ha ⊢
  generalize scaleNat 2048 F.sum (F.getD (largestIndex F) 0) = r at hb ⊢
  generalize F.getD (largestIndex F) 0 = m at hb hc hpos
  generalize F.sum = T at ha hb hc hT
  generalize F.length = n at ha hc hn
  by_contra hcon
  have hS : 2048 + r ≤ S := by omega
  have h1 : T * (2048 + r) ≤ T * S := Nat.mul_le_mul_left T hS
  have h2 : T * r ≤ T * n := by nlinarith
  have h3 : r ≤ n := Nat.le_of_mul_le_mul_left h2 hT
  have h4 : T * r ≤ T * 45 := Nat.mul_le_mul_left T (by omega)
  have h5 : T ≤ 45 * m := le_trans hc (Nat.mul_le_mul_right m hn)
  nlinarith

/-! ## Facts about the bit writer, the bit reader and the word reversal -/

theorem shiftLeft_or_eq (a b i : Nat) (hb : b < 2 ^ i) : (a <<< i) ||| b = a * 2 ^ i + b := by
  rw [Nat.shiftLeft_eq, Nat.mul_comm, Nat.mul_add_lt_is_or hb]

theorem or_shiftLeft_eq (a b i : Nat) (hb : b < 2 ^ i) : b ||| (a <<< i) = a * 2 ^ i + b := by
  rw [Nat.lor_comm, shiftLeft_or_eq a b i hb]

theorem WriteBits_word (bs : List Nat) (v : Nat) (hv : v < 65536) :
    (BitWriter.mk bs 0 0).WriteBits v 16 = ⟨bs ++ [v % 256, v / 256 % 256], 0, 0⟩ := by
  have h0 : v >>> 16 = 0 := by
    rw [Nat.shiftRight_eq_div_pow]
    exact Nat.div_eq_of_lt hv
  simp [BitWriter.WriteBits, BitWriter.emitWords, h0]

theorem refill_enough (n : Nat) (data : List Nat) (buffer nbits : Nat) (h : n ≤ nbits) :
    BitReader.refill n data buffer nbits = some ⟨data, buffer, nbits⟩ := by
  match data with
  | [] => simp [BitReader.refill, h]
  | [b] => simp [BitReader.refill, h]
  | lo :: hi :: rest => simp [BitReader.refill, h]

theorem ReadBits_word (lo hi : Nat) (rest : List Nat) (hlo : lo < 256) (hhi : hi < 256) :
    (BitReader.mk (lo :: hi :: rest) 0 0).ReadBits 16 =
      some (hi * 256 + lo, ⟨rest, 0, 0⟩) := by
  have h1 : lo ||| (hi <<< 8) = hi * 256 + lo := or_shiftLeft_eq hi lo 8 (by omega)
  have h2 : (hi * 256 + lo) % 65536 = hi * 256 + lo := Nat.mod_eq_of_lt (by omega)
  have h3 : (hi * 256 + lo) >>> 16 = 0 := by
    rw [Nat.shiftRight_eq_div_pow]
    exact Nat.div_eq_of_lt (by omega)
  simp only [BitReader.ReadBits, BitReader.refill, Nat.not_succ_le_zero, if_false,
    Nat.zero_add, Nat.shiftLeft_zero, Nat.zero_or, h1, refill_enough 16 rest _ 16 (Nat.le_refl _)]
  simp [h2, h3]

theorem ReadBits_empty (n : Nat) (hn : 0 < n) : (BitReader.mk [] 0 0).ReadBits n = none := by
  have : ¬ n ≤ 0 := by omega
  simp [BitReader.ReadBits, BitReader.refill, this]

theorem shortsToBytes_append (X Y : List Nat) :
    shortsToBytes (X ++ Y) = shortsToBytes X ++ shortsToBytes Y := by
  induction X with
  | nil => simp [shortsToBytes]
  | cons x X ih => simp [shortsToBytes, ih]

theorem toShorts_append_even (n : Nat) :
    ∀ (A B : List Nat), A.length = 2 * n → toShorts (A ++ B) = toShorts A ++ toShorts B := by
  induction n with
  | zero =>
    intro A B hA
    have : A = [] := List.length_eq_zero.mp (by omega)
    subst this
    simp [toShorts]
  | succ n ih =>
    intro A B hA
    match A, hA with
    | lo :: hi :: A1, hA =>
      have hA1 : A1.length = 2 * n := by
        simp only [List.length_cons] at hA
        omega
      simp [toShorts, ih A1 B hA1]

theorem reversedStream_append (A B : List Nat) (hA : A.length % 2 = 0) :
    reversedStream (A ++ B) = reversedStream B ++ reversedStream A := by
  unfold reversedStream
  rw [toShorts_append_even (A.length / 2) A B (by omega), List.reverse_append,
    shortsToBytes_append]

theorem reversedStream_nil : reversedStream [] = [] := by
  simp [reversedStream, toShorts, shortsToBytes]

theorem reversedStream_word (lo hi : Nat) (hlo : lo < 256) (hhi : hi < 256) :
    reversedStream [lo, hi] = [lo, hi] := by
  have h1 : (hi <<< 8) ||| lo = hi * 256 + lo := shiftLeft_or_eq hi lo 8 (by omega)
  have h2 : (hi * 256 + lo) % 65536 = hi * 256 + lo := Nat.mod_eq_of_lt (by omega)
  simp only [reversedStream, toShorts, h1, h2, List.reverse_cons, List.reverse_nil,
    List.nil_append, shortsToBytes]
  congr 1
  · omega
  · congr 1
    omega

/-! ## One encoder step and the decoder step that undoes it -/

theorem encRenormState_bounds (f x : Nat) (hf : 1 ≤ f) (hf2 : f ≤ 2048) (hx1 : 2048 ≤ x)
    (hx2 : x < 65536 * 2048) :
    f ≤ encRenormState f x ∧ encRenormState f x < 65536 * f := by
  unfold encRenormState
  split
  · rename_i h
    constructor
    · exact (Nat.le_div_iff_mul_le (by omega)).mpr (by omega)
    · have : x / 65536 < 2048 := Nat.div_lt_of_lt_mul (by omega)
      omega
  · omega

theorem encState_range (f c x : Nat) (hf : 1 ≤ f) (hc : c + f ≤ 2048) (hx1 : 2048 ≤ x)
    (hx2 : x < 65536 * 2048) :
    2048 ≤ encState f c x ∧ encState f c x < 65536 * 2048 := by
  obtain ⟨h1, h2⟩ := encRenormState_bounds f x hf (by omega) hx1 hx2
  unfold encState
  generalize encRenormState f x = y at h1 h2
  have hq1 : 1 ≤ y / f := (Nat.le_div_iff_mul_le (by omega)).mpr (by omega)
  have hq2 : y / f < 65536 := Nat.div_lt_of_lt_mul (by rw [Nat.mul_comm]; exact h2)
  have hr : y % f < f := Nat.mod_lt _ (by omega)
  omega

theorem encodeRenorm_eq (f x : Nat) (hf : 1 ≤ f) (hx1 : 2048 ≤ x) (hx2 : x < 65536 * 2048) :
    encodeRenorm (65536 * f) x x BitWriter.init =
      (encRenormState f x, ⟨encBytes f x, 0, 0⟩) := by
  obtain ⟨n, hn⟩ : ∃ n, x = n + 2 := ⟨x - 2, by omega⟩
  have hsh : x >>> 16 = x / 65536 := Nat.shiftRight_eq_div_pow x 16
  have hlt : x / 65536 < 2048 := Nat.div_lt_of_lt_mul (by omega)
  have hstop : ¬ 65536 * f ≤ x / 65536 := by omega
  have hw := WriteBits_word [] (x % 65536) (Nat.mod_lt _ (by omega))
  unfold encRenormState encBytes
  by_cases h : 65536 * f ≤ x
  · simp only [h, if_true]
    conv => lhs; arg 2; rw [hn]
    simp only [encodeRenorm, kWordBase, kWordBits, h, if_true, hsh, hstop, if_false,
      BitWriter.init, hw, List.nil_append]
  · simp only [h, if_false]
    conv => lhs; arg 2; rw [hn]
    simp only [encodeRenorm, kWordBase, h, if_false, BitWriter.init]

theorem Encode_eq (F' : List Nat) (s x : Nat) (hsum : F'.sum = kANSTableSize)
    (hf : 1 ≤ F'.getD s 0) (hx1 : 2048 ≤ x) (hx2 : x < 65536 * 2048) :
    OpenCLEncoder.Encode ⟨F', x⟩ s BitWriter.init =
      some (⟨F', encState (F'.getD s 0) (cumulative F' s) x⟩,
            ⟨encBytes (F'.getD s 0) x, 0, 0⟩) := by
  have hc := cumulative_add_le_sum F' s
  simp only [kANSTableSize] at hsum
  have hr := encState_range (F'.getD s 0) (cumulative F' s) x hf (by omega) hx1 hx2
  have hf0 : ¬ F'.getD s 0 = 0 := by omega
  have hnot : ¬ 2 * 65536 * 2048 < encState (F'.getD s 0) (cumulative F' s) x := by omega
  simp only [OpenCLEncoder.Encode, hf0, if_false, encodeRenorm_eq _ x hf hx1 hx2,
    kANSTableBits, kANSTableSize, kWordBase, Nat.shiftLeft_eq]
  unfold encState at hnot ⊢
  simp only [Nat.reducePow, hnot, if_false]

theorem decodeRenorm_done (fuel x : Nat) (r : BitReader) (hx : 2048 ≤ x) :
    decodeRenorm fuel x r = some (x, r) := by
  have : ¬ x < 2048 := by omega
  cases fuel <;> simp [decodeRenorm, kANSTableSize, this]

theorem decodeRenorm_read (fuel x bits : Nat) (r r1 : BitReader) (hx : x < 2048)
    (hr : r.ReadBits 16 = some (bits, r1)) :
    decodeRenorm (fuel + 1) x r = decodeRenorm fuel ((x <<< 16) ||| bits) r1 := by
  rw [decodeRenorm]
  simp only [kANSTableSize, kWordBits, hx, if_true, hr]

theorem Decode_eq (F' : List Nat) (t : Tables) (s x : Nat) (rest : List Nat)
    (ht : TablesFor F' t) (hsum : F'.sum = kANSTableSize)
    (hf : 1 ≤ F'.getD s 0) (hx1 : 2048 ≤ x) (hx2 : x < 65536 * 2048) :
    OpenCLCPUDecoder.Decode ⟨t, encState (F'.getD s 0) (cumulative F' s) x⟩
        ⟨encBytes (F'.getD s 0) x ++ rest, 0, 0⟩ =
      some (s, ⟨t, x⟩, ⟨rest, 0, 0⟩) := by
  have hc := cumulative_add_le_sum F' s
  simp only [kANSTableSize] at hsum
  obtain ⟨hb1, hb2⟩ := encRenormState_bounds (F'.getD s 0) x hf (by omega) hx1 hx2
  have hr : encRenormState (F'.getD s 0) x % F'.getD s 0 < F'.getD s 0 :=
    Nat.mod_lt _ (by omega)
  have hslot : encState (F'.getD s 0) (cumulative F' s) x % 2048 =
      cumulative F' s + encRenormState (F'.getD s 0) x % F'.getD s 0 := by
    unfold encState
    omega
  have hdiv : encState (F'.getD s 0) (cumulative F' s) x / 2048 =
      encRenormState (F'.getD s 0) x / F'.getD s 0 := by
    unfold encState
    omega
  have hfind : findSlot F' (cumulative F' s + encRenormState (F'.getD s 0) x % F'.getD s 0) = s :=
    findSlot_unique F' _ s (by omega) (by omega)
  obtain ⟨t1, t2, t3⟩ := ht (cumulative F' s + encRenormState (F'.getD s 0) x % F'.getD s 0)
    (by simp only [kANSTableSize]; omega)
  rw [hfind] at t1 t2 t3
  have hf0 : ¬ F'.getD s 0 = 0 := by omega
  have hstate : F'.getD s 0 * (encRenormState (F'.getD s 0) x / F'.getD s 0) +
      (cumulative F' s + encRenormState (F'.getD s 0) x % F'.getD s 0) - cumulative F' s =
      encRenormState (F'.getD s 0) x := by
    have := Nat.div_add_mod (encRenormState (F'.getD s 0) x) (F'.getD s 0)
    omega
  simp only [OpenCLCPUDecoder.Decode, kANSTableSize, kANSTableBits, Nat.shiftRight_eq_div_pow,
    Nat.reducePow, hslot, hdiv, t1, t2, t3, hf0, if_false, hstate]
  unfold encRenormState encBytes
  by_cases h : 65536 * F'.getD s 0 ≤ x
  · have hlt : x / 65536 < 2048 := Nat.div_lt_of_lt_mul (by omega)
    have hword : x % 65536 / 256 % 256 * 256 + x % 65536 % 256 = x % 65536 := by omega
    have hrd := ReadBits_word (x % 65536 % 256) (x % 65536 / 256 % 256) rest
      (Nat.mod_lt _ (by omega)) (Nat.mod_lt _ (by omega))
    rw [hword] at hrd
    have hor : (x / 65536) <<< 16 ||| x % 65536 = x := by
      have e := shiftLeft_or_eq (x / 65536) (x % 65536) 16 (Nat.mod_lt _ (by omega))
      rw [e]
      have := Nat.div_add_mod x 65536
      omega
    simp only [h, if_true, List.cons_append, List.nil_append, List.length_cons,
      Nat.zero_add, Nat.mul_add, Nat.mul_one]
    have hfuel : 8 * rest.length + 8 + 8 = (8 * rest.length + 15) + 1 := by omega
    rw [hfuel, decodeRenorm_read _ _ _ _ _ hlt hrd, hor, decodeRenorm_done _ x _ hx1]
  · simp only [h, if_false, List.nil_append, decodeRenorm_done _ x _ hx1]

theorem encBytes_even (f x : Nat) : (encBytes f x).length % 2 = 0 := by
  unfold encBytes
  split <;> simp

theorem reversedStream_encBytes (f x : Nat) : reversedStream (encBytes f x) = encBytes f x := by
  unfold encBytes
  split
  · exact reversedStream_word _ _ (Nat.mod_lt _ (by omega)) (Nat.mod_lt _ (by omega))
  · exact reversedStream_nil

theorem reversedStream_step (f x : Nat) (out rest : List Nat) :
    reversedStream (encBytes f x ++ out) ++ rest =
      reversedStream out ++ (encBytes f x ++ rest) := by
  rw [reversedStream_append _ _ (encBytes_even f x), reversedStream_encBytes,
    List.append_assoc]

/-! ## The single-stream loops -/

theorem decodeSymbols_snoc (n : Nat) :
    ∀ (d d1 d2 : OpenCLCPUDecoder) (r r1 r2 : BitReader) (syms : List Nat) (sym : Nat),
      decodeSymbols n d r = some (syms, d1, r1) → d1.Decode r1 = some (sym, d2, r2) →
      decodeSymbols (n + 1) d r = some (syms ++ [sym], d2, r2) := by
  induction n with
  | zero =>
    intro d d1 d2 r r1 r2 syms sym h1 h2
    simp only [decodeSymbols, Option.some.injEq, Prod.mk.injEq] at h1
    obtain ⟨e1, e2, e3⟩ := h1
    subst e1 e2 e3
    simp [decodeSymbols, h2]
  | succ n ih =>
    intro d d1 d2 r r1 r2 syms sym h1 h2
    rw [decodeSymbols] at h1
    cases hd : d.Decode r with
    | none => simp [hd] at h1
    | some p =>
      obtain ⟨a, da, ra⟩ := p
      simp only [hd] at h1
      cases hrec : decodeSymbols n da ra with
      | none => simp [hrec] at h1
      | some q =>
        obtain ⟨syms1, db, rb⟩ := q
        simp only [hrec, Option.some.injEq, Prod.mk.injEq] at h1
        obtain ⟨e1, e2, e3⟩ := h1
        subst e1 e2 e3
        have := ih da db d2 ra rb r2 syms1 sym hrec h2
        rw [decodeSymbols]
        simp only [hd, this, List.cons_append]

theorem encodeSymbols_spec (F' : List Nat) (t : Tables) (hsum : F'.sum = kANSTableSize)
    (ht : TablesFor F' t) (S : List Nat) :
    ∀ (x : Nat) (stream : List Nat), (∀ s ∈ S, 1 ≤ F'.getD s 0) →
      2048 ≤ x → x < 65536 * 2048 →
      ∃ x1 out, encodeSymbols ⟨F', x⟩ stream S = some (⟨F', x1⟩, stream ++ out) ∧
        2048 ≤ x1 ∧ x1 < 65536 * 2048 ∧ out.length % 2 = 0 ∧
        ∀ rest, decodeSymbols S.length ⟨t, x1⟩ ⟨reversedStream out ++ rest, 0, 0⟩ =
          some (S.reverse, ⟨t, x⟩, ⟨rest, 0, 0⟩) := by
  induction S with
  | nil =>
    intro x stream _ hx1 hx2
    refine ⟨x, [], by simp [encodeSymbols], hx1, hx2, by simp, fun rest => ?_⟩
    simp [decodeSymbols, reversedStream_nil]
  | cons s S ih =>
    intro x stream hS hx1 hx2
    have hs : 1 ≤ F'.getD s 0 := hS s (List.mem_cons_self _ _)
    have hc := cumulative_add_le_sum F' s
    have hrange := encState_range (F'.getD s 0) (cumulative F' s) x hs
      (by simp only [kANSTableSize] at hsum; omega) hx1 hx2
    obtain ⟨x1, out, h1, h2, h3, h4, h5⟩ :=
      ih (encState (F'.getD s 0) (cumulative F' s) x) (stream ++ encBytes (F'.getD s 0) x)
        (fun a ha => hS a (List.mem_cons_of_mem _ ha)) hrange.1 hrange.2
    refine ⟨x1, encBytes (F'.getD s 0) x ++ out, ?_, h2, h3, ?_, fun rest => ?_⟩
    · rw [encodeSymbols, Encode_eq F' s x hsum hs hx1 hx2]
      simp only [h1, List.append_assoc]
    · have := encBytes_even (F'.getD s 0) x
      simp only [List.length_append]
      omega
    · rw [reversedStream_step, List.length_cons, List.reverse_cons]
      exact decodeSymbols_snoc _ _ _ _ _ _ _ _ _ (h5 _)
        (Decode_eq F' t s x rest ht hsum hs hx1 hx2)

/-! ## Facts used for the state range and the byte count -/

theorem encodeRenorm_fst (bF : Nat) (fuel : Nat) :
    ∀ (x : Nat) (w w1 : BitWriter),
      (encodeRenorm bF fuel x w).1 = (encodeRenorm bF fuel x w1).1 := by
  induction fuel with
  | zero => intro x w w1; rfl
  | succ n ih =>
    intro x w w1
    simp only [encodeRenorm]
    split
    · exact ih _ _ _
    · rfl

theorem Encode_state (F' : List Nat) (s x : Nat) (w : BitWriter)
    (hsum : F'.sum = kANSTableSize) (hf : 1 ≤ F'.getD s 0) (hx1 : 2048 ≤ x)
    (hx2 : x < 65536 * 2048) :
    ∃ w1, OpenCLEncoder.Encode ⟨F', x⟩ s w =
      some (⟨F', encState (F'.getD s 0) (cumulative F' s) x⟩, w1) := by
  have hc := cumulative_add_le_sum F' s
  simp only [kANSTableSize] at hsum
  have hr := encState_range (F'.getD s 0) (cumulative F' s) x hf (by omega) hx1 hx2
  have hf0 : ¬ F'.getD s 0 = 0 := by omega
  have hfst : (encodeRenorm (65536 * F'.getD s 0) x x w).1 = encRenormState (F'.getD s 0) x := by
    rw [encodeRenorm_fst _ _ _ w BitWriter.init, encodeRenorm_eq _ x hf hx1 hx2]
  have hnot : ¬ 2 * 65536 * 2048 < encState (F'.getD s 0) (cumulative F' s) x := by omega
  refine ⟨(encodeRenorm (65536 * F'.getD s 0) x x w).2, ?_⟩
  simp only [OpenCLEncoder.Encode, hf0, if_false, kANSTableBits, kANSTableSize, kWordBase,
    Nat.shiftLeft_eq, hfst]
  unfold encState at hnot ⊢
  simp only [Nat.reducePow, hnot, if_false]

theorem encodeSymbols_range (F' : List Nat) (hsum : F'.sum = kANSTableSize) (S : List Nat) :
    ∀ (x : Nat) (stream : List Nat), (∀ s ∈ S, 1 ≤ F'.getD s 0) →
      2048 ≤ x → x < 65536 * 2048 →
      ∃ x1 out, encodeSymbols ⟨F', x⟩ stream S = some (⟨F', x1⟩, out) ∧
        2048 ≤ x1 ∧ x1 < 65536 * 2048 := by
  induction S with
  | nil =>
    intro x stream _ hx1 hx2
    exact ⟨x, stream, by simp [encodeSymbols], hx1, hx2⟩
  | cons s S ih =>
    intro x stream hS hx1 hx2
    have hs : 1 ≤ F'.getD s 0 := hS s (List.mem_cons_self _ _)
    have hc := cumulative_add_le_sum F' s
    have hrange := encState_range (F'.getD s 0) (cumulative F' s) x hs
      (by simp only [kANSTableSize] at hsum; omega) hx1 hx2
    obtain ⟨w1, hw1⟩ := Encode_state F' s x BitWriter.init hsum hs hx1 hx2
    obtain ⟨x1, out, h1, h2, h3⟩ :=
      ih (encState (F'.getD s 0) (cumulative F' s) x) (stream ++ w1.bytes)
        (fun a ha => hS a (List.mem_cons_of_mem _ ha)) hrange.1 hrange.2
    exact ⟨x1, out, by rw [encodeSymbols, hw1]; exact h1, h2, h3⟩

theorem emitWords_parity (fuel : Nat) :
    ∀ w : BitWriter, (BitWriter.emitWords fuel w).bytes.length % 2 = w.bytes.length % 2 := by
  induction fuel with
  | zero => intro w; rfl
  | succ n ih =>
    intro w
    simp only [BitWriter.emitWords]
    split
    · rw [ih]
      simp only [List.length_append, List.length_cons, List.length_nil]
      omega
    · rfl

theorem WriteBits_parity (w : BitWriter) (val n : Nat) :
    (w.WriteBits val n).bytes.length % 2 = w.bytes.length % 2 := by
  unfold BitWriter.WriteBits
  rw [emitWords_parity]

theorem encodeRenorm_parity (bF : Nat) (fuel : Nat) :
    ∀ (x : Nat) (w : BitWriter),
      (encodeRenorm bF fuel x w).2.bytes.length % 2 = w.bytes.length % 2 := by
  induction fuel with
  | zero => intro x w; rfl
  | succ n ih =>
    intro x w
    simp only [encodeRenorm]
    split
    · rw [ih, WriteBits_parity]
    · rfl

theorem Encode_parity (e e1 : OpenCLEncoder) (s : Nat) (w w1 : BitWriter)
    (h : e.Encode s w = some (e1, w1)) : w1.bytes.length % 2 = w.bytes.length % 2 := by
  unfold OpenCLEncoder.Encode at h
  simp only at h
  split at h
  · exact absurd h (by simp)
  · split at h
    · exact absurd h (by simp)
    · simp only [Option.some.injEq, Prod.mk.injEq] at h
      rw [← h.2]
      exact encodeRenorm_parity _ _ _ _

theorem encodeSymbols_parity (S : List Nat) :
    ∀ (enc enc1 : OpenCLEncoder) (stream stream1 : List Nat),
      encodeSymbols enc stream S = some (enc1, stream1) →
      stream1.length % 2 = stream.length % 2 := by
  induction S with
  | nil =>
    intro enc enc1 stream stream1 h
    simp only [encodeSymbols, Option.some.injEq, Prod.mk.injEq] at h
    rw [h.2]
  | cons s S ih =>
    intro enc enc1 stream stream1 h
    rw [encodeSymbols] at h
    cases he : enc.Encode s BitWriter.init with
    | none => simp [he] at h
    | some p =>
      obtain ⟨e2, w⟩ := p
      simp only [he] at h
      have h1 := ih _ _ _ _ h
      have h2 := Encode_parity _ _ _ _ _ he
      simp only [List.length_append, BitWriter.init, List.length_nil] at h1 h2
      omega

theorem encodeStreams_parity (symbols : List (List Nat)) (sym_idx : Nat)
    (encs : List OpenCLEncoder) :
    ∀ (strm_idx : Nat) (stream : List Nat) (encs1 : List OpenCLEncoder) (stream1 : List Nat),
      encodeStreams symbols sym_idx encs strm_idx stream = some (encs1, stream1) →
      stream1.length % 2 = stream.length % 2 := by
  induction encs with
  | nil =>
    intro strm_idx stream encs1 stream1 h
    simp only [encodeStreams, Option.some.injEq, Prod.mk.injEq] at h
    rw [h.2]
  | cons enc encs ih =>
    intro strm_idx stream encs1 stream1 h
    rw [encodeStreams] at h
    cases hrow : symbols[strm_idx]? with
    | none => simp [hrow] at h
    | some row =>
      simp only [hrow] at h
      cases hsym : row[sym_idx]? with
      | none => simp [hsym] at h
      | some symbol =>
        simp only [hsym] at h
        cases he : enc.Encode symbol BitWriter.init with
        | none => simp [he] at h
        | some p =>
          obtain ⟨e2, w⟩ := p
          simp only [he] at h
          cases hrec : encodeStreams symbols sym_idx encs (strm_idx + 1) (stream ++ w.bytes) with
          | none => simp [hrec] at h
          | some q =>
            obtain ⟨encs2, stream2⟩ := q
            simp only [hrec, Option.some.injEq, Prod.mk.injEq] at h
            have h1 := ih _ _ _ _ hrec
            have h2 := Encode_parity _ _ _ _ _ he
            simp only [List.length_append, BitWriter.init, List.length_nil] at h1 h2
            rw [← h.2]
            omega

theorem encodeInterleaved_parity (symbols : List (List Nat)) (count : Nat) :
    ∀ (sym_idx : Nat) (encs : List OpenCLEncoder) (stream : List Nat)
      (encs1 : List OpenCLEncoder) (stream1 : List Nat),
      encodeInterleaved symbols count sym_idx encs stream = some (encs1, stream1) →
      stream1.length % 2 = stream.length % 2 := by
  induction count with
  | zero =>
    intro sym_idx encs stream encs1 stream1 h
    simp only [encodeInterleaved, Option.some.injEq, Prod.mk.injEq] at h
    rw [h.2]
  | succ n ih =>
    intro sym_idx encs stream encs1 stream1 h
    rw [encodeInterleaved] at h
    cases hs : encodeStreams symbols sym_idx encs 0 stream with
    | none => simp [hs] at h
    | some p =>
      obtain ⟨encs2, stream2⟩ := p
      simp only [hs] at h
      have h1 := ih _ _ _ _ _ h
      have h2 := encodeStreams_parity _ _ _ _ _ _ _ hs
      omega

/-! ## Whole-word writes and reads -/

theorem wordBytes_append (A B : List (Nat × Nat)) :
    wordBytes (A ++ B) = wordBytes A ++ wordBytes B := by
  induction A with
  | nil => simp [wordBytes]
  | cons p A ih => simp [wordBytes, ih]

theorem wordBytes_even (A : List (Nat × Nat)) : (wordBytes A).length % 2 = 0 := by
  induction A with
  | nil => simp [wordBytes]
  | cons p A ih =>
    simp only [wordBytes, List.length_cons]
    omega

theorem writeAll_words (ws : List (Nat × Nat)) :
    ∀ bs : List Nat, (∀ p ∈ ws, p.2 = 16 ∧ p.1 < 2 ^ p.2) →
      writeAll ⟨bs, 0, 0⟩ ws = ⟨bs ++ wordBytes ws, 0, 0⟩ := by
  induction ws with
  | nil => intro bs _; simp [writeAll, wordBytes]
  | cons p ws ih =>
    intro bs h
    obtain ⟨v, n⟩ := p
    obtain ⟨hn, hv⟩ := h (v, n) (List.mem_cons_self _ _)
    simp only at hn hv
    subst hn
    rw [writeAll, WriteBits_word bs v (by simpa using hv),
      ih _ (fun q hq => h q (List.mem_cons_of_mem _ hq))]
    simp [wordBytes]

theorem reversedStream_wordBytes (ws : List (Nat × Nat)) :
    reversedStream (wordBytes ws) = wordBytes ws.reverse := by
  induction ws with
  | nil => simp [wordBytes, reversedStream_nil]
  | cons p ws ih =>
    have h1 : wordBytes (p :: ws) = [p.1 % 256, p.1 / 256 % 256] ++ wordBytes ws := by
      simp [wordBytes]
    rw [h1, reversedStream_append _ _ (by simp), ih,
      reversedStream_word _ _ (Nat.mod_lt _ (by omega)) (Nat.mod_lt _ (by omega)),
      List.reverse_cons, wordBytes_append]
    simp [wordBytes]

theorem readAll_words (ws : List (Nat × Nat)) :
    ∀ rest : List Nat, (∀ p ∈ ws, p.2 = 16 ∧ p.1 < 2 ^ p.2) →
      readAll ⟨wordBytes ws ++ rest, 0, 0⟩ (ws.map Prod.snd) =
        some (ws.map Prod.fst, ⟨rest, 0, 0⟩) := by
  induction ws with
  | nil => intro rest _; simp [readAll, wordBytes]
  | cons p ws ih =>
    intro rest h
    obtain ⟨v, n⟩ := p
    obtain ⟨hn, hv⟩ := h (v, n) (List.mem_cons_self _ _)
    simp only at hn hv
    subst hn
    have hv1 : v < 65536 := by simpa using hv
    have hword : v / 256 % 256 * 256 + v % 256 = v := by omega
    have hrd := ReadBits_word (v % 256) (v / 256 % 256) (wordBytes ws ++ rest)
      (Nat.mod_lt _ (by omega)) (Nat.mod_lt _ (by omega))
    rw [hword] at hrd
    simp only [wordBytes, List.map_cons, List.cons_append, readAll, hrd,
      ih rest (fun q hq => h q (List.mem_cons_of_mem _ hq))]

/-! ## The interleaved loops -/

theorem valid_lookup (F' : List Nat) (symbols : List (List Nat)) (n count j i : Nat)
    (hv : ValidSymbols F' symbols n count) (hj : j < n) (hi : i < count) :
    symbols[j]? = some (symbols.getD j []) ∧
    (symbols.getD j [])[i]? = some (symAt symbols j i) ∧
    1 ≤ F'.getD (symAt symbols j i) 0 := by
  obtain ⟨h1, h2⟩ := hv
  have hj1 : j < symbols.length := by omega
  have hrow : symbols.getD j [] = symbols[j] := List.getD_eq_getElem _ _ hj1
  have hmem : symbols[j] ∈ symbols := List.getElem_mem hj1
  obtain ⟨h3, h4⟩ := h2 _ hmem
  have hi1 : i < symbols[j].length := by omega
  have hsym : symAt symbols j i = symbols[j][i] := by
    unfold symAt
    rw [hrow, List.getD_eq_getElem _ _ hi1]
  refine ⟨?_, ?_, ?_⟩
  · rw [hrow, List.getElem?_eq_getElem hj1]
  · rw [hsym, hrow, List.getElem?_eq_getElem hi1]
  · rw [hsym]
    exact h4 _ (List.getElem_mem hi1)

theorem cooperativeDecode_snoc
    (step : List OpenCLCPUDecoder → BitReader →
      Option (List Nat × List OpenCLCPUDecoder × BitReader)) (n : Nat) :
    ∀ (ds ds1 ds2 : List OpenCLCPUDecoder) (r r1 r2 : BitReader) (rows : List (List Nat))
      (row : List Nat),
      cooperativeDecode step n ds r = some (rows, ds1, r1) → step ds1 r1 = some (row, ds2, r2) →
      cooperativeDecode step (n + 1) ds r = some (rows ++ [row], ds2, r2) := by
  induction n with
  | zero =>
    intro ds ds1 ds2 r r1 r2 rows row h1 h2
    simp only [cooperativeDecode, Option.some.injEq, Prod.mk.injEq] at h1
    obtain ⟨e1, e2, e3⟩ := h1
    subst e1 e2 e3
    simp [cooperativeDecode, h2]
  | succ n ih =>
    intro ds ds1 ds2 r r1 r2 rows row h1 h2
    rw [cooperativeDecode] at h1
    cases hd : step ds r with
    | none => simp [hd] at h1
    | some p =>
      obtain ⟨a, da, ra⟩ := p
      simp only [hd] at h1
      cases hrec : cooperativeDecode step n da ra with
      | none => simp [hrec] at h1
      | some q =>
        obtain ⟨rows1, db, rb⟩ := q
        simp only [hrec, Option.some.injEq, Prod.mk.injEq] at h1
        obtain ⟨e1, e2, e3⟩ := h1
        subst e1 e2 e3
        have := ih da db ds2 ra rb r2 rows1 row hrec h2
        rw [cooperativeDecode]
        simp only [hd, this, List.cons_append]

theorem encodeStreams_spec (F' : List Nat) (t : Tables) (symbols : List (List Nat))
    (n count sym_idx : Nat) (hsum : F'.sum = kANSTableSize) (ht : TablesFor F' t)
    (hv : ValidSymbols F' symbols n count) (hi : sym_idx < count) (xs : List Nat) :
    ∀ (strm_idx : Nat) (stream : List Nat), strm_idx + xs.length ≤ n →
      (∀ x ∈ xs, 2048 ≤ x ∧ x < 65536 * 2048) →
      ∃ xs1 out,
        encodeStreams symbols sym_idx (encodersOf F' xs) strm_idx stream =
          some (encodersOf F' xs1, stream ++ out) ∧
        xs1.length = xs.length ∧ (∀ x ∈ xs1, 2048 ≤ x ∧ x < 65536 * 2048) ∧
        out.length % 2 = 0 ∧
        ∀ rest, decodeRanksDescending (decodersOf t xs1) ⟨reversedStream out ++ rest, 0, 0⟩ =
          some (rowAt symbols sym_idx strm_idx xs.length, decodersOf t xs, ⟨rest, 0, 0⟩) := by
  induction xs with
  | nil =>
    intro strm_idx stream _ _
    refine ⟨[], [], by simp [encodeStreams, encodersOf], rfl, by simp, by simp, fun rest => ?_⟩
    simp [decodeRanksDescending, decodersOf, rowAt, reversedStream_nil]
  | cons x xs ih =>
    intro strm_idx stream hlen hx
    simp only [List.length_cons] at hlen
    obtain ⟨hx1, hx2⟩ := hx x (List.mem_cons_self _ _)
    obtain ⟨l1, l2, l3⟩ := valid_lookup F' symbols n count strm_idx sym_idx hv (by omega) hi
    have hc := cumulative_add_le_sum F' (symAt symbols strm_idx sym_idx)
    have hrange := encState_range (F'.getD (symAt symbols strm_idx sym_idx) 0)
      (cumulative F' (symAt symbols strm_idx sym_idx)) x l3
      (by simp only [kANSTableSize] at hsum; omega) hx1 hx2
    obtain ⟨xs1, out, h1, h2, h3, h4, h5⟩ :=
      ih (strm_idx + 1) (stream ++ encBytes (F'.getD (symAt symbols strm_idx sym_idx) 0) x)
        (by omega) (fun a ha => hx a (List.mem_cons_of_mem _ ha))
    refine ⟨encState (F'.getD (symAt symbols strm_idx sym_idx) 0)
        (cumulative F' (symAt symbols strm_idx sym_idx)) x :: xs1,
      encBytes (F'.getD (symAt symbols strm_idx sym_idx) 0) x ++ out, ?_, ?_, ?_, ?_,
      fun rest => ?_⟩
    · simp only [encodersOf, List.map_cons] at h1 ⊢
      rw [encodeStreams]
      simp only [l1, l2, Encode_eq F' _ x hsum l3 hx1 hx2, h1, List.append_assoc]
    · simp [h2]
    · intro a ha
      rcases List.mem_cons.mp ha with ha | ha
      · subst ha; exact hrange
      · exact h3 a ha
    · have := encBytes_even (F'.getD (symAt symbols strm_idx sym_idx) 0) x
      simp only [List.length_append]
      omega
    · rw [reversedStream_step]
      simp only [decodersOf, List.map_cons] at h5 ⊢
      rw [decodeRanksDescending, h5]
      simp only [Decode_eq F' t _ x rest ht hsum l3 hx1 hx2, rowAt, List.length_cons,
        List.range'_succ, List.map_cons]

theorem encodeInterleaved_spec (F' : List Nat) (t : Tables) (symbols : List (List Nat))
    (n total : Nat) (hsum : F'.sum = kANSTableSize) (ht : TablesFor F' t)
    (hv : ValidSymbols F' symbols n total) (count : Nat) :
    ∀ (sym_idx : Nat) (xs stream : List Nat), sym_idx + count ≤ total → xs.length = n →
      (∀ x ∈ xs, 2048 ≤ x ∧ x < 65536 * 2048) →
      ∃ xs1 out,
        encodeInterleaved symbols count sym_idx (encodersOf F' xs) stream =
          some (encodersOf F' xs1, stream ++ out) ∧
        xs1.length = n ∧ out.length % 2 = 0 ∧
        ∀ rest, cooperativeDecode decodeRanksDescending count (decodersOf t xs1)
            ⟨reversedStream out ++ rest, 0, 0⟩ =
          some (((List.range' sym_idx count).map (fun i => rowAt symbols i 0 n)).reverse,
            decodersOf t xs, ⟨rest, 0, 0⟩) := by
  induction count with
  | zero =>
    intro sym_idx xs stream _ hlen _
    refine ⟨xs, [], by simp [encodeInterleaved], hlen, by simp, fun rest => ?_⟩
    simp [cooperativeDecode, reversedStream_nil]
  | succ count ih =>
    intro sym_idx xs stream hidx hlen hx
    obtain ⟨xs1, out1, a1, a2, a3, a4, a5⟩ :=
      encodeStreams_spec F' t symbols n total sym_idx hsum ht hv (by omega) xs 0 stream
        (by omega) hx
    obtain ⟨xs2, out2, b1, b2, b3, b4⟩ :=
      ih (sym_idx + 1) xs1 (stream ++ out1) (by omega) (by omega) a3
    refine ⟨xs2, out1 ++ out2, ?_, b2, ?_, fun rest => ?_⟩
    · rw [encodeInterleaved]
      simp only [a1, b1, List.append_assoc]
    · simp only [List.length_append]
      omega
    · rw [reversedStream_append _ _ a4, List.append_assoc, List.range'_succ, List.map_cons,
        List.reverse_cons]
      have hrow := a5 rest
      rw [hlen] at hrow
      exact cooperativeDecode_snoc _ _ _ _ _ _ _ _ _ _ (b4 _) hrow

theorem decodedStream_rows (symbols : List (List Nat)) (F' : List Nat) (n count j : Nat)
    (hv : ValidSymbols F' symbols n count) (hj : j < n) :
    (decodedStream ((List.range' 0 count).map (fun i => rowAt symbols i 0 n)).reverse j).reverse =
      symbols.getD j [] := by
  obtain ⟨h1, h2⟩ := hv
  have hj1 : j < symbols.length := by omega
  have hrow : symbols.getD j [] = symbols[j] := List.getD_eq_getElem _ _ hj1
  have hlen : (symbols.getD j []).length = count := by
    rw [hrow]
    exact (h2 _ (List.getElem_mem hj1)).1
  have hget : ∀ i, (rowAt symbols i 0 n).getD j 0 = (symbols.getD j []).getD i 0 := by
    intro i
    unfold rowAt
    rw [List.getD_eq_getElem?_getD, List.getElem?_map, List.getElem?_range' _ _ hj]
    simp [symAt]
  unfold decodedStream
  rw [List.map_reverse, List.reverse_reverse, List.map_map]
  simp only [Function.comp_def, hget]
  generalize symbols.getD j [] = l at hlen
  apply List.ext_getElem
  · simp [hlen]
  · intro i hi1 hi2
    simp only [List.getElem_map, List.getElem_range', Nat.zero_add, Nat.one_mul]
    exact List.getD_eq_getElem _ _ hi2

theorem getStates_encodersOf (F' : List Nat) (xs : List Nat) :
    getStates (encodersOf F' xs) = xs := by
  induction xs with
  | nil => rfl
  | cons x xs ih =>
    simp only [getStates, encodersOf, List.map_cons, OpenCLEncoder.GetState] at ih ⊢
    rw [ih]

theorem replicate_encoders (F' : List Nat) (n : Nat) :
    List.replicate n (OpenCLEncoder.ofNormalized F') =
      encodersOf F' (List.replicate n 2048) := by
  simp [encodersOf, OpenCLEncoder.ofNormalized, kANSTableSize]

theorem interleaved_spec (F' : List Nat) (symbols : List (List Nat)) (n count : Nat)
    (hlen : F'.length ≤ 256) (hsum : F'.sum = kANSTableSize)
    (hv : ValidSymbols F' symbols n count) :
    ∃ encs stream t,
      encodeInterleaved symbols count 0 (List.replicate n (OpenCLEncoder.ofNormalized F')) [] =
        some (encs, stream) ∧
      BuildTables F' = some t ∧
      cooperativeDecode decodeRanksDescending count ((getStates encs).map (fun x => ⟨t, x⟩))
          (BitReader.init (reversedStream stream)) =
        some (((List.range' 0 count).map (fun i => rowAt symbols i 0 n)).reverse,
          List.replicate n ⟨t, kANSTableSize⟩, ⟨[], 0, 0⟩) := by
  obtain ⟨t, hb, _, ht⟩ := BuildTables_spec F' hlen hsum
  obtain ⟨xs1, out, h1, _, _, h4⟩ :=
    encodeInterleaved_spec F' t symbols n count hsum ht hv count 0 (List.replicate n 2048) []
      (by omega) (by simp) (by
        intro x hx
        rw [List.eq_of_mem_replicate hx]
        omega)
  refine ⟨encodersOf F' xs1, out, t, ?_, hb, ?_⟩
  · rw [replicate_encoders]
    simpa using h1
  · have := h4 []
    simp only [List.append_nil] at this
    rw [getStates_encodersOf]
    simpa [BitReader.init, decodersOf, kANSTableSize] using this

theorem Decode_noread (F' : List Nat) (t : Tables) (X sym next : Nat) (r : BitReader)
    (ht : TablesFor F' t) (hsym : findSlot F' (X % 2048) = sym) (hf : F'.getD sym 0 ≠ 0)
    (hnext : F'.getD sym 0 * (X / 2048) + X % 2048 - cumulative F' sym = next)
    (hdone : 2048 ≤ next) :
    OpenCLCPUDecoder.Decode ⟨t, X⟩ r = some (sym, ⟨t, next⟩, r) := by
  obtain ⟨t1, t2, t3⟩ := ht (X % 2048) (Nat.mod_lt _ (by simp [kANSTableSize]))
  rw [hsym] at t1 t2 t3
  simp only [OpenCLCPUDecoder.Decode, kANSTableSize, kANSTableBits, Nat.shiftRight_eq_div_pow,
    Nat.reducePow, t1, t2, t3, hf, if_false, hnext, decodeRenorm_done _ next _ hdone]

theorem Decode_read (F' : List Nat) (t : Tables) (X sym next lo hi : Nat) (rest : List Nat)
    (ht : TablesFor F' t) (hsym : findSlot F' (X % 2048) = sym) (hf : F'.getD sym 0 ≠ 0)
    (hnext : F'.getD sym 0 * (X / 2048) + X % 2048 - cumulative F' sym = next)
    (hread : next < 2048) (hlo : lo < 256) (hhi : hi < 256)
    (hdone : 2048 ≤ next * 65536 + (hi * 256 + lo)) :
    OpenCLCPUDecoder.Decode ⟨t, X⟩ ⟨lo :: hi :: rest, 0, 0⟩ =
      some (sym, ⟨t, next * 65536 + (hi * 256 + lo)⟩, ⟨rest, 0, 0⟩) := by
  obtain ⟨t1, t2, t3⟩ := ht (X % 2048) (Nat.mod_lt _ (by simp [kANSTableSize]))
  rw [hsym] at t1 t2 t3
  have hrd := ReadBits_word lo hi rest hlo hhi
  have hor : next <<< 16 ||| (hi * 256 + lo) = next * 65536 + (hi * 256 + lo) :=
    shiftLeft_or_eq next (hi * 256 + lo) 16 (by omega)
  have hfuel : 0 + 8 * (lo :: hi :: rest).length = (8 * rest.length + 15) + 1 := by
    simp only [List.length_cons]
    omega
  simp only [OpenCLCPUDecoder.Decode, kANSTableSize, kANSTableBits, Nat.shiftRight_eq_div_pow,
    Nat.reducePow, t1, t2, t3, hf, if_false, hnext]
  rw [hfuel, decodeRenorm_read _ _ _ _ _ hread hrd, hor, decodeRenorm_done _ _ _ hdone]

theorem interleavedTrial_eq
    (step : List OpenCLCPUDecoder → BitReader →
      Option (List Nat × List OpenCLCPUDecoder × BitReader))
    (F' : List Nat) (symbols : List (List Nat)) (n count : Nat)
    (encs : List OpenCLEncoder) (stream : List Nat) (t : Tables) (rows : List (List Nat))
    (ds : List OpenCLCPUDecoder) (r : BitReader)
    (h1 : encodeInterleaved symbols count 0
      (List.replicate n (OpenCLEncoder.ofNormalized F')) [] = some (encs, stream))
    (h2 : BuildTables F' = some t)
    (h3 : cooperativeDecode step count ((getStates encs).map (fun x => ⟨t, x⟩))
      (BitReader.init (reversedStream stream)) = some (rows, ds, r)) :
    interleavedTrial step F' symbols n count = some rows := by
  simp only [interleavedTrial, h1, h2, h3]

theorem new_isSome (G : List Nat) (h : (normalizedCounts G).isSome) :
    (OpenCLDecoder.new G).isSome := by
  unfold OpenCLDecoder.new BuildTables
  cases hn : normalizedCounts G with
  | none => simp [hn] at h
  | some G' =>
    obtain ⟨t, ht, _⟩ := fillTables_spec G' Tables.zero 0 0 Tables.zero_sized
      (by have := (normalizedCounts_sum G G' hn).1; omega)
    simp only [ht, Option.isSome_some]

theorem some_getD_of_isSome {α : Type} (o : Option α) (d : α) (h : o.isSome) :
    o = some (o.getD d) := by
  cases o with
  | none => simp at h
  | some a => rfl

/-! ## The claims -/

/-- C1. Single-stream round trip: for a normalized table `F'` (at most 256
symbols, entries summing to M = 2048) and symbols `S` of non-zero normalized
frequency, the encoding loop started in x₀ = M succeeds, a decoder can be built
for the encoder's final state, and `|S|` calls of Decode over the emitted
16-bit words taken in reverse order return `reverse(S)`. -/
theorem single_stream_round_trip (F' S : List Nat) (hlen : F'.length ≤ 256)
    (hsum : F'.sum = kANSTableSize) (hS : ∀ s ∈ S, 1 ≤ F'.getD s 0) :
    ∃ enc stream dec dec1 r1,
      encodeSymbols (OpenCLEncoder.ofNormalized F') [] S = some (enc, stream) ∧
      OpenCLCPUDecoder.ofNormalized enc.GetState F' = some dec ∧
      decodeSymbols S.length dec (BitReader.init (reversedStream stream)) =
        some (S.reverse, dec1, r1) := by
  obtain ⟨t, hb, _, ht⟩ := BuildTables_spec F' hlen hsum
  obtain ⟨x1, out, h1, _, _, _, h5⟩ :=
    encodeSymbols_spec F' t hsum ht S 2048 [] hS (by omega) (by omega)
  refine ⟨⟨F', x1⟩, out, ⟨t, x1⟩, ⟨t, 2048⟩, ⟨[], 0, 0⟩, ?_, ?_, ?_⟩
  · simpa [OpenCLEncoder.ofNormalized, kANSTableSize] using h1
  · simp [OpenCLCPUDecoder.ofNormalized, hb, OpenCLEncoder.GetState]
  · have := h5 []
    simpa [BitReader.init] using this

/-- Witness for C1: the normalized form of the test table
`{12, 14, 17, 1, 1, 2, 372}` and a short symbol sequence. -/
theorem single_stream_round_trip_witness :
    ([59, 68, 83, 5, 5, 10, 1818] : List Nat).length ≤ 256 ∧
    ([59, 68, 83, 5, 5, 10, 1818] : List Nat).sum = kANSTableSize ∧
    (∀ s ∈ ([6, 3, 0, 6] : List Nat), 1 ≤ ([59, 68, 83, 5, 5, 10, 1818] : List Nat).getD s 0) ∧
    ∃ enc stream dec dec1 r1,
      encodeSymbols (OpenCLEncoder.ofNormalized [59, 68, 83, 5, 5, 10, 1818]) [] [6, 3, 0, 6] =
        some (enc, stream) ∧
      OpenCLCPUDecoder.ofNormalized enc.GetState [59, 68, 83, 5, 5, 10, 1818] = some dec ∧
      decodeSymbols ([6, 3, 0, 6] : List Nat).length dec (BitReader.init (reversedStream stream)) =
        some (([6, 3, 0, 6] : List Nat).reverse, dec1, r1) :=
  ⟨by decide, by decide, by decide,
    single_stream_round_trip [59, 68, 83, 5, 5, 10, 1818] [6, 3, 0, 6]
      (by decide) (by decide) (by decide)⟩

/-- C2. Interleaved round trip: for `n` encoders over a normalized table `F'`
(at most 256 symbols, sum M) started in x₀ = M and `n` streams of `count`
symbols of non-zero normalized frequency, the round-robin encoding into one
shared buffer succeeds, and `n` decoders started in the final states that
consume the 16-bit words in the reverse of the order of emission recover every
stream: the symbols decoder `j` produced, reversed, are stream `j`. -/
theorem interleaved_round_trip (F' : List Nat) (symbols : List (List Nat)) (n count : Nat)
    (hlen : F'.length ≤ 256) (hsum : F'.sum = kANSTableSize)
    (hn : symbols.length = n)
    (hrows : ∀ row ∈ symbols, row.length = count ∧ ∀ s ∈ row, 1 ≤ F'.getD s 0) :
    ∃ rows, interleavedTrial decodeRanksDescending F' symbols n count = some rows ∧
      ∀ j, j < n → (decodedStream rows j).reverse = symbols.getD j [] := by
  have hv : ValidSymbols F' symbols n count := ⟨hn, hrows⟩
  obtain ⟨encs, stream, t, h1, h2, h3⟩ := interleaved_spec F' symbols n count hlen hsum hv
  exact ⟨_, interleavedTrial_eq _ _ _ _ _ _ _ t _ _ _ h1 h2 h3,
    fun j hj => decodedStream_rows symbols F' n count j hv hj⟩

/-- Witness for C2: two streams of two symbols over `[1, 1, 2046]`. -/
theorem interleaved_round_trip_witness :
    ([1, 1, 2046] : List Nat).length ≤ 256 ∧ ([1, 1, 2046] : List Nat).sum = kANSTableSize ∧
    ([[0, 0], [1, 0]] : List (List Nat)).length = 2 ∧
    (∀ row ∈ ([[0, 0], [1, 0]] : List (List Nat)),
      row.length = 2 ∧ ∀ s ∈ row, 1 ≤ ([1, 1, 2046] : List Nat).getD s 0) ∧
    ∃ rows, interleavedTrial decodeRanksDescending [1, 1, 2046] [[0, 0], [1, 0]] 2 2 =
        some rows ∧
      ∀ j, j < 2 → (decodedStream rows j).reverse = ([[0, 0], [1, 0]] : List (List Nat)).getD j [] :=
  ⟨by decide, by decide, by decide, by decide,
    interleaved_round_trip [1, 1, 2046] [[0, 0], [1, 0]] 2 2
      (by decide) (by decide) (by decide) (by decide)⟩

/-- C3 (as stated) fails: two encoders over `[1, 1, 2046]` encode the streams
`[0, 0]` and `[1, 0]`; both emit a word at the second symbol step.  Decoding in
ascending rank hands the word of encoder 1 to decoder 0, which then produces
`[0, 1]` instead of the reverse `[0, 0]` of its stream. -/
theorem ascending_decode_counterexample :
    ([1, 1, 2046] : List Nat).sum = kANSTableSize ∧
    interleavedTrial decodeRanksAscending [1, 1, 2046] [[0, 0], [1, 0]] 2 2 =
      some [[0, 0], [1, 0]] ∧
    decodedStream [[0, 0], [1, 0]] 0 ≠ (([[0, 0], [1, 0]] : List (List Nat)).getD 0 []).reverse := by
  refine ⟨by decide, ?_, by decide⟩
  obtain ⟨t, hb, _, ht⟩ := BuildTables_spec [1, 1, 2046] (by decide) (by decide)
  have e : encodeInterleaved [[0, 0], [1, 0]] 2 0
      (List.replicate 2 (OpenCLEncoder.ofNormalized [1, 1, 2046])) [] =
      some ([⟨[1, 1, 2046], 131072⟩, ⟨[1, 1, 2046], 131072⟩], [0, 0, 1, 0]) := by rfl
  have hrev : reversedStream [0, 0, 1, 0] = [1, 0, 0, 0] := by decide
  have d1 : OpenCLCPUDecoder.Decode ⟨t, 131072⟩ ⟨[1, 0, 0, 0], 0, 0⟩ =
      some (0, ⟨t, 4194305⟩, ⟨[0, 0], 0, 0⟩) :=
    Decode_read [1, 1, 2046] t 131072 0 64 1 0 [0, 0] ht (by decide) (by decide) (by decide)
      (by decide) (by decide) (by decide) (by decide)
  have d2 : OpenCLCPUDecoder.Decode ⟨t, 131072⟩ ⟨[0, 0], 0, 0⟩ =
      some (0, ⟨t, 4194304⟩, ⟨[], 0, 0⟩) :=
    Decode_read [1, 1, 2046] t 131072 0 64 0 0 [] ht (by decide) (by decide) (by decide)
      (by decide) (by decide) (by decide) (by decide)
  have d3 : OpenCLCPUDecoder.Decode ⟨t, 4194305⟩ ⟨[], 0, 0⟩ =
      some (1, ⟨t, 2048⟩, ⟨[], 0, 0⟩) :=
    Decode_noread [1, 1, 2046] t 4194305 1 2048 _ ht (by decide) (by decide) (by decide)
      (by decide)
  have d4 : OpenCLCPUDecoder.Decode ⟨t, 4194304⟩ ⟨[], 0, 0⟩ =
      some (0, ⟨t, 2048⟩, ⟨[], 0, 0⟩) :=
    Decode_noread [1, 1, 2046] t 4194304 0 2048 _ ht (by decide) (by decide) (by decide)
      (by decide)
  have s1 : decodeRanksAscending [⟨t, 131072⟩, ⟨t, 131072⟩] ⟨[1, 0, 0, 0], 0, 0⟩ =
      some ([0, 0], [⟨t, 4194305⟩, ⟨t, 4194304⟩], ⟨[], 0, 0⟩) := by
    simp only [decodeRanksAscending, d1, d2]
  have s2 : decodeRanksAscending [⟨t, 4194305⟩, ⟨t, 4194304⟩] ⟨[], 0, 0⟩ =
      some ([1, 0], [⟨t, 2048⟩, ⟨t, 2048⟩], ⟨[], 0, 0⟩) := by
    simp only [decodeRanksAscending, d3, d4]
  have c : cooperativeDecode decodeRanksAscending 2
      ((getStates [⟨[1, 1, 2046], 131072⟩, ⟨[1, 1, 2046], 131072⟩]).map (fun x => ⟨t, x⟩))
      (BitReader.init (reversedStream [0, 0, 1, 0])) =
      some ([[0, 0], [1, 0]], [⟨t, 2048⟩, ⟨t, 2048⟩], ⟨[], 0, 0⟩) := by
    rw [hrev]
    simp only [getStates, OpenCLEncoder.GetState, List.map, BitReader.init, cooperativeDecode,
      s1, s2]
  exact interleavedTrial_eq _ _ _ _ _ _ _ t _ _ _ e hb c

/-- C3 (amended). Cooperative decode order: for the interleaved stream produced
by encoding streams 0..n−1 in ascending order at every symbol step, the
cooperative decode that reads the reversed word stream through one shared bit
reader and advances the decoders in descending rank (n−1, …, 0) at each symbol
step reproduces every encoder `j`'s symbols in reverse order, returns every
decoder to the initial state M and leaves the reader at the end of the
stream. -/
theorem descending_cooperative_decode (F' : List Nat) (symbols : List (List Nat))
    (n count : Nat) (hlen : F'.length ≤ 256) (hsum : F'.sum = kANSTableSize)
    (hn : symbols.length = n)
    (hrows : ∀ row ∈ symbols, row.length = count ∧ ∀ s ∈ row, 1 ≤ F'.getD s 0) :
    ∃ encs stream t rows,
      encodeInterleaved symbols count 0 (List.replicate n (OpenCLEncoder.ofNormalized F')) [] =
        some (encs, stream) ∧
      BuildTables F' = some t ∧
      cooperativeDecode decodeRanksDescending count ((getStates encs).map (fun x => ⟨t, x⟩))
          (BitReader.init (reversedStream stream)) =
        some (rows, List.replicate n ⟨t, kANSTableSize⟩, ⟨[], 0, 0⟩) ∧
      ∀ j, j < n → decodedStream rows j = (symbols.getD j []).reverse := by
  have hv : ValidSymbols F' symbols n count := ⟨hn, hrows⟩
  obtain ⟨encs, stream, t, h1, h2, h3⟩ := interleaved_spec F' symbols n count hlen hsum hv
  refine ⟨encs, stream, t, _, h1, h2, h3, fun j hj => ?_⟩
  rw [← decodedStream_rows symbols F' n count j hv hj, List.reverse_reverse]

/-- Witness for C3 (amended): two streams of two symbols over `[1, 1, 2046]`. -/
theorem descending_cooperative_decode_witness :
    ([1, 1, 2046] : List Nat).length ≤ 256 ∧ ([1, 1, 2046] : List Nat).sum = kANSTableSize ∧
    ([[0, 0], [1, 0]] : List (List Nat)).length = 2 ∧
    (∀ row ∈ ([[0, 0], [1, 0]] : List (List Nat)),
      row.length = 2 ∧ ∀ s ∈ row, 1 ≤ ([1, 1, 2046] : List Nat).getD s 0) ∧
    ∃ encs stream t rows,
      encodeInterleaved [[0, 0], [1, 0]] 2 0
          (List.replicate 2 (OpenCLEncoder.ofNormalized [1, 1, 2046])) [] =
        some (encs, stream) ∧
      BuildTables [1, 1, 2046] = some t ∧
      cooperativeDecode decodeRanksDescending 2 ((getStates encs).map (fun x => ⟨t, x⟩))
          (BitReader.init (reversedStream stream)) =
        some (rows, List.replicate 2 ⟨t, kANSTableSize⟩, ⟨[], 0, 0⟩) ∧
      ∀ j, j < 2 →
        decodedStream rows j = (([[0, 0], [1, 0]] : List (List Nat)).getD j []).reverse :=
  ⟨by decide, by decide, by decide, by decide,
    descending_cooperative_decode [1, 1, 2046] [[0, 0], [1, 0]] 2 2
      (by decide) (by decide) (by decide) (by decide)⟩

/-- C4. Encoder state range: over a normalized table with sum M = 2048, an
Encode call entered with `M ≤ x < b·M` for a symbol with `1 ≤ F'[s] ≤ M`
succeeds and leaves a state in `[M, b·M)` (whatever the writer holds); hence
every state the encoding loop reaches from x₀ = M lies in `[M, b·M)`. -/
theorem encoder_state_range (F' : List Nat) (hsum : F'.sum = kANSTableSize) :
    (∀ (s x : Nat) (w : BitWriter), 1 ≤ F'.getD s 0 → F'.getD s 0 ≤ kANSTableSize →
      kANSTableSize ≤ x → x < kWordBase * kANSTableSize →
      ∃ e w1, OpenCLEncoder.Encode ⟨F', x⟩ s w = some (e, w1) ∧
        kANSTableSize ≤ e.state ∧ e.state < kWordBase * kANSTableSize) ∧
    (∀ (S stream : List Nat), (∀ s ∈ S, 1 ≤ F'.getD s 0) →
      ∃ e out, encodeSymbols (OpenCLEncoder.ofNormalized F') stream S = some (e, out) ∧
        kANSTableSize ≤ e.state ∧ e.state < kWordBase * kANSTableSize) := by
  constructor
  · intro s x w hf _ hx1 hx2
    simp only [kANSTableSize, kWordBase] at hx1 hx2 ⊢
    have hc := cumulative_add_le_sum F' s
    have hrange := encState_range (F'.getD s 0) (cumulative F' s) x hf
      (by simp only [kANSTableSize] at hsum; omega) hx1 hx2
    obtain ⟨w1, hw1⟩ := Encode_state F' s x w hsum hf hx1 hx2
    exact ⟨_, w1, hw1, hrange.1, hrange.2⟩
  · intro S stream hS
    obtain ⟨x1, out, h1, h2, h3⟩ :=
      encodeSymbols_range F' hsum S 2048 stream hS (by omega) (by omega)
    exact ⟨⟨F', x1⟩, out, by simpa [OpenCLEncoder.ofNormalized, kANSTableSize] using h1,
      by simpa [kANSTableSize] using h2, by simpa [kANSTableSize, kWordBase] using h3⟩

/-- Witness for C4: the normalized form of the test table
`{12, 14, 17, 1, 1, 2, 372}`. -/
theorem encoder_state_range_witness :
    ([59, 68, 83, 5, 5, 10, 1818] : List Nat).sum = kANSTableSize ∧
    ((∀ (s x : Nat) (w : BitWriter), 1 ≤ ([59, 68, 83, 5, 5, 10, 1818] : List Nat).getD s 0 →
      ([59, 68, 83, 5, 5, 10, 1818] : List Nat).getD s 0 ≤ kANSTableSize →
      kANSTableSize ≤ x → x < kWordBase * kANSTableSize →
      ∃ e w1, OpenCLEncoder.Encode ⟨[59, 68, 83, 5, 5, 10, 1818], x⟩ s w = some (e, w1) ∧
        kANSTableSize ≤ e.state ∧ e.state < kWordBase * kANSTableSize) ∧
    (∀ (S stream : List Nat), (∀ s ∈ S, 1 ≤ ([59, 68, 83, 5, 5, 10, 1818] : List Nat).getD s 0) →
      ∃ e out, encodeSymbols (OpenCLEncoder.ofNormalized [59, 68, 83, 5, 5, 10, 1818]) stream S =
          some (e, out) ∧
        kANSTableSize ≤ e.state ∧ e.state < kWordBase * kANSTableSize)) :=
  ⟨by decide, encoder_state_range [59, 68, 83, 5, 5, 10, 1818] (by decide)⟩

/-- C5. Table layout: for a normalized frequency table `F'` (at most 256
symbols, entries summing to M) the build succeeds, the three tables have M
slots each, and for every slot `s < M` the stored symbol is `σ` exactly when
`cumulative σ ≤ s < cumulative σ + F'[σ]`; the stored frequency is the symbol's
normalized frequency, the stored cumulative frequency is the symbol's first
slot, and the symbol has a non-zero frequency. -/
theorem table_layout (F' : List Nat) (hlen : F'.length ≤ 256)
    (hsum : F'.sum = kANSTableSize) :
    ∃ t, BuildTables F' = some t ∧
      t.symbols.length = kANSTableSize ∧ t.frequencies.length = kANSTableSize ∧
      t.cumulative_frequencies.length = kANSTableSize ∧
      ∀ s, s < kANSTableSize →
        ∃ sym, t.symbols[s]? = some sym ∧
          (∀ σ, sym = σ ↔ (cumulative F' σ ≤ s ∧ s < cumulative F' σ + F'.getD σ 0)) ∧
          t.frequencies[s]? = some (F'.getD sym 0) ∧
          t.cumulative_frequencies[s]? = some (cumulative F' sym) ∧
          1 ≤ F'.getD sym 0 := by
  obtain ⟨t, h1, ⟨l1, l2, l3⟩, h3⟩ := BuildTables_spec F' hlen hsum
  refine ⟨t, h1, l1, l2, l3, fun s hs => ?_⟩
  obtain ⟨g1, g2, g3⟩ := h3 s hs
  obtain ⟨f1, f2, f3⟩ := findSlot_spec F' s (by omega)
  refine ⟨findSlot F' s, g1, fun σ => ⟨fun h => ?_, fun h => ?_⟩, g2, g3, by omega⟩
  · subst h
    exact ⟨f2, f3⟩
  · exact findSlot_unique F' s σ h.1 h.2

/-- Witness for C5: the layout theorem applied to the normalized form
`[473, 315, 158, 629, 473]` of the test table `{3, 2, 1, 4, 3}`. -/
theorem table_layout_witness :
    ([473, 315, 158, 629, 473] : List Nat).length ≤ 256 ∧
    ([473, 315, 158, 629, 473] : List Nat).sum = kANSTableSize ∧
    ∃ t, BuildTables [473, 315, 158, 629, 473] = some t ∧
      t.symbols.length = kANSTableSize ∧ t.frequencies.length = kANSTableSize ∧
      t.cumulative_frequencies.length = kANSTableSize ∧
      ∀ s, s < kANSTableSize →
        ∃ sym, t.symbols[s]? = some sym ∧
          (∀ σ, sym = σ ↔ (cumulative [473, 315, 158, 629, 473] σ ≤ s ∧
              s < cumulative [473, 315, 158, 629, 473] σ +
                ([473, 315, 158, 629, 473] : List Nat).getD σ 0)) ∧
          t.frequencies[s]? = some (([473, 315, 158, 629, 473] : List Nat).getD sym 0) ∧
          t.cumulative_frequencies[s]? = some (cumulative [473, 315, 158, 629, 473] sym) ∧
          1 ≤ ([473, 315, 158, 629, 473] : List Nat).getD sym 0 :=
  ⟨by decide, by decide, table_layout [473, 315, 158, 629, 473] (by decide) (by decide)⟩

/-- C6. Table rebuild: a decoder constructed with `F` and then rebuilt in place
with `RebuildTable(G)` is the decoder built directly from `G` (both fail when
`G` cannot be normalized to counts); the build from `G` succeeds whenever `G`
normalizes to counts, and its three tables have M slots each. -/
theorem rebuild_equals_fresh (F G : List Nat) (d : OpenCLDecoder)
    (h : OpenCLDecoder.new F = some d) :
    d.RebuildTable G = OpenCLDecoder.new G ∧
    ((normalizedCounts G).isSome → (OpenCLDecoder.new G).isSome) ∧
    ∀ dG, OpenCLDecoder.new G = some dG →
      dG.tables.symbols.length = kANSTableSize ∧
      dG.tables.frequencies.length = kANSTableSize ∧
      dG.tables.cumulative_frequencies.length = kANSTableSize := by
  have hd : d.tables.sized := by
    unfold OpenCLDecoder.new at h
    split at h
    · exact absurd h (by simp)
    · split at h
      · exact absurd h (by simp)
      · rename_i t ht
        simp only [Option.some.injEq] at h
        subst h
        exact fillTables_sized _ _ _ _ t Tables.zero_sized ht
  refine ⟨?_, ?_, ?_⟩
  · unfold OpenCLDecoder.RebuildTable OpenCLDecoder.new BuildTables
    cases hn : normalizedCounts G with
    | none => rfl
    | some G' =>
      simp only
      rw [fillTables_fresh G' d.tables hd (normalizedCounts_sum G G' hn).1]
  · intro hsome
    unfold OpenCLDecoder.new BuildTables
    cases hn : normalizedCounts G with
    | none => simp [hn] at hsome
    | some G' =>
      obtain ⟨t, ht, _⟩ := fillTables_spec G' Tables.zero 0 0 Tables.zero_sized
        (by have := (normalizedCounts_sum G G' hn).1; omega)
      simp only [ht, Option.isSome_some]
  · intro dG hG
    unfold OpenCLDecoder.new at hG
    split at hG
    · exact absurd hG (by simp)
    · split at hG
      · exact absurd hG (by simp)
      · rename_i t ht
        simp only [Option.some.injEq] at hG
        subst hG
        exact fillTables_sized _ _ _ _ t Tables.zero_sized ht

/-- Witness for C6: the tables of the test `TableRebuilding`, `F = {3, 2, 1, 4,
3, 406}` rebuilt with `{80, 300, 2, 14, 1, 1, 1, 20}`. -/
theorem rebuild_equals_fresh_witness :
    OpenCLDecoder.new [3, 2, 1, 4, 3, 406] = some rebuildTestDecoder ∧
    (rebuildTestDecoder.RebuildTable [80, 300, 2, 14, 1, 1, 1, 20] =
        OpenCLDecoder.new [80, 300, 2, 14, 1, 1, 1, 20] ∧
      ((normalizedCounts [80, 300, 2, 14, 1, 1, 1, 20]).isSome →
        (OpenCLDecoder.new [80, 300, 2, 14, 1, 1, 1, 20]).isSome) ∧
      ∀ dG, OpenCLDecoder.new [80, 300, 2, 14, 1, 1, 1, 20] = some dG →
        dG.tables.symbols.length = kANSTableSize ∧
        dG.tables.frequencies.length = kANSTableSize ∧
        dG.tables.cumulative_frequencies.length = kANSTableSize) :=
  have h : OpenCLDecoder.new [3, 2, 1, 4, 3, 406] = some rebuildTestDecoder :=
    some_getD_of_isSome _ _ (new_isSome [3, 2, 1, 4, 3, 406] (by decide))
  ⟨h, rebuild_equals_fresh [3, 2, 1, 4, 3, 406] [80, 300, 2, 14, 1, 1, 1, 20]
    rebuildTestDecoder h⟩

/-- C7. Normalization sum: for a frequency table of at most 256 counts with
positive total, `GenerateHistogram(F, 2048)` succeeds with a table of the same
length whose entries sum to exactly 2048. -/
theorem normalization_sum (F : List Nat) (hlen : F.length ≤ 256) (hT : 0 < F.sum) :
    ∃ F', GenerateHistogram F kANSTableSize = Except.ok F' ∧
      F'.length = F.length ∧ F'.sum = 2048 := by
  refine ⟨_, GenerateHistogram_ok F kANSTableSize hlen hT, ?_⟩
  have := GenerateHistogram_sum F kANSTableSize _ (GenerateHistogram_ok F kANSTableSize hlen hT)
  simpa [kANSTableSize] using this

/-- Witness for C7: the test table `{12, 14, 17, 1, 1, 2, 372}`. -/
theorem normalization_sum_witness :
    ([12, 14, 17, 1, 1, 2, 372] : List Nat).length ≤ 256 ∧
    0 < ([12, 14, 17, 1, 1, 2, 372] : List Nat).sum ∧
    ∃ F', GenerateHistogram [12, 14, 17, 1, 1, 2, 372] kANSTableSize = Except.ok F' ∧
      F'.length = ([12, 14, 17, 1, 1, 2, 372] : List Nat).length ∧ F'.sum = 2048 :=
  ⟨by decide, by decide, normalization_sum [12, 14, 17, 1, 1, 2, 372] (by decide) (by decide)⟩

/-- C8 (as stated) fails: for the table of 65 equal counts every bucket rounds
to 32, the rounded entries exceed 2048 by 32, and the residue correction leaves
the largest bucket (the first) with 0 slots although its count is 1. -/
theorem support_counterexample :
    (List.replicate 65 1).length ≤ 256 ∧ 0 < (List.replicate 65 1).sum ∧
    0 < (List.replicate 65 1).getD 0 0 ∧
    GenerateHistogram (List.replicate 65 1) kANSTableSize =
      Except.ok (0 :: List.replicate 64 32) ∧
    ¬ (1 ≤ (0 :: List.replicate 64 (32 : Int)).getD 0 0) := by
  refine ⟨by decide, by decide, by decide, by rfl, by decide⟩

/-- C8 (amended). Normalization preserves the support outside the largest
bucket: for a table of at most 256 counts with positive total, `F[i] = 0` gives
`F'[i] = 0`, and `F[i] > 0` gives `F'[i] ≥ 1` for every `i` other than the
largest bucket; for the largest bucket too when the table has at most 45
entries. -/
theorem support_preserved (F : List Nat) (hlen : F.length ≤ 256) (hT : 0 < F.sum) :
    ∃ F', GenerateHistogram F kANSTableSize = Except.ok F' ∧
      ∀ i, (F.getD i 0 = 0 → F'.getD i 0 = 0) ∧
        (0 < F.getD i 0 → i ≠ largestIndex F → 1 ≤ F'.getD i 0) ∧
        (0 < F.getD i 0 → F.length ≤ 45 → 1 ≤ F'.getD i 0) := by
  refine ⟨_, GenerateHistogram_ok F kANSTableSize hlen hT, fun i => ?_⟩
  have hne : F ≠ [] := by
    intro h0
    subst h0
    simp at hT
  have hk : largestIndex F < (F.map (scaleCount kANSTableSize F.sum)).length := by
    simpa using largestIndex_lt F hne
  have hpos := largest_pos F hT
  rw [getD_set_int _ _ _ _ hk]
  by_cases hi : largestIndex F = i
  · subst hi
    simp only [if_true]
    refine ⟨fun h => by omega, fun _ h => absurd rfl h, fun _ hn => ?_⟩
    have := largest_share_pos F hT hn
    rw [getD_map_scaleCount, map_scaleCount, sum_map_cast]
    omega
  · simp only [hi, if_false, getD_map_scaleCount]
    refine ⟨fun h => ?_, fun h _ => ?_, fun h _ => ?_⟩
    · rw [h, scaleNat_zero]; rfl
    · exact_mod_cast scaleNat_pos kANSTableSize F.sum _ h
    · exact_mod_cast scaleNat_pos kANSTableSize F.sum _ h

/-- Witness for C8 (amended): the test table `{12, 14, 17, 1, 1, 2, 372}`. -/
theorem support_preserved_witness :
    ([12, 14, 17, 1, 1, 2, 372] : List Nat).length ≤ 256 ∧
    0 < ([12, 14, 17, 1, 1, 2, 372] : List Nat).sum ∧
    ∃ F', GenerateHistogram [12, 14, 17, 1, 1, 2, 372] kANSTableSize = Except.ok F' ∧
      ∀ i, (([12, 14, 17, 1, 1, 2, 372] : List Nat).getD i 0 = 0 → F'.getD i 0 = 0) ∧
        (0 < ([12, 14, 17, 1, 1, 2, 372] : List Nat).getD i 0 →
          i ≠ largestIndex [12, 14, 17, 1, 1, 2, 372] → 1 ≤ F'.getD i 0) ∧
        (0 < ([12, 14, 17, 1, 1, 2, 372] : List Nat).getD i 0 →
          ([12, 14, 17, 1, 1, 2, 372] : List Nat).length ≤ 45 → 1 ≤ F'.getD i 0) :=
  ⟨by decide, by decide, support_preserved [12, 14, 17, 1, 1, 2, 372] (by decide) (by decide)⟩

/-- C9. Even byte count: whatever the number of encoders, their tables and
states and the symbols, when the interleaved encoding loop (and likewise the
single-stream loop) completes, the number of bytes written to the output
buffer is even. -/
theorem even_byte_count (symbols : List (List Nat)) (count : Nat)
    (encs encs1 : List OpenCLEncoder) (stream : List Nat)
    (enc enc1 : OpenCLEncoder) (S single : List Nat)
    (h : encodeInterleaved symbols count 0 encs [] = some (encs1, stream))
    (h1 : encodeSymbols enc [] S = some (enc1, single)) :
    stream.length % 2 = 0 ∧ single.length % 2 = 0 := by
  have a := encodeInterleaved_parity symbols count 0 encs [] encs1 stream h
  have b := encodeSymbols_parity S enc enc1 [] single h1
  simpa using And.intro a b

/-- Witness for C9: two encoders over `[1, 1, 2046]` encoding two symbols each,
and one encoder encoding three symbols. -/
theorem even_byte_count_witness :
    encodeInterleaved [[0, 0], [1, 0]] 2 0
        [OpenCLEncoder.ofNormalized [1, 1, 2046], OpenCLEncoder.ofNormalized [1, 1, 2046]] [] =
      some ([⟨[1, 1, 2046], 131072⟩, ⟨[1, 1, 2046], 131072⟩], [0, 0, 1, 0]) ∧
    encodeSymbols (OpenCLEncoder.ofNormalized [1, 1, 2046]) [] [1, 0, 0] =
      some (⟨[1, 1, 2046], 4096⟩, [1, 0, 0, 0]) ∧
    ([0, 0, 1, 0] : List Nat).length % 2 = 0 ∧ ([1, 0, 0, 0] : List Nat).length % 2 = 0 :=
  ⟨by rfl, by rfl,
    even_byte_count [[0, 0], [1, 0]] 2
      [OpenCLEncoder.ofNormalized [1, 1, 2046], OpenCLEncoder.ofNormalized [1, 1, 2046]]
      [⟨[1, 1, 2046], 131072⟩, ⟨[1, 1, 2046], 131072⟩] [0, 0, 1, 0]
      (OpenCLEncoder.ofNormalized [1, 1, 2046]) ⟨[1, 1, 2046], 4096⟩ [1, 0, 0] [1, 0, 0, 0]
      (by rfl) (by rfl)⟩

/-- C10 (as stated) fails: a single 8-bit write leaves the writer without any
emitted word, so the matching read fails; and two 8-bit writes packed into one
word are read back in the order written, not in reverse. -/
theorem bit_io_counterexample :
    171 < 2 ^ 8 ∧ 205 < 2 ^ 8 ∧
    (readAll (BitReader.init (reversedStream (writeAll BitWriter.init [(171, 8)]).bytes))
        ([(171, 8)].map Prod.snd).reverse).map Prod.fst ≠
      some ([(171, 8)].map Prod.fst).reverse ∧
    (readAll (BitReader.init
          (reversedStream (writeAll BitWriter.init [(171, 8), (205, 8)]).bytes))
        ([(171, 8), (205, 8)].map Prod.snd).reverse).map Prod.fst ≠
      some ([(171, 8), (205, 8)].map Prod.fst).reverse := by
  refine ⟨by decide, by decide, by decide, by decide⟩

/-- C10 (amended). Bit I/O round trip for whole words: for every sequence of
16-bit writes (each value below 2^16) on a fresh writer, reversing the emitted
16-bit words and performing the matching reads in reverse order returns the
written values in reverse order and leaves the reader at the end of the
stream. -/
theorem bit_io_round_trip (ws : List (Nat × Nat))
    (h : ∀ p ∈ ws, p.2 = 16 ∧ p.1 < 2 ^ p.2) :
    readAll (BitReader.init (reversedStream (writeAll BitWriter.init ws).bytes))
        (ws.map Prod.snd).reverse =
      some ((ws.map Prod.fst).reverse, ⟨[], 0, 0⟩) := by
  have hw := writeAll_words ws [] h
  simp only [List.nil_append] at hw
  have hr := readAll_words ws.reverse []
    (fun p hp => h p (List.mem_reverse.mp hp))
  simp only [List.append_nil, List.map_reverse] at hr
  simp only [BitWriter.init, BitReader.init, hw, reversedStream_wordBytes, hr]

/-- Witness for C10 (amended): two 16-bit writes. -/
theorem bit_io_round_trip_witness :
    (∀ p ∈ [(43981, 16), (4660, 16)], p.2 = 16 ∧ p.1 < 2 ^ p.2) ∧
    readAll (BitReader.init
        (reversedStream (writeAll BitWriter.init [(43981, 16), (4660, 16)]).bytes))
        ([(43981, 16), (4660, 16)].map Prod.snd).reverse =
      some (([(43981, 16), (4660, 16)].map Prod.fst).reverse, ⟨[], 0, 0⟩) :=
  ⟨by decide, bit_io_round_trip [(43981, 16), (4660, 16)] (by decide)⟩

end ans

namespace demo

/-! ## Facts about the 32-bit offset arithmetic -/

theorem u32_of_lt (n : Nat) (h : n < 4294967296) : u32 n = n := Nat.mod_eq_of_lt h

theorem u64_sub (n : Nat) (h1 : 2048 ≤ n) (h2 : n < 18446744073709551616) :
    u64 (n + 18446744073709551616 - 4 * 512) = n - 2048 := by
  unfold u64
  omega

theorem numBlocks_eq (hdr : GenTCHeader) :
    u32 (hdr.width * hdr.height) / 16 = numBlocks hdr := by
  unfold numBlocks
  rw [Nat.mul_comm]

/-! ## Facts about the page worker's loop -/

theorem foldl_pageStep_copies (N : Nat) (page : List PBORequest) :
    ∀ s : PageLoop,
      (page.foldl (pageStep N) s).freq_copies =
        s.freq_copies ++ freqLayout page.length s.freqs_buf ∧
      (page.foldl (pageStep N) s).freqs_buf = s.freqs_buf + 4 * 512 * page.length ∧
      (page.foldl (pageStep N) s).data_copies = s.data_copies ++ payloadLayout page s.data_buf ∧
      (page.foldl (pageStep N) s).input_offsets.length = s.input_offsets.length + 4 * page.length ∧
      (page.foldl (pageStep N) s).output_offsets.length =
        s.output_offsets.length + 4 * page.length := by
  induction page with
  | nil => intro s; simp [freqLayout, payloadLayout]
  | cons req rest ih =>
    intro s
    obtain ⟨h1, h2, h3, h4, h5⟩ := ih (pageStep N s req)
    simp only [List.foldl_cons, h1, h2, h3, h4, h5]
    simp only [pageStep, freqLayout, payloadLayout, List.append_assoc, List.singleton_append,
      List.length_append, List.length_cons, List.length_nil]
    refine ⟨trivial, ?_, trivial, ?_, ?_⟩ <;> omega

theorem pageCmpTotal_cons (req : PBORequest) (rest : List PBORequest) :
    pageCmpTotal (req :: rest) = cmpTotal req.hdr + pageCmpTotal rest := by
  simp [pageCmpTotal]

theorem planeTotal_cons (N : Nat) (req : PBORequest) (rest : List PBORequest) :
    planeTotal N (req :: rest) = 7 * N + req.hdr.palette_bytes + planeTotal N rest := by
  simp [planeTotal]

theorem foldl_pageStep_input (N : Nat) (page : List PBORequest) :
    ∀ s : PageLoop, s.input_offset + pageCmpTotal page < 4294967296 →
      (page.foldl (pageStep N) s).input_offsets =
        s.input_offsets ++ runningInputOffsets page s.input_offset ∧
      (page.foldl (pageStep N) s).input_offset = s.input_offset + pageCmpTotal page := by
  induction page with
  | nil => intro s _; simp [runningInputOffsets, pageCmpTotal]
  | cons req rest ih =>
    intro s hs
    rw [pageCmpTotal_cons] at hs
    have hc : cmpTotal req.hdr =
        req.hdr.y_cmp_sz + req.hdr.chroma_cmp_sz + req.hdr.palette_sz + req.hdr.indices_sz := rfl
    have hin : (pageStep N s req).input_offset = s.input_offset + cmpTotal req.hdr := by
      simp only [pageStep, u32]
      omega
    have e1 : (s.input_offset + req.hdr.y_cmp_sz) % 4294967296 =
        s.input_offset + req.hdr.y_cmp_sz := Nat.mod_eq_of_lt (by omega)
    have e2 : (s.input_offset + req.hdr.y_cmp_sz + req.hdr.chroma_cmp_sz) % 4294967296 =
        s.input_offset + req.hdr.y_cmp_sz + req.hdr.chroma_cmp_sz := Nat.mod_eq_of_lt (by omega)
    have e3 : (s.input_offset + req.hdr.y_cmp_sz + req.hdr.chroma_cmp_sz + req.hdr.palette_sz)
        % 4294967296 =
        s.input_offset + req.hdr.y_cmp_sz + req.hdr.chroma_cmp_sz + req.hdr.palette_sz :=
      Nat.mod_eq_of_lt (by omega)
    have hoffs : (pageStep N s req).input_offsets =
        s.input_offsets ++ [s.input_offset, s.input_offset + req.hdr.y_cmp_sz,
          s.input_offset + req.hdr.y_cmp_sz + req.hdr.chroma_cmp_sz,
          s.input_offset + req.hdr.y_cmp_sz + req.hdr.chroma_cmp_sz + req.hdr.palette_sz] := by
      simp only [pageStep, u32, e1, e2, e3]
    obtain ⟨h1, h2⟩ := ih (pageStep N s req) (by rw [hin]; omega)
    rw [List.foldl_cons, h1, h2, hin, hoffs, pageCmpTotal_cons]
    refine ⟨?_, by omega⟩
    simp only [runningInputOffsets, List.append_assoc, List.cons_append, List.nil_append]

theorem foldl_pageStep_output (N : Nat) (page : List PBORequest) :
    ∀ s : PageLoop, s.output_offset + planeTotal N page < 4294967296 →
      (page.foldl (pageStep N) s).output_offsets =
        s.output_offsets ++ runningOutputOffsets N page s.output_offset ∧
      (page.foldl (pageStep N) s).output_offset = s.output_offset + planeTotal N page := by
  induction page with
  | nil => intro s _; simp [runningOutputOffsets, planeTotal]
  | cons req rest ih =>
    intro s hs
    rw [planeTotal_cons] at hs
    have hout : (pageStep N s req).output_offset =
        s.output_offset + 7 * N + req.hdr.palette_bytes := by
      simp only [pageStep, u32]
      omega
    have a1 : (s.output_offset + 2 * N % 4294967296) % 4294967296 =
        s.output_offset + 2 * N := by omega
    have a2 : (s.output_offset + 2 * N + 4 * N % 4294967296) % 4294967296 =
        s.output_offset + 6 * N := by omega
    have a3 : (s.output_offset + 6 * N + req.hdr.palette_bytes % 4294967296) % 4294967296 =
        s.output_offset + 6 * N + req.hdr.palette_bytes := by omega
    have hoffs : (pageStep N s req).output_offsets =
        s.output_offsets ++ [s.output_offset, s.output_offset + 2 * N, s.output_offset + 6 * N,
          s.output_offset + 6 * N + req.hdr.palette_bytes] := by
      simp only [pageStep, u32, a1, a2, a3]
    obtain ⟨h1, h2⟩ := ih (pageStep N s req) (by rw [hout]; omega)
    rw [List.foldl_cons, h1, h2, hout, hoffs, planeTotal_cons]
    refine ⟨?_, by omega⟩
    simp only [runningOutputOffsets, List.append_assoc, List.cons_append, List.nil_append]

theorem runningInputOffsets_get (page : List PBORequest) :
    ∀ (base k : Nat) (req : PBORequest), page[k]? = some req →
      (runningInputOffsets page base).getD (4 * k) 0 = base + pageCmpTotal (page.take k) ∧
      (runningInputOffsets page base).getD (4 * k + 1) 0 =
        base + pageCmpTotal (page.take k) + req.hdr.y_cmp_sz ∧
      (runningInputOffsets page base).getD (4 * k + 2) 0 =
        base + pageCmpTotal (page.take k) + req.hdr.y_cmp_sz + req.hdr.chroma_cmp_sz ∧
      (runningInputOffsets page base).getD (4 * k + 3) 0 =
        base + pageCmpTotal (page.take k) + req.hdr.y_cmp_sz + req.hdr.chroma_cmp_sz +
          req.hdr.palette_sz := by
  induction page with
  | nil => intro base k req h; simp at h
  | cons r rest ih =>
    intro base k req h
    cases k with
    | zero =>
      simp only [List.getElem?_cons_zero, Option.some.injEq] at h
      subst h
      simp [runningInputOffsets, pageCmpTotal]
    | succ k =>
      simp only [List.getElem?_cons_succ] at h
      obtain ⟨h0, h1, h2, h3⟩ := ih (base + cmpTotal r.hdr) k req h
      have e0 : 4 * (k + 1) = 4 * k + 1 + 1 + 1 + 1 := by omega
      have e1 : 4 * (k + 1) + 1 = 4 * k + 1 + 1 + 1 + 1 + 1 := by omega
      have e2 : 4 * (k + 1) + 2 = 4 * k + 2 + 1 + 1 + 1 + 1 := by omega
      have e3 : 4 * (k + 1) + 3 = 4 * k + 3 + 1 + 1 + 1 + 1 := by omega
      rw [e3, e2, e1, e0, List.take_succ_cons, pageCmpTotal_cons]
      simp only [runningInputOffsets, List.getD_cons_succ]
      rw [h0, h1, h2, h3]
      refine ⟨?_, ?_, ?_, ?_⟩ <;> omega

theorem runningOutputOffsets_get (N : Nat) (page : List PBORequest) :
    ∀ (base k : Nat) (req : PBORequest), page[k]? = some req →
      (runningOutputOffsets N page base).getD (4 * k) 0 = base + planeTotal N (page.take k) ∧
      (runningOutputOffsets N page base).getD (4 * k + 1) 0 =
        base + planeTotal N (page.take k) + 2 * N ∧
      (runningOutputOffsets N page base).getD (4 * k + 2) 0 =
        base + planeTotal N (page.take k) + 6 * N ∧
      (runningOutputOffsets N page base).getD (4 * k + 3) 0 =
        base + planeTotal N (page.take k) + 6 * N + req.hdr.palette_bytes := by
  induction page with
  | nil => intro base k req h; simp at h
  | cons r rest ih =>
    intro base k req h
    cases k with
    | zero =>
      simp only [List.getElem?_cons_zero, Option.some.injEq] at h
      subst h
      simp [runningOutputOffsets, planeTotal]
    | succ k =>
      simp only [List.getElem?_cons_succ] at h
      obtain ⟨h0, h1, h2, h3⟩ := ih (base + 7 * N + r.hdr.palette_bytes) k req h
      have e0 : 4 * (k + 1) = 4 * k + 1 + 1 + 1 + 1 := by omega
      have e1 : 4 * (k + 1) + 1 = 4 * k + 1 + 1 + 1 + 1 + 1 := by omega
      have e2 : 4 * (k + 1) + 2 = 4 * k + 2 + 1 + 1 + 1 + 1 := by omega
      have e3 : 4 * (k + 1) + 3 = 4 * k + 3 + 1 + 1 + 1 + 1 := by omega
      rw [e3, e2, e1, e0, List.take_succ_cons, planeTotal_cons]
      simp only [runningOutputOffsets, List.getD_cons_succ]
      rw [h0, h1, h2, h3]
      refine ⟨?_, ?_, ?_, ?_⟩ <;> omega

/-! ## Facts about the page worker -/

theorem pageWorker_cons (first : PBORequest) (rest : List PBORequest) (input_sz page_id : Nat) :
    pageWorker (first :: rest) input_sz page_id =
      some ⟨(first :: rest).length, numBlocks first.hdr, input_sz,
        input_sz + 4 * (4 * (first :: rest).length),
        input_sz + 4 * (((((first :: rest).length * 4 * 2) + 127) / 128) * 128),
        input_sz + 4 * (((((first :: rest).length * 4 * 2) + 127) / 128) * 128) +
          4 * 512 * (first :: rest).length,
        (first :: rest).foldl (pageStep (numBlocks first.hdr))
          ⟨input_sz + 4 * (((((first :: rest).length * 4 * 2) + 127) / 128) * 128),
           input_sz + 4 * (((((first :: rest).length * 4 * 2) + 127) / 128) * 128) +
             4 * 512 * (first :: rest).length, 0, 0, [], [], [], []⟩,
        (((((first :: rest).length * 4 * 2) + 127) / 128) * 128 * 4) +
          ((first :: rest).foldl (pageStep (numBlocks first.hdr))
            ⟨input_sz + 4 * (((((first :: rest).length * 4 * 2) + 127) / 128) * 128),
             input_sz + 4 * (((((first :: rest).length * 4 * 2) + 127) / 128) * 128) +
               4 * 512 * (first :: rest).length, 0, 0, [], [], [], []⟩).input_offset +
          (first :: rest).length * 4 * 512,
        page_id * (kPageSize * numBlocks first.hdr * 8),
        kPageSize * numBlocks first.hdr * 8⟩ := by
  rw [← numBlocks_eq]
  rfl

theorem planeTotal_take_succ (N : Nat) (page : List PBORequest) :
    ∀ (k : Nat) (req : PBORequest), page[k]? = some req →
      planeTotal N (page.take (k + 1)) =
        planeTotal N (page.take k) + 7 * N + req.hdr.palette_bytes := by
  induction page with
  | nil => intro k req h; simp at h
  | cons r rest ih =>
    intro k req h
    cases k with
    | zero =>
      simp only [List.getElem?_cons_zero, Option.some.injEq] at h
      subst h
      simp [planeTotal]
    | succ k =>
      simp only [List.getElem?_cons_succ] at h
      rw [List.take_succ_cons, List.take_succ_cons, planeTotal_cons, planeTotal_cons,
        ih k req h]
      omega

theorem pageCmpTotal_take_succ (page : List PBORequest) :
    ∀ (k : Nat) (req : PBORequest), page[k]? = some req →
      pageCmpTotal (page.take (k + 1)) = pageCmpTotal (page.take k) + cmpTotal req.hdr := by
  induction page with
  | nil => intro k req h; simp at h
  | cons r rest ih =>
    intro k req h
    cases k with
    | zero =>
      simp only [List.getElem?_cons_zero, Option.some.injEq] at h
      subst h
      simp [pageCmpTotal]
    | succ k =>
      simp only [List.getElem?_cons_succ] at h
      rw [List.take_succ_cons, List.take_succ_cons, pageCmpTotal_cons, pageCmpTotal_cons,
        ih k req h]
      omega

/-! ## Facts about the sizing loop and the page bounds -/

theorem inSzTotal_append (l1 l2 : List PBORequest) :
    inSzTotal (l1 ++ l2) = inSzTotal l1 + inSzTotal l2 := by
  simp [inSzTotal]

theorem sizesOf_snoc_new (pre : List PBORequest) (req : PBORequest)
    (h : pre.length % 16 = 0) :
    sizesOf (pre ++ [req]) = sizesOf pre ++ [memOf pre] ∧
    memOf (pre ++ [req]) = memOf pre + 512 + req.in_sz := by
  have hc : pageCount (pre ++ [req]).length = pageCount pre.length + 1 := by
    simp only [pageCount, List.length_append, List.length_singleton]
    omega
  have hp : 16 * pageCount pre.length = pre.length := by
    simp only [pageCount]
    omega
  refine ⟨?_, ?_⟩
  · unfold sizesOf
    rw [hc, List.range_succ, List.map_append]
    congr 1
    · apply List.map_congr_left
      intro p hp2
      rw [List.mem_range] at hp2
      rw [List.take_append_of_le_length (by unfold kPageSize; omega)]
    · simp only [List.map_cons, List.map_nil, memOf, kPageSize, hp]
      rw [List.take_append_of_le_length (Nat.le_refl _), List.take_length]
  · have e : inSzTotal [req] = req.in_sz := by simp [inSzTotal]
    rw [memOf, memOf, hc, inSzTotal_append, e]
    omega

theorem sizesOf_snoc_same (pre : List PBORequest) (req : PBORequest)
    (h : pre.length % 16 ≠ 0) :
    sizesOf (pre ++ [req]) = sizesOf pre ∧
    memOf (pre ++ [req]) = memOf pre + req.in_sz := by
  have hc : pageCount (pre ++ [req]).length = pageCount pre.length := by
    simp only [pageCount, List.length_append, List.length_singleton]
    omega
  refine ⟨?_, ?_⟩
  · unfold sizesOf
    rw [hc]
    apply List.map_congr_left
    intro p hp2
    rw [List.mem_range] at hp2
    rw [List.take_append_of_le_length (by unfold kPageSize; unfold pageCount at hp2; omega)]
  · have e : inSzTotal [req] = req.in_sz := by simp [inSzTotal]
    rw [memOf, memOf, hc, inSzTotal_append, e]
    omega

theorem inputSizesLoop_eq (rest : List PBORequest) :
    ∀ pre : List PBORequest,
      inputSizesLoop rest pre.length (sizesOf pre) (memOf pre) =
        (sizesOf (pre ++ rest), memOf (pre ++ rest)) := by
  induction rest with
  | nil => intro pre; simp [inputSizesLoop]
  | cons req rest ih =>
    intro pre
    have hlen : pre.length + 1 = (pre ++ [req]).length := by simp
    have happ : pre ++ req :: rest = (pre ++ [req]) ++ rest := by simp
    have h512 : ((kPageSize * 4 * 4 * 2 + 511) / 512) * 512 = 512 := by decide
    rw [inputSizesLoop, h512, happ, hlen]
    by_cases h : pre.length % 16 = 0
    · obtain ⟨h1, h2⟩ := sizesOf_snoc_new pre req h
      rw [if_pos (by unfold kPageSize; exact h), ← h1, ← h2]
      exact ih (pre ++ [req])
    · obtain ⟨h1, h2⟩ := sizesOf_snoc_same pre req h
      rw [if_neg (by unfold kPageSize; exact h), ← h1, ← h2]
      exact ih (pre ++ [req])

theorem input_sizes_eq (reqs : List PBORequest) : input_sizes reqs = sizesOf reqs := by
  have h := inputSizesLoop_eq reqs []
  simp only [List.length_nil, List.nil_append] at h
  have h0 : sizesOf [] = [] := by decide
  have h1 : memOf [] = 0 := by decide
  rw [h0, h1] at h
  unfold input_sizes
  rw [h]

theorem input_mem_sz_eq (reqs : List PBORequest) : input_mem_sz reqs = memOf reqs := by
  have h := inputSizesLoop_eq reqs []
  simp only [List.length_nil, List.nil_append] at h
  have h0 : sizesOf [] = [] := by decide
  have h1 : memOf [] = 0 := by decide
  rw [h0, h1] at h
  unfold input_mem_sz
  rw [h]

theorem pageJobsLoop_get (n : Nat) (sizes : List Nat) :
    ∀ (page_id page_start page_end j : Nat), 0 < page_id → page_end ≤ n →
      (pageJobsLoop n sizes page_id page_start page_end)[j]? =
        sizes[j]?.map (fun input_sz =>
          (⟨page_id + j, min (page_end + 16 * j) n, min (page_end + 16 * (j + 1)) n,
            input_sz⟩ : PageJob)) := by
  induction sizes with
  | nil => intro page_id page_start page_end j _ _; simp [pageJobsLoop]
  | cons input_sz rest ih =>
    intro page_id page_start page_end j hid hend
    rw [pageJobsLoop, if_pos hid]
    cases j with
    | zero =>
      simp only [List.getElem?_cons_zero, Option.map_some', Nat.add_zero, Nat.mul_zero,
        Nat.zero_add, Nat.mul_one, kPageSize, Nat.min_eq_left hend]
    | succ j =>
      simp only [List.getElem?_cons_succ]
      rw [ih (page_id + 1) page_end (min (page_end + kPageSize) n) j (by omega)
        (Nat.min_le_right _ _)]
      have e1 : min (min (page_end + kPageSize) n + 16 * j) n =
          min (page_end + 16 * (j + 1)) n := by
        unfold kPageSize
        omega
      have e2 : min (min (page_end + kPageSize) n + 16 * (j + 1)) n =
          min (page_end + 16 * (j + 1 + 1)) n := by
        unfold kPageSize
        omega
      have e3 : page_id + 1 + j = page_id + (j + 1) := by omega
      rw [e1, e2, e3]

theorem sizesOf_get (reqs : List PBORequest) (p : Nat) (hp : p < pageCount reqs.length) :
    (sizesOf reqs)[p]? = some (512 * p + inSzTotal (reqs.take (kPageSize * p))) := by
  unfold sizesOf
  rw [List.getElem?_map, List.getElem?_range hp]
  rfl

theorem sizesOf_length (reqs : List PBORequest) :
    (sizesOf reqs).length = pageCount reqs.length := by
  simp [sizesOf]

theorem pageJobs_get (reqs : List PBORequest) (p : Nat) (hn : 16 ≤ reqs.length)
    (hp : p < pageCount reqs.length) :
    (pageJobs reqs)[p]? =
      some ⟨p, 16 * p, min (16 * p + 16) reqs.length,
        512 * p + inSzTotal (reqs.take (kPageSize * p))⟩ := by
  unfold pageJobs
  rw [input_sizes_eq]
  have hlen := sizesOf_length reqs
  have h0 := sizesOf_get reqs 0 (by unfold pageCount; omega)
  cases hs : sizesOf reqs with
  | nil => rw [hs] at h0; simp at h0
  | cons s0 rest =>
    rw [hs] at h0
    simp only [List.getElem?_cons_zero, Option.some.injEq] at h0
    rw [pageJobsLoop, if_neg (by omega)]
    cases p with
    | zero =>
      rw [List.getElem?_cons_zero, h0]
      simp only [kPageSize, Nat.mul_zero, Nat.zero_add, Option.some.injEq, PageJob.mk.injEq,
        true_and, and_true]
      omega
    | succ p =>
      simp only [List.getElem?_cons_succ, Nat.zero_add]
      rw [pageJobsLoop_get reqs.length rest 1 0 kPageSize p (by omega)
        (by unfold kPageSize; exact hn)]
      have hg := sizesOf_get reqs (p + 1) hp
      rw [hs, List.getElem?_cons_succ] at hg
      rw [hg]
      simp only [Option.map_some', Option.some.injEq, PageJob.mk.injEq, kPageSize, and_true]
      unfold pageCount at hp
      refine ⟨by omega, by omega, by omega⟩

theorem jobRequests_pageOf (reqs : List PBORequest) (p input_sz : Nat) :
    jobRequests reqs ⟨p, 16 * p, min (16 * p + 16) reqs.length, input_sz⟩ =
      some (pageOf reqs p) := by
  unfold jobRequests pageOf
  simp only
  rw [if_pos (Nat.min_le_right _ _)]
  congr 1
  by_cases h : 16 * p + 16 ≤ reqs.length
  · rw [Nat.min_eq_left h]
    unfold kPageSize
    congr 1
    omega
  · have hmin : min (16 * p + 16) reqs.length = reqs.length := Nat.min_eq_right (by omega)
    rw [hmin]
    unfold kPageSize
    rw [List.take_of_length_le (by rw [List.length_drop]),
      List.take_of_length_le (by rw [List.length_drop]; omega)]

theorem pageJobs_small (reqs : List PBORequest) (h0 : 0 < reqs.length)
    (h16 : reqs.length < 16) : pageJobs reqs = [⟨0, 0, 16, 0⟩] := by
  unfold pageJobs
  rw [input_sizes_eq]
  have hc : pageCount reqs.length = 1 := by unfold pageCount; omega
  have hs : sizesOf reqs = [0] := by
    unfold sizesOf
    rw [hc]
    rfl
  rw [hs]
  rfl

/-! ## Facts about the staging ranges -/

theorem inSzTotal_cons (req : PBORequest) (rest : List PBORequest) :
    inSzTotal (req :: rest) = req.in_sz + inSzTotal rest := by
  simp [inSzTotal]

theorem inSzTotal_ge (page : List PBORequest)
    (hin : ∀ req ∈ page, 2048 ≤ req.in_sz ∧ req.in_sz < 18446744073709551616) :
    2048 * page.length ≤ inSzTotal page := by
  induction page with
  | nil => simp [inSzTotal]
  | cons req rest ih =>
    have h1 := (hin req (List.mem_cons_self _ _)).1
    have h2 := ih (fun r hr => hin r (List.mem_cons_of_mem _ hr))
    rw [inSzTotal_cons, List.length_cons]
    omega

theorem tiles_freqLayout (count : Nat) :
    ∀ addr : Nat, tiles (freqLayout count addr) addr (addr + 4 * 512 * count) = true := by
  induction count with
  | zero => intro addr; simp [freqLayout, tiles]
  | succ count ih =>
    intro addr
    have e : addr + 4 * 512 * (count + 1) = addr + 4 * 512 + 4 * 512 * count := by omega
    rw [freqLayout, tiles, e, ih (addr + 4 * 512)]
    simp

theorem tiles_payloadLayout (page : List PBORequest) :
    ∀ addr : Nat, (∀ req ∈ page, 2048 ≤ req.in_sz ∧ req.in_sz < 18446744073709551616) →
      tiles (payloadLayout page addr) addr (addr + (inSzTotal page - 2048 * page.length)) =
        true := by
  induction page with
  | nil => intro addr _; simp [payloadLayout, tiles, inSzTotal]
  | cons req rest ih =>
    intro addr hin
    obtain ⟨h1, h2⟩ := hin req (List.mem_cons_self _ _)
    have hrest : ∀ r ∈ rest, 2048 ≤ r.in_sz ∧ r.in_sz < 18446744073709551616 :=
      fun r hr => hin r (List.mem_cons_of_mem _ hr)
    have hge := inSzTotal_ge rest hrest
    have e : addr + (inSzTotal (req :: rest) - 2048 * (req :: rest).length) =
        addr + (req.in_sz - 2048) + (inSzTotal rest - 2048 * rest.length) := by
      rw [inSzTotal_cons, List.length_cons]
      omega
    rw [payloadLayout, tiles, u64_sub _ h1 h2, e, ih (addr + (req.in_sz - 2048)) hrest]
    simp

theorem foldl_pageStep_data (N : Nat) (page : List PBORequest) :
    ∀ s : PageLoop, (∀ req ∈ page, 2048 ≤ req.in_sz ∧ req.in_sz < 18446744073709551616) →
      (page.foldl (pageStep N) s).data_buf + 2048 * page.length =
        s.data_buf + inSzTotal page := by
  induction page with
  | nil => intro s _; simp [inSzTotal]
  | cons req rest ih =>
    intro s hin
    obtain ⟨h1, h2⟩ := hin req (List.mem_cons_self _ _)
    have hrest : ∀ r ∈ rest, 2048 ≤ r.in_sz ∧ r.in_sz < 18446744073709551616 :=
      fun r hr => hin r (List.mem_cons_of_mem _ hr)
    have hstep : (pageStep N s req).data_buf = s.data_buf + (req.in_sz - 2048) := by
      simp only [pageStep, u64_sub _ h1 h2]
    have h := ih (pageStep N s req) hrest
    rw [List.foldl_cons, List.length_cons, inSzTotal_cons]
    rw [hstep] at h
    omega

theorem inSzTotal_take_add (reqs : List PBORequest) (a b : Nat) :
    inSzTotal (reqs.take (a + b)) =
      inSzTotal (reqs.take a) + inSzTotal ((reqs.drop a).take b) := by
  rw [List.take_add, inSzTotal_append]

theorem inSzTotal_take_mono (reqs : List PBORequest) (a b : Nat) (h : a ≤ b) :
    inSzTotal (reqs.take a) ≤ inSzTotal (reqs.take b) := by
  obtain ⟨c, rfl⟩ : ∃ c, b = a + c := ⟨b - a, by omega⟩
  rw [inSzTotal_take_add]
  omega

theorem inSzTotal_take_le (reqs : List PBORequest) (a : Nat) :
    inSzTotal (reqs.take a) ≤ inSzTotal reqs := by
  have h := inSzTotal_append (reqs.take a) (reqs.drop a)
  rw [List.take_append_drop] at h
  omega

theorem pageOf_length (reqs : List PBORequest) (p : Nat) :
    (pageOf reqs p).length = min 16 (reqs.length - 16 * p) := by
  simp [pageOf, kPageSize]

theorem pageWorker_staging (page : List PBORequest) (lo page_id : Nat)
    (hne : page ≠ []) (hlen : page.length ≤ 16)
    (hin : ∀ req ∈ page, 2048 ≤ req.in_sz ∧ req.in_sz < 18446744073709551616) :
    ∃ r, pageWorker page lo page_id = some r ∧
      r.output_offsets_addr = lo ∧
      r.input_offsets_addr = lo + 4 * r.loop.output_offsets.length ∧
      r.input_offsets_addr + 4 * r.loop.input_offsets.length ≤ lo + 512 ∧
      tiles r.loop.freq_copies (lo + 512) (lo + 512 + 4 * 512 * page.length) = true ∧
      tiles r.loop.data_copies (lo + 512 + 4 * 512 * page.length)
        (lo + 512 + inSzTotal page) = true ∧
      r.loop.data_buf = lo + 512 + inSzTotal page := by
  cases page with
  | nil => exact absurd rfl hne
  | cons first rest =>
    refine ⟨_, pageWorker_cons first rest lo page_id, ?_⟩
    have hK : 1 ≤ (first :: rest).length := by simp
    have hsz : ((((first :: rest).length * 4 * 2) + 127) / 128) * 128 = 128 := by omega
    obtain ⟨h1, _, h3, h4, h5⟩ := foldl_pageStep_copies (numBlocks first.hdr) (first :: rest)
      ⟨lo + 4 * (((((first :: rest).length * 4 * 2) + 127) / 128) * 128),
        lo + 4 * (((((first :: rest).length * 4 * 2) + 127) / 128) * 128) +
          4 * 512 * (first :: rest).length, 0, 0, [], [], [], []⟩
    have h6 := foldl_pageStep_data (numBlocks first.hdr) (first :: rest)
      ⟨lo + 4 * (((((first :: rest).length * 4 * 2) + 127) / 128) * 128),
        lo + 4 * (((((first :: rest).length * 4 * 2) + 127) / 128) * 128) +
          4 * 512 * (first :: rest).length, 0, 0, [], [], [], []⟩ hin
    have hge := inSzTotal_ge (first :: rest) hin
    dsimp only at h1 h3 h4 h5 h6
    simp only [List.nil_append, List.length_nil, Nat.zero_add] at h1 h3 h4 h5
    refine ⟨rfl, ?_, ?_, ?_, ?_, ?_⟩
    · dsimp only
      rw [h5]
    · dsimp only
      rw [h4]
      omega
    · dsimp only
      rw [h1, hsz]
      exact tiles_freqLayout (first :: rest).length (lo + 4 * 128)
    · dsimp only
      have e : lo + 512 + inSzTotal (first :: rest) =
          lo + 4 * 128 + 4 * 512 * (first :: rest).length +
            (inSzTotal (first :: rest) - 2048 * (first :: rest).length) := by omega
      rw [h3, hsz, e]
      exact tiles_payloadLayout (first :: rest) _ hin
    · dsimp only
      omega

theorem getD_of_some (l : List Nat) (i d v : Nat) (h : l[i]? = some v) : l.getD i d = v := by
  rw [List.getD_eq_getElem?_getD, h]
  rfl

theorem getD_of_none (l : List Nat) (i d : Nat) (h : l[i]? = none) : l.getD i d = d := by
  rw [List.getD_eq_getElem?_getD, h]
  rfl

/-! ## The claims on the offset tables, the pages and the staging buffer -/

/-- C11 (as stated) fails: for a header of 32768 x 32768 pixels with
`palette_bytes = 2^32 - 1` the running `cl_uint` sum wraps, and `offsets[3]` is
`6 * N - 1` instead of `6 * N + palette_bytes`. -/
theorem plane_offsets_counterexample :
    GenTCHeader.InRange ⟨32768, 32768, 4294967295, 0, 0, 0, 0⟩ ∧
    (LoadGTC_offsets ⟨32768, 32768, 4294967295, 0, 0, 0, 0⟩).offsets.take 4 =
      [0, 134217728, 402653184, 402653183] ∧
    [0, 2 * (32768 * 32768 / 16), 6 * (32768 * 32768 / 16),
      6 * (32768 * 32768 / 16) + 4294967295] ≠ [0, 134217728, 402653184, 402653183] := by
  refine ⟨by decide, by decide, by decide⟩

/-- C11 (amended). Single-image plane offsets: for every header whose pixel
count `height * width` and whose plane total `7 * N + palette_bytes` are below
2^32, with `N = height * width / 16`, `LoadGTC` writes `offsets[0..3] = [0, 2N,
6N, 6N + palette_bytes]`, the prefix sums of the plane sizes `2N, 4N,
palette_bytes, N` in the order Y, chroma, palette, indices, and the running sum
ends at `7N + palette_bytes`. -/
theorem single_image_plane_offsets (hdr : GenTCHeader)
    (hwh : hdr.height * hdr.width < 4294967296)
    (htot : 7 * (hdr.height * hdr.width / 16) + hdr.palette_bytes < 4294967296) :
    (LoadGTC_offsets hdr).offsets.take 4 =
      [0, 2 * (hdr.height * hdr.width / 16), 6 * (hdr.height * hdr.width / 16),
        6 * (hdr.height * hdr.width / 16) + hdr.palette_bytes] ∧
    (LoadGTC_offsets hdr).output_offset =
      7 * (hdr.height * hdr.width / 16) + hdr.palette_bytes := by
  have hN : numBlocks hdr = hdr.height * hdr.width / 16 := by
    unfold numBlocks
    rw [u32_of_lt _ hwh]
  simp only [LoadGTC_offsets, hN, List.take_succ_cons, List.take_zero, Nat.zero_add]
  generalize hdr.height * hdr.width / 16 = N at htot
  unfold u32
  refine ⟨?_, ?_⟩
  · congr 1
    congr 1
    · omega
    · congr 1
      · omega
      · congr 1
        omega
  · omega

/-- Witness for C11 (amended): an image of 64 x 64 pixels. -/
theorem single_image_plane_offsets_witness :
    hdr64.height * hdr64.width < 4294967296 ∧
    7 * (hdr64.height * hdr64.width / 16) + hdr64.palette_bytes < 4294967296 ∧
    ((LoadGTC_offsets hdr64).offsets.take 4 =
      [0, 2 * (hdr64.height * hdr64.width / 16), 6 * (hdr64.height * hdr64.width / 16),
        6 * (hdr64.height * hdr64.width / 16) + hdr64.palette_bytes] ∧
    (LoadGTC_offsets hdr64).output_offset =
      7 * (hdr64.height * hdr64.width / 16) + hdr64.palette_bytes) :=
  ⟨by decide, by decide, single_image_plane_offsets hdr64 (by decide) (by decide)⟩

/-- C12 (as stated) fails: for a header with `y_cmp_sz = chroma_cmp_sz = 2^31`
the running `cl_uint` sum of `LoadGTC` wraps, and the palette input offset
`offsets[6]` is 0 instead of `y_cmp_sz + chroma_cmp_sz = 2^32`. -/
theorem input_offsets_counterexample :
    GenTCHeader.InRange ⟨4, 4, 0, 2147483648, 2147483648, 0, 0⟩ ∧
    (LoadGTC_offsets ⟨4, 4, 0, 2147483648, 2147483648, 0, 0⟩).offsets.drop 4 =
      [0, 2147483648, 0, 0] ∧
    [0, 2147483648, 2147483648 + 2147483648, 2147483648 + 2147483648 + 0] ≠
      [0, 2147483648, 0, 0] := by
  refine ⟨by decide, by decide, by decide⟩

/-- C12 (amended). Input offsets follow the payload order when the sums fit in
32 bits.  Single image: if the four compressed sizes of the header total less
than 2^32, `LoadGTC` writes `offsets[4..7]` as the prefix sums of `y_cmp_sz,
chroma_cmp_sz, palette_sz, indices_sz`.  Batch: if the compressed sizes of all
requests of a non-empty page total less than 2^32, the page worker returns, the
input offsets it writes are the running prefix sums starting at 0 and continued
across requests, and request `k` has its Y offset at the sum of all four sizes
of requests `0..k-1`, followed by the prefix sums of its own sizes. -/
theorem input_offsets_running_sums (hdr : GenTCHeader) (page : List PBORequest)
    (input_sz page_id : Nat)
    (hsingle : cmpTotal hdr < 4294967296)
    (hne : page ≠ [])
    (hpage : pageCmpTotal page < 4294967296) :
    ((LoadGTC_offsets hdr).offsets.drop 4 =
        [0, hdr.y_cmp_sz, hdr.y_cmp_sz + hdr.chroma_cmp_sz,
          hdr.y_cmp_sz + hdr.chroma_cmp_sz + hdr.palette_sz] ∧
      (LoadGTC_offsets hdr).input_offset = cmpTotal hdr) ∧
    ∃ r, pageWorker page input_sz page_id = some r ∧
      r.loop.input_offsets = runningInputOffsets page 0 ∧
      r.loop.input_offset = pageCmpTotal page ∧
      ∀ (k : Nat) (req : PBORequest), page[k]? = some req →
        r.loop.input_offsets.getD (4 * k) 0 = pageCmpTotal (page.take k) ∧
        r.loop.input_offsets.getD (4 * k + 1) 0 =
          pageCmpTotal (page.take k) + req.hdr.y_cmp_sz ∧
        r.loop.input_offsets.getD (4 * k + 2) 0 =
          pageCmpTotal (page.take k) + req.hdr.y_cmp_sz + req.hdr.chroma_cmp_sz ∧
        r.loop.input_offsets.getD (4 * k + 3) 0 =
          pageCmpTotal (page.take k) + req.hdr.y_cmp_sz + req.hdr.chroma_cmp_sz +
            req.hdr.palette_sz := by
  refine ⟨?_, ?_⟩
  · unfold cmpTotal at hsingle
    simp only [LoadGTC_offsets, cmpTotal, List.drop_succ_cons, List.drop_zero, Nat.zero_add]
    unfold u32
    have e1 : hdr.y_cmp_sz % 4294967296 = hdr.y_cmp_sz := Nat.mod_eq_of_lt (by omega)
    have e2 : (hdr.y_cmp_sz + hdr.chroma_cmp_sz) % 4294967296 =
        hdr.y_cmp_sz + hdr.chroma_cmp_sz := Nat.mod_eq_of_lt (by omega)
    have e3 : (hdr.y_cmp_sz + hdr.chroma_cmp_sz + hdr.palette_sz) % 4294967296 =
        hdr.y_cmp_sz + hdr.chroma_cmp_sz + hdr.palette_sz := Nat.mod_eq_of_lt (by omega)
    have e4 : (hdr.y_cmp_sz + hdr.chroma_cmp_sz + hdr.palette_sz + hdr.indices_sz)
        % 4294967296 =
        hdr.y_cmp_sz + hdr.chroma_cmp_sz + hdr.palette_sz + hdr.indices_sz :=
      Nat.mod_eq_of_lt (by omega)
    simp only [e1, e2, e3, e4, and_self]
  · cases page with
    | nil => exact absurd rfl hne
    | cons first rest =>
      refine ⟨_, pageWorker_cons first rest input_sz page_id, ?_⟩
      obtain ⟨h1, h2⟩ := foldl_pageStep_input (numBlocks first.hdr) (first :: rest)
        ⟨input_sz + 4 * (((((first :: rest).length * 4 * 2) + 127) / 128) * 128),
          input_sz + 4 * (((((first :: rest).length * 4 * 2) + 127) / 128) * 128) +
            4 * 512 * (first :: rest).length, 0, 0, [], [], [], []⟩
        (by simpa using hpage)
      simp only [List.nil_append, Nat.zero_add] at h1 h2
      refine ⟨h1, h2, ?_⟩
      intro k req hk
      simp only [h1]
      simpa using runningInputOffsets_get (first :: rest) 0 k req hk

/-- Witness for C12 (amended): the header of a 64 x 64 image, and a page of two
requests. -/
theorem input_offsets_running_sums_witness :
    cmpTotal hdr64 < 4294967296 ∧
    mixedPage ≠ [] ∧
    pageCmpTotal mixedPage < 4294967296 ∧
    (((LoadGTC_offsets hdr64).offsets.drop 4 =
        [0, hdr64.y_cmp_sz, hdr64.y_cmp_sz + hdr64.chroma_cmp_sz,
          hdr64.y_cmp_sz + hdr64.chroma_cmp_sz + hdr64.palette_sz] ∧
      (LoadGTC_offsets hdr64).input_offset = cmpTotal hdr64) ∧
    ∃ r, pageWorker mixedPage 1000 3 = some r ∧
      r.loop.input_offsets = runningInputOffsets mixedPage 0 ∧
      r.loop.input_offset = pageCmpTotal mixedPage ∧
      ∀ (k : Nat) (req : PBORequest),
        mixedPage[k]? = some req →
        r.loop.input_offsets.getD (4 * k) 0 =
          pageCmpTotal (mixedPage.take k) ∧
        r.loop.input_offsets.getD (4 * k + 1) 0 =
          pageCmpTotal (mixedPage.take k) + req.hdr.y_cmp_sz ∧
        r.loop.input_offsets.getD (4 * k + 2) 0 =
          pageCmpTotal (mixedPage.take k) + req.hdr.y_cmp_sz +
            req.hdr.chroma_cmp_sz ∧
        r.loop.input_offsets.getD (4 * k + 3) 0 =
          pageCmpTotal (mixedPage.take k) + req.hdr.y_cmp_sz +
            req.hdr.chroma_cmp_sz + req.hdr.palette_sz) :=
  ⟨by decide, by decide, by decide,
    input_offsets_running_sums hdr64 mixedPage 1000 3
      (by decide) (by decide) (by decide)⟩

/-- C13 (as stated) fails: the page buffer starts with the output offsets, not
with the input offsets.  For a page of one request placed at byte 1000 the
worker sets `output_offsets` to address 1000, where it stores the plane offsets
`[0, 512, 1536, 1636]`, and `input_offsets` to address 1016, where it stores
`[0, 10, 30, 60]`. -/
theorem page_layout_counterexample :
    (pageWorker [Preload hdr64 3000] 1000 0).map
        (fun r => (r.output_offsets_addr, r.loop.output_offsets,
          r.input_offsets_addr, r.loop.input_offsets)) =
      some (1000, [0, 512, 1536, 1636], 1016, [0, 10, 30, 60]) := by
  decide

/-- C13 (amended). Page buffer layout order: for a page of `K` requests, `1 ≤ K
≤ 16`, placed at `input_sz`, the worker returns and the buffer starts with the
`4 * K` output offsets, followed at byte `16 * K` by the `4 * K` input offsets,
followed at byte 512 by the frequency tables of `4 * 512` bytes per request,
followed by the payloads of the requests one after the other. -/
theorem page_layout_order (page : List PBORequest) (input_sz page_id : Nat)
    (hne : page ≠ []) (hlen : page.length ≤ kPageSize) :
    ∃ r, pageWorker page input_sz page_id = some r ∧
      r.output_offsets_addr = input_sz ∧
      r.loop.output_offsets.length = 4 * page.length ∧
      r.input_offsets_addr = r.output_offsets_addr + 4 * (4 * page.length) ∧
      r.loop.input_offsets.length = 4 * page.length ∧
      r.input_offsets_addr + 4 * (4 * page.length) ≤ r.freqs_addr ∧
      r.freqs_addr = input_sz + 512 ∧
      r.loop.freq_copies = freqLayout page.length r.freqs_addr ∧
      r.data_addr = r.freqs_addr + 4 * 512 * page.length ∧
      r.loop.data_copies = payloadLayout page r.data_addr := by
  cases page with
  | nil => exact absurd rfl hne
  | cons first rest =>
    refine ⟨_, pageWorker_cons first rest input_sz page_id, ?_⟩
    obtain ⟨h1, _, h3, h4, h5⟩ := foldl_pageStep_copies (numBlocks first.hdr) (first :: rest)
      ⟨input_sz + 4 * (((((first :: rest).length * 4 * 2) + 127) / 128) * 128),
        input_sz + 4 * (((((first :: rest).length * 4 * 2) + 127) / 128) * 128) +
          4 * 512 * (first :: rest).length, 0, 0, [], [], [], []⟩
    simp only [List.nil_append, List.length_nil, Nat.zero_add] at h1 h3 h4 h5
    have hK : 1 ≤ (first :: rest).length := by simp
    have hsz : ((((first :: rest).length * 4 * 2) + 127) / 128) * 128 = 128 := by
      unfold kPageSize at hlen
      omega
    refine ⟨rfl, h5, rfl, h4, ?_, ?_, h1, rfl, h3⟩
    · simp only [hsz]
      unfold kPageSize at hlen
      omega
    · simp only [hsz]

/-- Witness for C13 (amended): a page of two requests. -/
theorem page_layout_order_witness :
    mixedPage ≠ [] ∧ mixedPage.length ≤ kPageSize ∧
    ∃ r, pageWorker mixedPage 1000 3 = some r ∧
      r.output_offsets_addr = 1000 ∧
      r.loop.output_offsets.length = 4 * mixedPage.length ∧
      r.input_offsets_addr = r.output_offsets_addr + 4 * (4 * mixedPage.length) ∧
      r.loop.input_offsets.length = 4 * mixedPage.length ∧
      r.input_offsets_addr + 4 * (4 * mixedPage.length) ≤ r.freqs_addr ∧
      r.freqs_addr = 1000 + 512 ∧
      r.loop.freq_copies = freqLayout mixedPage.length r.freqs_addr ∧
      r.data_addr = r.freqs_addr + 4 * 512 * mixedPage.length ∧
      r.loop.data_copies = payloadLayout mixedPage r.data_addr :=
  ⟨by decide, by decide, page_layout_order mixedPage 1000 3 (by decide) (by decide)⟩

/-- C14 (as stated) fails: the worker computes one block count, from the first
request of the page.  In a page of a 64 x 64 and a 32 x 32 image the second
request has `N_1 = 64` blocks, but the offsets written for it reserve
`2404 - 1892 = 512` bytes for its Y plane instead of `2 * N_1 = 128`. -/
theorem per_request_blocks_counterexample :
    (pageWorker mixedPage 0 0).map (fun r => r.loop.output_offsets) =
      some [0, 512, 1536, 1636, 1892, 2404, 3428, 3478] ∧
    mixedPage[1]? = some (Preload hdr32 2500) ∧
    2 * (hdr32.width * hdr32.height / 16) = 128 ∧
    2404 - 1892 ≠ 128 := by
  refine ⟨by decide, by decide, by decide, by decide⟩

/-- C14 (amended). Block counts in a batch: for every non-empty page whose plane
sizes total less than 2^32, the worker returns, and the output offsets written
for request `k` reserve `2 * N` bytes for its Y plane, `4 * N` for chroma,
`palette_bytes_k` for the palette and `N` for the indices, where `N` is the
block count `W_0 * H_0 / 16` of the first request of the page (request `k`'s
own `N_k` when all images of the page have the same dimensions). -/
theorem page_plane_reserves (first : PBORequest) (rest : List PBORequest)
    (input_sz page_id : Nat)
    (htot : planeTotal (numBlocks first.hdr) (first :: rest) < 4294967296) :
    ∃ r, pageWorker (first :: rest) input_sz page_id = some r ∧
      r.num_blocks = numBlocks first.hdr ∧
      r.loop.output_offset = planeTotal r.num_blocks (first :: rest) ∧
      ∀ (k : Nat) (req : PBORequest), (first :: rest)[k]? = some req →
        r.loop.output_offsets.getD (4 * k + 1) 0 =
          r.loop.output_offsets.getD (4 * k) 0 + 2 * r.num_blocks ∧
        r.loop.output_offsets.getD (4 * k + 2) 0 =
          r.loop.output_offsets.getD (4 * k + 1) 0 + 4 * r.num_blocks ∧
        r.loop.output_offsets.getD (4 * k + 3) 0 =
          r.loop.output_offsets.getD (4 * k + 2) 0 + req.hdr.palette_bytes ∧
        planeTotal r.num_blocks ((first :: rest).take (k + 1)) =
          r.loop.output_offsets.getD (4 * k + 3) 0 + r.num_blocks ∧
        (k + 1 < (first :: rest).length →
          r.loop.output_offsets.getD (4 * (k + 1)) 0 =
            r.loop.output_offsets.getD (4 * k + 3) 0 + r.num_blocks) := by
  refine ⟨_, pageWorker_cons first rest input_sz page_id, rfl, ?_⟩
  obtain ⟨h1, h2⟩ := foldl_pageStep_output (numBlocks first.hdr) (first :: rest)
    ⟨input_sz + 4 * (((((first :: rest).length * 4 * 2) + 127) / 128) * 128),
      input_sz + 4 * (((((first :: rest).length * 4 * 2) + 127) / 128) * 128) +
        4 * 512 * (first :: rest).length, 0, 0, [], [], [], []⟩
    (by simpa using htot)
  simp only [List.nil_append, Nat.zero_add] at h1 h2
  refine ⟨h2, ?_⟩
  intro k req hk
  simp only [h1]
  obtain ⟨g0, g1, g2, g3⟩ := runningOutputOffsets_get (numBlocks first.hdr) (first :: rest) 0 k
    req hk
  have hs := planeTotal_take_succ (numBlocks first.hdr) (first :: rest) k req hk
  rw [g0, g1, g2, g3, hs]
  refine ⟨by omega, by omega, by omega, by omega, ?_⟩
  intro hlt
  obtain ⟨req2, hreq2⟩ : ∃ req2, (first :: rest)[k + 1]? = some req2 :=
    ⟨(first :: rest)[k + 1], List.getElem?_eq_getElem hlt⟩
  obtain ⟨f0, _, _, _⟩ := runningOutputOffsets_get (numBlocks first.hdr) (first :: rest) 0
    (k + 1) req2 hreq2
  rw [f0, hs]
  omega

/-- Witness for C14 (amended): a page of a 64 x 64 and a 32 x 32 image. -/
theorem page_plane_reserves_witness :
    planeTotal (numBlocks (Preload hdr64 3000).hdr) (Preload hdr64 3000 :: [Preload hdr32 2500])
      < 4294967296 ∧
    ∃ r, pageWorker (Preload hdr64 3000 :: [Preload hdr32 2500]) 0 0 = some r ∧
      r.num_blocks = numBlocks (Preload hdr64 3000).hdr ∧
      r.loop.output_offset = planeTotal r.num_blocks (Preload hdr64 3000 :: [Preload hdr32 2500]) ∧
      ∀ (k : Nat) (req : PBORequest),
        (Preload hdr64 3000 :: [Preload hdr32 2500])[k]? = some req →
        r.loop.output_offsets.getD (4 * k + 1) 0 =
          r.loop.output_offsets.getD (4 * k) 0 + 2 * r.num_blocks ∧
        r.loop.output_offsets.getD (4 * k + 2) 0 =
          r.loop.output_offsets.getD (4 * k + 1) 0 + 4 * r.num_blocks ∧
        r.loop.output_offsets.getD (4 * k + 3) 0 =
          r.loop.output_offsets.getD (4 * k + 2) 0 + req.hdr.palette_bytes ∧
        planeTotal r.num_blocks ((Preload hdr64 3000 :: [Preload hdr32 2500]).take (k + 1)) =
          r.loop.output_offsets.getD (4 * k + 3) 0 + r.num_blocks ∧
        (k + 1 < (Preload hdr64 3000 :: [Preload hdr32 2500]).length →
          r.loop.output_offsets.getD (4 * (k + 1)) 0 =
            r.loop.output_offsets.getD (4 * k + 3) 0 + r.num_blocks) :=
  ⟨by decide, page_plane_reserves (Preload hdr64 3000) [Preload hdr32 2500] 0 0 (by decide)⟩

/-- C15 (code defect): for every list of `1 ≤ n < 16` requests the scheduler
creates a single page job whose range is `[0, 16)`: `page_end` starts at
`pbo_reqs.begin() + kPageSize` and only later pages clamp it to
`pbo_reqs.end()`.  The range refers to request indices `≥ n`, so the requests
of the job are not defined. -/
theorem first_page_overrun (reqs : List PBORequest) (h0 : 0 < reqs.length)
    (h16 : reqs.length < 16) :
    pageJobs reqs = [⟨0, 0, 16, 0⟩] ∧
    (∀ job ∈ pageJobs reqs, reqs.length < job.page_end ∧ jobRequests reqs job = none) := by
  have h := pageJobs_small reqs h0 h16
  refine ⟨h, ?_⟩
  intro job hjob
  rw [h, List.mem_singleton] at hjob
  subst hjob
  refine ⟨h16, ?_⟩
  unfold jobRequests
  rw [if_neg (by simp only; omega)]

/-- Witness for C15: a batch of five requests. -/
theorem first_page_overrun_witness :
    0 < smallBatch.length ∧ smallBatch.length < 16 ∧
    pageJobs smallBatch = [⟨0, 0, 16, 0⟩] ∧
    (∀ job ∈ pageJobs smallBatch,
      smallBatch.length < job.page_end ∧ jobRequests smallBatch job = none) :=
  ⟨by decide, by decide, first_page_overrun smallBatch (by decide) (by decide)⟩

/-- C16 (as stated) fails: in a batch of sixteen 64 x 64 images followed by one
32 x 32 image, page 0 uses `N = 256` and page 1 uses `N = 64`; their
destination regions are `[0, 32768)` and `[8192, 16384)`, which overlap. -/
theorem regions_overlap_counterexample :
    pageRegions mixedBatch = [some (0, 32768), some (8192, 8192)] ∧
    8192 < 0 + 32768 ∧ 0 < 8192 + 8192 := by
  refine ⟨by decide, by decide, by decide⟩

/-- C16 (amended). Disjoint destination regions: the destination region of a
page is `[p * 16 * N * 8, p * 16 * N * 8 + 16 * N * 8)` with `N` the block count
the page uses, and the regions of two pages `p ≠ q` that use the same block
count do not overlap. -/
theorem regions_disjoint_same_blocks (page1 page2 : List PBORequest) (in1 in2 p q : Nat)
    (r1 r2 : PageResult)
    (h1 : pageWorker page1 in1 p = some r1) (h2 : pageWorker page2 in2 q = some r2)
    (hpq : p ≠ q) (hN : r1.num_blocks = r2.num_blocks) :
    r1.dst_origin = p * (16 * r1.num_blocks * 8) ∧ r1.dst_size = 16 * r1.num_blocks * 8 ∧
    r2.dst_origin = q * (16 * r2.num_blocks * 8) ∧ r2.dst_size = 16 * r2.num_blocks * 8 ∧
    (r1.dst_origin + r1.dst_size ≤ r2.dst_origin ∨
      r2.dst_origin + r2.dst_size ≤ r1.dst_origin) := by
  cases page1 with
  | nil => simp [pageWorker] at h1
  | cons f1 t1 =>
    cases page2 with
    | nil => simp [pageWorker] at h2
    | cons f2 t2 =>
      rw [pageWorker_cons, Option.some.injEq] at h1 h2
      subst h1
      subst h2
      simp only [kPageSize] at hN ⊢
      rw [hN]
      refine ⟨trivial, trivial, trivial, trivial, ?_⟩
      rcases Nat.lt_or_gt_of_ne hpq with h | h
      · left
        have := Nat.mul_le_mul_right (16 * numBlocks f2.hdr * 8) (Nat.succ_le_of_lt h)
        rw [Nat.succ_mul] at this
        exact this
      · right
        have := Nat.mul_le_mul_right (16 * numBlocks f2.hdr * 8) (Nat.succ_le_of_lt h)
        rw [Nat.succ_mul] at this
        exact this

/-- Witness for C16 (amended): two pages of 64 x 64 images. -/
theorem regions_disjoint_same_blocks_witness :
    ∃ r1 r2, pageWorker [Preload hdr64 3000] 0 0 = some r1 ∧
      pageWorker [Preload hdr64 3000] 3512 1 = some r2 ∧ 0 ≠ 1 ∧
      r1.num_blocks = r2.num_blocks ∧
      (r1.dst_origin = 0 * (16 * r1.num_blocks * 8) ∧ r1.dst_size = 16 * r1.num_blocks * 8 ∧
        r2.dst_origin = 1 * (16 * r2.num_blocks * 8) ∧ r2.dst_size = 16 * r2.num_blocks * 8 ∧
        (r1.dst_origin + r1.dst_size ≤ r2.dst_origin ∨
          r2.dst_origin + r2.dst_size ≤ r1.dst_origin)) :=
  ⟨_, _, pageWorker_cons _ _ _ _, pageWorker_cons _ _ _ _, by decide, rfl,
    regions_disjoint_same_blocks [Preload hdr64 3000] [Preload hdr64 3000] 0 3512 0 1 _ _
      (pageWorker_cons _ _ _ _) (pageWorker_cons _ _ _ _) (by decide) rfl⟩

/-- C17 (code defect): in a batch of seventeen 64 x 64 images every request
has `sz = 2048`, so the pixel buffer has `total_pbo_size = 34816` bytes; the
second page holds one request, but its destination region is a full page,
`[32768, 65536)`, and ends outside the buffer. -/
theorem page_span_overrun :
    (∀ req ∈ uniformBatch, req.sz % 512 = 0) ∧
    total_pbo_size uniformBatch = 34816 ∧
    pageRegions uniformBatch = [some (0, 32768), some (32768, 32768)] ∧
    34816 < 32768 + 32768 := by
  refine ⟨by decide, by decide, by decide, by decide⟩

/-- C18. Disjoint staging ranges: for requests with `2048 ≤ in_sz` and every
page `p` of the sizing loop, `input_sizes[p] = 512 * p +` the inputs of the
requests of the earlier pages; the worker of page `p` returns; its offset
tables lie in the first 512 bytes from `input_sizes[p]`, its frequency-table
copies fill the next `2048` bytes per request and its payload copies fill the
bytes after them up to `input_sizes[p] + 512 +` the page's inputs; this end is
where the next page begins, or `input_mem_sz` for the last page, so it is inside
the buffer and at or before the beginning of every later page.  For 16 requests
or more, the page job `p` of the scheduler runs the worker on these requests at
this offset. -/
theorem staging_ranges (reqs : List PBORequest) (p : Nat)
    (hin : ∀ req ∈ reqs, 2048 ≤ req.in_sz ∧ req.in_sz < 18446744073709551616)
    (hp : p < (input_sizes reqs).length) :
    (input_sizes reqs).getD p 0 = 512 * p + inSzTotal (reqs.take (16 * p)) ∧
    (∃ r, pageWorker (pageOf reqs p) ((input_sizes reqs).getD p 0) p = some r ∧
      r.output_offsets_addr = (input_sizes reqs).getD p 0 ∧
      r.input_offsets_addr = (input_sizes reqs).getD p 0 + 4 * r.loop.output_offsets.length ∧
      r.input_offsets_addr + 4 * r.loop.input_offsets.length ≤
        (input_sizes reqs).getD p 0 + 512 ∧
      tiles r.loop.freq_copies ((input_sizes reqs).getD p 0 + 512)
        ((input_sizes reqs).getD p 0 + 512 + 4 * 512 * (pageOf reqs p).length) = true ∧
      tiles r.loop.data_copies
        ((input_sizes reqs).getD p 0 + 512 + 4 * 512 * (pageOf reqs p).length)
        ((input_sizes reqs).getD p 0 + 512 + inSzTotal (pageOf reqs p)) = true) ∧
    (input_sizes reqs).getD p 0 + 512 + inSzTotal (pageOf reqs p) =
      (input_sizes reqs).getD (p + 1) (input_mem_sz reqs) ∧
    (input_sizes reqs).getD p 0 + 512 + inSzTotal (pageOf reqs p) ≤ input_mem_sz reqs ∧
    (∀ q, p < q → q < (input_sizes reqs).length →
      (input_sizes reqs).getD p 0 + 512 + inSzTotal (pageOf reqs p) ≤
        (input_sizes reqs).getD q 0) ∧
    (16 ≤ reqs.length → ∃ job, (pageJobs reqs)[p]? = some job ∧ job.page_id = p ∧
      job.input_sz = (input_sizes reqs).getD p 0 ∧
      jobRequests reqs job = some (pageOf reqs p)) := by
  rw [input_sizes_eq, sizesOf_length] at hp
  rw [input_sizes_eq, input_mem_sz_eq]
  have hget : ∀ q, q < pageCount reqs.length →
      (sizesOf reqs).getD q 0 = 512 * q + inSzTotal (reqs.take (16 * q)) := by
    intro q hq
    exact getD_of_some _ _ _ _ (sizesOf_get reqs q hq)
  have hlo := hget p hp
  have hpn : 16 * p < reqs.length := by
    unfold pageCount at hp
    omega
  have hlen := pageOf_length reqs p
  have hne : pageOf reqs p ≠ [] := by
    intro h
    rw [h] at hlen
    simp only [List.length_nil] at hlen
    omega
  have hinp : ∀ req ∈ pageOf reqs p, 2048 ≤ req.in_sz ∧ req.in_sz < 18446744073709551616 :=
    fun req hreq => hin req (List.mem_of_mem_drop (List.mem_of_mem_take hreq))
  have hnext : inSzTotal (reqs.take (16 * (p + 1))) =
      inSzTotal (reqs.take (16 * p)) + inSzTotal (pageOf reqs p) := by
    have e : 16 * (p + 1) = 16 * p + 16 := by omega
    rw [e, inSzTotal_take_add]
    rfl
  have hend : ∀ q, p < q →
      (sizesOf reqs).getD p 0 + 512 + inSzTotal (pageOf reqs p) ≤
        512 * q + inSzTotal (reqs.take (16 * q)) := by
    intro q hq
    have hm := inSzTotal_take_mono reqs (16 * (p + 1)) (16 * q) (by omega)
    rw [hlo]
    omega
  refine ⟨hlo, ?_, ?_, ?_, ?_, ?_⟩
  · obtain ⟨r, hr, h1, h2, h3, h4, h5, _⟩ :=
      pageWorker_staging (pageOf reqs p) ((sizesOf reqs).getD p 0) p hne (by omega) hinp
    exact ⟨r, hr, h1, h2, h3, h4, h5⟩
  · by_cases hq : p + 1 < pageCount reqs.length
    · rw [getD_of_some _ _ _ _ (sizesOf_get reqs (p + 1) hq), hlo]
      unfold kPageSize
      omega
    · have hnone : (sizesOf reqs)[p + 1]? = none :=
        List.getElem?_eq_none (by rw [sizesOf_length]; omega)
      rw [getD_of_none _ _ _ hnone, hlo]
      unfold memOf
      have hall : reqs.take (16 * (p + 1)) = reqs :=
        List.take_of_length_le (by unfold pageCount at hq hp; omega)
      rw [hall] at hnext
      have hpc : pageCount reqs.length = p + 1 := by omega
      rw [hpc]
      omega
  · have hle := inSzTotal_take_le reqs (16 * (p + 1))
    rw [hlo]
    unfold memOf
    omega
  · intro q hpq hq
    rw [sizesOf_length] at hq
    rw [hget q hq]
    exact hend q hpq
  · intro hn
    refine ⟨_, pageJobs_get reqs p hn hp, rfl, ?_, jobRequests_pageOf reqs p _⟩
    rw [hlo]
    rfl

/-- Witness for C18: page 1 of a batch of seventeen requests of 3000 bytes. -/
theorem staging_ranges_witness :
    (∀ req ∈ uniformBatch, 2048 ≤ req.in_sz ∧ req.in_sz < 18446744073709551616) ∧
    1 < (input_sizes uniformBatch).length ∧
    (input_sizes uniformBatch).getD 1 0 = 48512 ∧
    (input_sizes uniformBatch).getD 1 0 + 512 + inSzTotal (pageOf uniformBatch 1) = 52024 ∧
    input_mem_sz uniformBatch = 52024 ∧
    (input_sizes uniformBatch).getD 1 0 =
      512 * 1 + inSzTotal (uniformBatch.take (16 * 1)) ∧
    (input_sizes uniformBatch).getD 1 0 + 512 + inSzTotal (pageOf uniformBatch 1) ≤
      input_mem_sz uniformBatch :=
  ⟨by decide, by decide, by decide, by decide, by decide,
    (staging_ranges uniformBatch 1 (by decide) (by decide)).1,
    (staging_ranges uniformBatch 1 (by decide) (by decide)).2.2.2.1⟩

/-- C19 (as stated) fails: for a header of 65536 x 32768 pixels, both multiples
of 4, the product `width * height` of `LoadGTC` is `2^31`, outside the range of
the signed 32-bit `GLsizei`, so `dxt_size` has no defined value, while
`8 * N_blocks` is `2^30`. -/
theorem dxt_size_counterexample :
    GenTCHeader.InRange ⟨65536, 32768, 0, 0, 0, 0, 0⟩ ∧
    65536 % 4 = 0 ∧ 32768 % 4 = 0 ∧
    LoadGTC_dxt_size ⟨65536, 32768, 0, 0, 0, 0, 0⟩ = none ∧
    8 * numBlocks ⟨65536, 32768, 0, 0, 0, 0, 0⟩ = 1073741824 := by
  refine ⟨by decide, by decide, by decide, by decide, by decide⟩

/-- C19 (amended). DXT byte count: for every header whose width `W` and height
`H` are multiples of 4, the size `(W * H) / 2` that `Preload` stores equals
`8 * N_blocks`, with `N_blocks = (W * H) / 16` computed in 32 bits as the
callers do; and when `W * H < 2^31` the size `dxt_size` of `LoadGTC` is defined
and equals `8 * N_blocks` too. -/
theorem dxt_byte_count (hdr : GenTCHeader) (mem_sz : Nat) (hr : hdr.InRange)
    (hw : hdr.width % 4 = 0) (hh : hdr.height % 4 = 0) :
    (Preload hdr mem_sz).sz = 8 * numBlocks hdr ∧
    (hdr.width * hdr.height < 2147483648 →
      LoadGTC_dxt_size hdr = some ((8 * numBlocks hdr : Nat) : Int)) := by
  obtain ⟨a, ha⟩ : ∃ a, hdr.width = 4 * a := ⟨hdr.width / 4, by omega⟩
  obtain ⟨b, hb⟩ : ∃ b, hdr.height = 4 * b := ⟨hdr.height / 4, by omega⟩
  have hprod : hdr.width * hdr.height = 16 * (a * b) := by
    rw [ha, hb]
    ring
  have hmod : u32 (hdr.width * hdr.height) % 16 = 0 := by
    unfold u32
    rw [hprod]
    omega
  refine ⟨?_, ?_⟩
  · unfold Preload
    simp only
    rw [← numBlocks_eq]
    omega
  · intro hlt
    have hu : u32 (hdr.width * hdr.height) = hdr.width * hdr.height :=
      u32_of_lt _ (by omega)
    rw [← numBlocks_eq, hu]
    rw [hu] at hmod
    obtain ⟨hrw, hrh, _⟩ := hr
    have huw : u32 hdr.width = hdr.width := u32_of_lt _ hrw
    have huh : u32 hdr.height = hdr.height := u32_of_lt _ hrh
    have hres : ((8 * (hdr.width * hdr.height / 16) : Nat) : Int) =
        Int.tdiv ((hdr.width : Int) * (hdr.height : Int)) 2 := by
      rw [← Nat.cast_mul]
      show ((8 * (hdr.width * hdr.height / 16) : Nat) : Int) =
        Int.tdiv ((hdr.width * hdr.height : Nat) : Int) ((2 : Nat) : Int)
      rw [← Int.ofNat_tdiv]
      congr 1
      omega
    by_cases hz : hdr.width = 0 ∨ hdr.height = 0
    · have hp0 : toGLsizei hdr.width * toGLsizei hdr.height = 0 := by
        rcases hz with hz | hz
        · rw [hz]
          simp [toGLsizei, u32]
        · rw [hz]
          simp [toGLsizei, u32]
      have hp1 : hdr.width * hdr.height = 0 := by
        rcases hz with hz | hz
        · rw [hz, Nat.zero_mul]
        · rw [hz, Nat.mul_zero]
      unfold LoadGTC_dxt_size
      simp only [hp0, hp1]
      rfl
    · have hw1 : 1 ≤ hdr.width := by omega
      have hh1 : 1 ≤ hdr.height := by omega
      have hwlt : hdr.width < 2147483648 :=
        Nat.lt_of_le_of_lt (Nat.le_mul_of_pos_right _ hh1) hlt
      have hhlt : hdr.height < 2147483648 :=
        Nat.lt_of_le_of_lt (Nat.le_mul_of_pos_left _ hw1) hlt
      have gw : toGLsizei hdr.width = (hdr.width : Int) := by
        unfold toGLsizei
        rw [huw, if_pos hwlt]
      have gh : toGLsizei hdr.height = (hdr.height : Int) := by
        unfold toGLsizei
        rw [huh, if_pos hhlt]
      have hrange : -2147483648 ≤ (hdr.width : Int) * (hdr.height : Int) ∧
          (hdr.width : Int) * (hdr.height : Int) < 2147483648 := by
        rw [← Nat.cast_mul]
        omega
      unfold LoadGTC_dxt_size
      simp only [gw, gh]
      rw [if_pos hrange, hres]

/-- Witness for C19 (amended): an image of 64 x 64 pixels. -/
theorem dxt_byte_count_witness :
    hdr64.InRange ∧ hdr64.width % 4 = 0 ∧ hdr64.height % 4 = 0 ∧
    hdr64.width * hdr64.height < 2147483648 ∧
    (Preload hdr64 3000).sz = 8 * numBlocks hdr64 ∧
    LoadGTC_dxt_size hdr64 = some ((8 * numBlocks hdr64 : Nat) : Int) :=
  ⟨by decide, by decide, by decide, by decide,
    (dxt_byte_count hdr64 3000 (by decide) (by decide) (by decide)).1,
    (dxt_byte_count hdr64 3000 (by decide) (by decide) (by decide)).2 (by decide)⟩

/-- C20 (as stated) fails: an alignment of 4 bits is a power of two of at most
65536 bits, but then `align / 8` is 0 and the assertion takes a remainder by
zero, for every page and every origin. -/
theorem alignment_counterexample :
    4 = 2 ^ 2 ∧ 4 ≤ 65536 ∧ (Preload hdr64 3000).sz % 512 = 0 ∧
    (pageWorker [Preload hdr64 3000] 0 1).bind (fun r => alignmentAssert r.dst_origin 4) =
      none := by
  refine ⟨by decide, by decide, by decide, by decide⟩

/-- C20 (amended). Page alignment assertion: whenever every request of a page
has the destination size `Preload` gives it and this size is a multiple of 512
bytes, and the device's base address alignment is a power of two between 8 and
65536 bits, the worker's result has its origin `page_id * 16 * N_blocks * 8`
at a multiple of `align / 8` bytes, and the assertion holds. -/
theorem alignment_assertion (page : List PBORequest) (input_sz page_id k : Nat)
    (r : PageResult) (hr : pageWorker page input_sz page_id = some r)
    (hsz : ∀ req ∈ page, req.sz = u32 (req.hdr.width * req.hdr.height) / 2 ∧ req.sz % 512 = 0)
    (hk3 : 3 ≤ k) (hk16 : k ≤ 16) :
    r.dst_origin = page_id * (16 * r.num_blocks * 8) ∧
    r.dst_origin % (2 ^ k / 8) = 0 ∧
    alignmentAssert r.dst_origin (2 ^ k) = some true := by
  cases page with
  | nil => simp [pageWorker] at hr
  | cons first rest =>
    rw [pageWorker_cons, Option.some.injEq] at hr
    subst hr
    obtain ⟨h1, h2⟩ := hsz first (List.mem_cons_self _ _)
    have hN : numBlocks first.hdr % 64 = 0 := by
      rw [← numBlocks_eq]
      omega
    obtain ⟨j, hj⟩ : ∃ j, numBlocks first.hdr = 64 * j :=
      ⟨numBlocks first.hdr / 64, by omega⟩
    have hdiv : 2 ^ k / 8 = 2 ^ (k - 3) := by
      have h8 : (8 : Nat) = 2 ^ 3 := by decide
      rw [h8, Nat.pow_div hk3 (by decide)]
    have hdvd : 2 ^ (k - 3) ∣ page_id * (kPageSize * numBlocks first.hdr * 8) := by
      have h13 : (2 : Nat) ^ (k - 3) ∣ 2 ^ 13 := Nat.pow_dvd_pow 2 (by omega)
      have he : page_id * (kPageSize * numBlocks first.hdr * 8) = 2 ^ 13 * (page_id * j) := by
        rw [hj]
        unfold kPageSize
        ring
      rw [he]
      exact Dvd.dvd.mul_right h13 _
    have hmod : page_id * (kPageSize * numBlocks first.hdr * 8) % (2 ^ k / 8) = 0 := by
      rw [hdiv]
      exact Nat.mod_eq_zero_of_dvd hdvd
    have hpos : 2 ^ k / 8 ≠ 0 := by
      rw [hdiv]
      exact (Nat.two_pow_pos _).ne'
    refine ⟨rfl, hmod, ?_⟩
    unfold alignmentAssert
    rw [if_neg hpos]
    simp only [hmod, beq_self_eq_true]

/-- Witness for C20 (amended): page 3 of 64 x 64 images on a device with an
alignment of 1024 bits. -/
theorem alignment_assertion_witness :
    ∃ r, pageWorker [Preload hdr64 3000] 1000 3 = some r ∧
      (∀ req ∈ [Preload hdr64 3000],
        req.sz = u32 (req.hdr.width * req.hdr.height) / 2 ∧ req.sz % 512 = 0) ∧
      3 ≤ 10 ∧ 10 ≤ 16 ∧
      (r.dst_origin = 3 * (16 * r.num_blocks * 8) ∧
        r.dst_origin % (2 ^ 10 / 8) = 0 ∧
        alignmentAssert r.dst_origin (2 ^ 10) = some true) :=
  ⟨_, pageWorker_cons _ _ _ _, by decide, by decide, by decide,
    alignment_assertion [Preload hdr64 3000] 1000 3 10 _ (pageWorker_cons _ _ _ _)
      (by decide) (by decide) (by decide)⟩

/-! ## Facts about the option loop, the sub-window grid and the work queue -/

theorem optionLoop_all_options (argv : List String) (hlen : argv.length < 4294967296) :
    ∀ (fuel next_arg : Nat) (profiling async : Bool),
      next_arg ≤ argv.length → argv.length - next_arg < fuel →
      (∀ i, next_arg ≤ i → i < argv.length → argv[i]? = some "-p" ∨ argv[i]? = some "-s") →
      optionLoop argv fuel next_arg profiling async = OptionsResult.nullArgument argv.length := by
  intro fuel
  induction fuel with
  | zero => intro next_arg _ _ _ h; omega
  | succ fuel ih =>
    intro next_arg profiling async hle hfuel hall
    rw [optionLoop]
    by_cases hlt : next_arg < argv.length
    · have hu : u32 (next_arg + 1) = next_arg + 1 := Nat.mod_eq_of_lt (by omega)
      rcases hall next_arg (Nat.le_refl _) hlt with h | h
      · rw [h]
        simp only [if_true, hu]
        exact ih (next_arg + 1) true async (by omega) (by omega)
          (fun i hi hi2 => hall i (by omega) hi2)
      · rw [h]
        have hne : ¬ ("-s" = "-p") := by decide
        simp only [hne, if_false, if_true, hu]
        exact ih (next_arg + 1) profiling false (by omega) (by omega)
          (fun i hi hi2 => hall i (by omega) hi2)
    · have heq : next_arg = argv.length := by omega
      have hnone : argv[next_arg]? = none := List.getElem?_eq_none (by omega)
      rw [hnone, heq]

theorem optionLoop_stops (argv : List String) (hlen : argv.length < 4294967296) :
    ∀ (fuel next_arg j : Nat) (profiling async : Bool) (arg : String),
      next_arg ≤ j → j - next_arg < fuel → argv[j]? = some arg → arg ≠ "-p" → arg ≠ "-s" →
      (∀ i, next_arg ≤ i → i < j → argv[i]? = some "-p" ∨ argv[i]? = some "-s") →
      ∃ p a, optionLoop argv fuel next_arg profiling async = OptionsResult.parsed j p a := by
  intro fuel
  induction fuel with
  | zero => intro next_arg j _ _ _ _ h; omega
  | succ fuel ih =>
    intro next_arg j profiling async arg hle hfuel hj hp hs hall
    have hjlt : j < argv.length := by
      by_contra hcon
      rw [List.getElem?_eq_none (by omega)] at hj
      exact Option.noConfusion hj
    rw [optionLoop]
    by_cases hlt : next_arg < j
    · have hu : u32 (next_arg + 1) = next_arg + 1 := Nat.mod_eq_of_lt (by omega)
      rcases hall next_arg (Nat.le_refl _) hlt with h | h
      · rw [h]
        simp only [if_true, hu]
        exact ih (next_arg + 1) j true async arg (by omega) (by omega) hj hp hs
          (fun i hi hi2 => hall i (by omega) hi2)
      · rw [h]
        have hne : ¬ ("-s" = "-p") := by decide
        simp only [hne, if_false, if_true, hu]
        exact ih (next_arg + 1) j profiling false arg (by omega) (by omega) hj hp hs
          (fun i hi hi2 => hall i (by omega) hi2)
    · have heq : next_arg = j := by omega
      rw [heq, hj]
      simp only [hp, hs, if_false]
      exact ⟨_, _, rfl⟩

theorem subWindowsLoop_spec (count aspect : Nat) (hc : count < 18446744073709551616) :
    ∀ (fuel nx ny k : Nat), ny ≤ fuel → nx = 2 ^ k → nx * ny = count →
      ∃ nx1 ny1 k1, subWindowsLoop aspect fuel nx ny = some (nx1, ny1) ∧
        nx1 * ny1 = count ∧ nx1 = 2 ^ k1 := by
  intro fuel
  induction fuel with
  | zero =>
    intro nx ny k hny hnx hprod
    have h0 : ny = 0 := by omega
    refine ⟨nx, ny, k, ?_, hprod, hnx⟩
    rw [subWindowsLoop, if_neg (by rw [h0]; omega)]
  | succ fuel ih =>
    intro nx ny k hny hnx hprod
    rw [subWindowsLoop]
    by_cases hcond : ny % 2 = 0 ∧ u64 (2 * aspect * nx) < ny
    · rw [if_pos hcond]
      obtain ⟨heven, hlt⟩ := hcond
      have hny2 : 2 ≤ ny := by omega
      obtain ⟨m, hm⟩ : ∃ m, ny = 2 * m := ⟨ny / 2, by omega⟩
      have hprod2 : nx * 2 * (ny / 2) = count := by
        rw [← hprod, hm]
        have : 2 * m / 2 = m := by omega
        rw [this]
        ring
      have hnx2 : nx * 2 ≤ count := by
        rw [← hprod2]
        exact Nat.le_mul_of_pos_right _ (by omega)
      have hu : u64 (nx * 2) = nx * 2 := Nat.mod_eq_of_lt (by omega)
      rw [hu]
      exact ih (nx * 2) (ny / 2) (k + 1) (by omega) (by rw [hnx, pow_succ]) hprod2
    · rw [if_neg hcond]
      exact ⟨nx, ny, k, rfl, hprod, hnx⟩

theorem queueAll_fns {F : Type} (fs : List F) :
    ∀ req : AsyncTexRequest F, (queueAll req fs).fns = req.fns ++ fs := by
  induction fs with
  | nil => intro req; simp [queueAll]
  | cons f rest ih =>
    intro req
    have h := ih (req.QueueWork f)
    unfold queueAll at h ⊢
    rw [List.foldl_cons, h]
    simp [AsyncTexRequest.QueueWork]

theorem runCalls_list {F : Type} (fs : List F) :
    ∀ ret : F, runCalls fs.length (⟨fs⟩ : AsyncTexRequest F) ret =
      (fs.map (fun f => (true, f)), ⟨[]⟩, fs.getLastD ret) := by
  induction fs with
  | nil => intro ret; rfl
  | cons f rest ih =>
    intro ret
    have hrun : (AsyncTexRequest.Run (⟨f :: rest⟩ : AsyncTexRequest F) ret) =
        (true, f, ⟨rest⟩) := rfl
    rw [List.length_cons, runCalls, hrun]
    simp only [ih f, List.map_cons]
    congr 2
    cases rest with
    | nil => rfl
    | cons g rest2 => simp [List.getLastD]

/-! ## Facts about the final offsets -/

theorem assignOffsets_get (reqs : List PBORequest) :
    ∀ (base i : Nat) (req : PBORequest), reqs[i]? = some req →
      (assignOffsets reqs base)[i]? =
        some { req with off := base + total_pbo_size (reqs.take i) } := by
  induction reqs with
  | nil => intro base i req h; simp at h
  | cons r rest ih =>
    intro base i req h
    cases i with
    | zero =>
      simp only [List.getElem?_cons_zero, Option.some.injEq] at h
      subst h
      simp [assignOffsets, total_pbo_size]
    | succ i =>
      simp only [List.getElem?_cons_succ] at h
      rw [assignOffsets, List.getElem?_cons_succ, ih (base + r.sz) i req h]
      simp only [total_pbo_size, List.take_succ_cons, List.map_cons, List.sum_cons,
        Nat.add_assoc]

theorem total_pbo_size_uniform (reqs : List PBORequest) (s : Nat)
    (h : ∀ req ∈ reqs, req.sz = s) : total_pbo_size reqs = reqs.length * s := by
  induction reqs with
  | nil => simp [total_pbo_size]
  | cons r rest ih =>
    have h1 := h r (List.mem_cons_self _ _)
    have h2 := ih (fun q hq => h q (List.mem_cons_of_mem _ hq))
    unfold total_pbo_size at h2 ⊢
    rw [List.map_cons, List.sum_cons, h2, h1, List.length_cons]
    ring

/-! ## Facts about collecting and staging the requests -/

theorem collectRequests_ok (reqs : List PBORequest) :
    ∀ (pbo_reqs : List PBORequest) (total : Nat), (∀ req ∈ reqs, req.sz % 512 = 0) →
      collectRequests reqs pbo_reqs total =
        some (pbo_reqs ++ reqs, total + total_pbo_size reqs) := by
  induction reqs with
  | nil => intro pbo_reqs total _; simp [collectRequests, total_pbo_size]
  | cons req rest ih =>
    intro pbo_reqs total h
    rw [collectRequests, if_pos (h req (List.mem_cons_self _ _)),
      ih _ _ (fun q hq => h q (List.mem_cons_of_mem _ hq))]
    simp only [total_pbo_size, List.map_cons, List.sum_cons, List.append_assoc,
      List.singleton_append, Nat.add_assoc]

theorem collectRequests_fail (reqs : List PBORequest) :
    ∀ (pbo_reqs : List PBORequest) (total : Nat), (∃ req ∈ reqs, req.sz % 512 ≠ 0) →
      collectRequests reqs pbo_reqs total = none := by
  induction reqs with
  | nil => intro _ _ h; obtain ⟨req, hreq, _⟩ := h; simp at hreq
  | cons req rest ih =>
    intro pbo_reqs total h
    rw [collectRequests]
    by_cases h0 : req.sz % 512 = 0
    · rw [if_pos h0]
      obtain ⟨q, hq, hq2⟩ := h
      rcases List.mem_cons.mp hq with h1 | h1
      · rw [h1] at hq2
        exact absurd h0 hq2
      · exact ih _ _ ⟨q, h1, hq2⟩
    · rw [if_neg h0]

theorem pageWorker_copies (page : List PBORequest) (lo page_id : Nat)
    (hne : page ≠ []) (hlen : page.length ≤ 16)
    (hin : ∀ req ∈ page, 2048 ≤ req.in_sz ∧ req.in_sz < 18446744073709551616) :
    ∃ r, pageWorker page lo page_id = some r ∧
      r.loop.freq_copies.map Prod.snd = page.map (fun _ => 2048) ∧
      r.loop.data_copies.map Prod.snd = page.map (fun req => req.in_sz - 2048) ∧
      tiles r.loop.freq_copies (lo + 512) (lo + 512 + 4 * 512 * page.length) = true ∧
      tiles r.loop.data_copies (lo + 512 + 4 * 512 * page.length)
        (lo + 512 + inSzTotal page) = true := by
  have hfreq : ∀ (count addr : Nat),
      (freqLayout count addr).map Prod.snd = List.replicate count 2048 := by
    intro count
    induction count with
    | zero => intro addr; rfl
    | succ count ih =>
      intro addr
      rw [freqLayout, List.map_cons, ih, List.replicate_succ]
  have hpay : ∀ (pg : List PBORequest) (addr : Nat),
      (∀ req ∈ pg, 2048 ≤ req.in_sz ∧ req.in_sz < 18446744073709551616) →
      (payloadLayout pg addr).map Prod.snd = pg.map (fun req => req.in_sz - 2048) := by
    intro pg
    induction pg with
    | nil => intro addr _; rfl
    | cons q rest ih =>
      intro addr h
      obtain ⟨h1, h2⟩ := h q (List.mem_cons_self _ _)
      rw [payloadLayout, List.map_cons, List.map_cons,
        ih _ (fun x hx => h x (List.mem_cons_of_mem _ hx)), u64_sub _ h1 h2]
  have hconst : ∀ pg : List PBORequest,
      pg.map (fun _ => 2048) = List.replicate pg.length 2048 := by
    intro pg
    induction pg with
    | nil => rfl
    | cons q rest ih => rw [List.map_cons, ih, List.length_cons, List.replicate_succ]
  obtain ⟨r, hr, _, _, _, g4, g5, _⟩ := pageWorker_staging page lo page_id hne hlen hin
  refine ⟨r, hr, ?_, ?_, g4, g5⟩
  · cases page with
    | nil => exact absurd rfl hne
    | cons first rest =>
      have hr2 := pageWorker_cons first rest lo page_id
      rw [hr, Option.some.injEq] at hr2
      obtain ⟨h1, _, _, _, _⟩ := foldl_pageStep_copies (numBlocks first.hdr) (first :: rest)
        ⟨lo + 4 * (((((first :: rest).length * 4 * 2) + 127) / 128) * 128),
          lo + 4 * (((((first :: rest).length * 4 * 2) + 127) / 128) * 128) +
            4 * 512 * (first :: rest).length, 0, 0, [], [], [], []⟩
      rw [hr2]
      dsimp only at h1 ⊢
      rw [h1, List.nil_append, hfreq, hconst]
  · cases page with
    | nil => exact absurd rfl hne
    | cons first rest =>
      have hr2 := pageWorker_cons first rest lo page_id
      rw [hr, Option.some.injEq] at hr2
      obtain ⟨_, _, h3, _, _⟩ := foldl_pageStep_copies (numBlocks first.hdr) (first :: rest)
        ⟨lo + 4 * (((((first :: rest).length * 4 * 2) + 127) / 128) * 128),
          lo + 4 * (((((first :: rest).length * 4 * 2) + 127) / 128) * 128) +
            4 * 512 * (first :: rest).length, 0, 0, [], [], [], []⟩
      rw [hr2]
      dsimp only at h3 ⊢
      rw [h3, List.nil_append, hpay _ _ hin]

theorem pageJobsLoop_length (n : Nat) (sizes : List Nat) :
    ∀ (page_id page_start page_end : Nat),
      (pageJobsLoop n sizes page_id page_start page_end).length = sizes.length := by
  induction sizes with
  | nil => intro _ _ _; rfl
  | cons input_sz rest ih =>
    intro page_id page_start page_end
    rw [pageJobsLoop]
    split
    · rw [List.length_cons, ih, List.length_cons]
    · rw [List.length_cons, ih, List.length_cons]

theorem pageJobs_length (reqs : List PBORequest) :
    (pageJobs reqs).length = pageCount reqs.length := by
  unfold pageJobs
  rw [pageJobsLoop_length, input_sizes_eq, sizesOf_length]

theorem LoadTextures_pages_staged (reqs : List PBORequest)
    (hsz : ∀ req ∈ reqs, req.sz % 512 = 0) (htot : 0 < total_pbo_size reqs)
    (hn : 16 ≤ reqs.length)
    (hin : ∀ req ∈ reqs, 2048 ≤ req.in_sz ∧ req.in_sz < 18446744073709551616) :
    ∃ pages, LoadTextures_pages reqs = some pages ∧ pages.length = pageCount reqs.length ∧
      ∀ p, p < pageCount reqs.length →
        ∃ r, pages[p]? = some (some r) ∧
          pageWorker (pageOf reqs p) ((input_sizes reqs).getD p 0) p = some r ∧
          r.loop.freq_copies.map Prod.snd = (pageOf reqs p).map (fun _ => 2048) ∧
          r.loop.data_copies.map Prod.snd =
            (pageOf reqs p).map (fun req => req.in_sz - 2048) ∧
          tiles r.loop.freq_copies ((input_sizes reqs).getD p 0 + 512)
            ((input_sizes reqs).getD p 0 + 512 + 4 * 512 * (pageOf reqs p).length) = true ∧
          tiles r.loop.data_copies
            ((input_sizes reqs).getD p 0 + 512 + 4 * 512 * (pageOf reqs p).length)
            ((input_sizes reqs).getD p 0 + 512 + inSzTotal (pageOf reqs p)) = true := by
  have hcol := collectRequests_ok reqs [] 0 hsz
  simp only [List.nil_append, Nat.zero_add] at hcol
  have hpages : LoadTextures_pages reqs =
      some ((pageJobs reqs).map (fun job =>
        (jobRequests reqs job).bind (fun page =>
          pageWorker page job.input_sz job.page_id))) := by
    unfold LoadTextures_pages
    rw [hcol]
    simp only [gt_iff_lt, htot, if_true]
  refine ⟨_, hpages, ?_, ?_⟩
  · rw [List.length_map, pageJobs_length]
  · intro p hp
    have hpn : 16 * p < reqs.length := by
      unfold pageCount at hp
      omega
    have hlen := pageOf_length reqs p
    have hne : pageOf reqs p ≠ [] := by
      intro h
      rw [h] at hlen
      simp only [List.length_nil] at hlen
      omega
    have hinp : ∀ req ∈ pageOf reqs p,
        2048 ≤ req.in_sz ∧ req.in_sz < 18446744073709551616 :=
      fun req hreq => hin req (List.mem_of_mem_drop (List.mem_of_mem_take hreq))
    have hlo : (input_sizes reqs).getD p 0 =
        512 * p + inSzTotal (reqs.take (kPageSize * p)) := by
      rw [input_sizes_eq]
      exact getD_of_some _ _ _ _ (sizesOf_get reqs p hp)
    obtain ⟨r, hr, h1, h2, h3, h4⟩ :=
      pageWorker_copies (pageOf reqs p) ((input_sizes reqs).getD p 0) p hne (by omega) hinp
    refine ⟨r, ?_, hr, h1, h2, h3, h4⟩
    rw [List.getElem?_map, pageJobs_get reqs p hn hp]
    simp only [Option.map_some', jobRequests_pageOf, Option.some_bind, Option.some.injEq]
    rw [← hlo]
    exact hr

/-! ## The claims on loading, the final offsets and the device copy -/

/-- C21 (as stated) fails: no field of the header is examined on load, and a
request is never dropped while the batch continues.  A file of 48 + 3000 bytes
whose header gives payload sizes 10, 20, 30 and 0 (a zero size, and a sum that
disagrees with the file) is loaded by `Preload` and by `LoadGTC`, and in a batch
of sixteen such files `LoadTextures` stages all sixteen frequency tables and
all 16 * 952 payload bytes.  A header of 6 x 4 pixels is loaded as well; one
such request at the end of a batch of well-formed ones fails the scheduler's
assertion `sz % 512 == 0`, which ends the whole batch. -/
theorem malformed_container_counterexample :
    cmpTotal inconsistentHdr = 60 ∧ inconsistentHdr.indices_sz = 0 ∧
    PreloadFile true 3048 inconsistentHdr = some ⟨2048, 0, 3000, inconsistentHdr⟩ ∧
    LoadGTC_read true 3048 inconsistentHdr = some (inconsistentHdr, 3000) ∧
    (LoadTextures_pages (preloaded inconsistentBatch)).map
        (fun pages => pages.map (fun o => o.map stagedBytes)) =
      some [some (16, 16 * 952)] ∧
    PreloadFile true 3048 ⟨6, 4, 0, 1, 1, 1, 1⟩ =
      some ⟨12, 0, 3000, ⟨6, 4, 0, 1, 1, 1, 1⟩⟩ ∧
    LoadTextures_pages
        (preloaded (List.replicate 16 (3048, hdr64) ++ [(3048, ⟨6, 4, 0, 1, 1, 1, 1⟩)])) =
      none := by
  refine ⟨by decide, by decide, by decide, by decide, by decide, by decide, by decide⟩

/-- C21 (amended). Containers are not validated on load.  For files that open
and are at least as long as the 48-byte header, whatever their headers say:
`Preload` fills in a request with `sz = (W * H) / 2` and `in_sz = length - 48`,
and `LoadGTC` reads the same number of payload bytes; a file that does not open
or is shorter than the header yields no request with either loader.  In the
batch of the requests so loaded the scheduler checks only its assertion `sz mod
512 = 0`, whose failure for one request ends the whole batch, and its guard
`total_pbo_size > 0`, without which nothing is staged; when every request
passes the assertion, `total_pbo_size > 0`, there are at least 16 requests and
every file has at least 48 + 2048 bytes, every page's worker returns and stages
2048 bytes of frequency tables and the `in_sz - 2048` payload bytes of each of
its requests, in contiguous copies. -/
theorem containers_not_validated (files : List (Nat × GenTCHeader))
    (hfiles : ∀ file ∈ files, kHeaderSz ≤ file.1 ∧ file.1 < 18446744073709551616) :
    (∀ file ∈ files,
      PreloadFile true file.1 file.2 =
        some ⟨u32 (file.2.width * file.2.height) / 2, 0, file.1 - kHeaderSz, file.2⟩ ∧
      LoadGTC_read true file.1 file.2 = some (file.2, file.1 - kHeaderSz)) ∧
    (∀ (opened : Bool) (short : Nat) (hdr : GenTCHeader),
      opened = false ∨ short < kHeaderSz →
        PreloadFile opened short hdr = none ∧ LoadGTC_read opened short hdr = none) ∧
    ((∃ req ∈ preloaded files, req.sz % 512 ≠ 0) →
      LoadTextures_pages (preloaded files) = none) ∧
    ((∀ req ∈ preloaded files, req.sz % 512 = 0) → total_pbo_size (preloaded files) = 0 →
      LoadTextures_pages (preloaded files) = some []) ∧
    ((∀ req ∈ preloaded files, req.sz % 512 = 0) → 0 < total_pbo_size (preloaded files) →
      16 ≤ files.length → (∀ file ∈ files, kHeaderSz + 2048 ≤ file.1) →
      ∃ pages, LoadTextures_pages (preloaded files) = some pages ∧
        pages.length = pageCount files.length ∧
        ∀ p, p < pageCount files.length →
          ∃ r, pages[p]? = some (some r) ∧
            pageWorker (pageOf (preloaded files) p)
              ((input_sizes (preloaded files)).getD p 0) p = some r ∧
            r.loop.freq_copies.map Prod.snd =
              (pageOf (preloaded files) p).map (fun _ => 2048) ∧
            r.loop.data_copies.map Prod.snd =
              (pageOf (preloaded files) p).map (fun req => req.in_sz - 2048) ∧
            tiles r.loop.freq_copies ((input_sizes (preloaded files)).getD p 0 + 512)
              ((input_sizes (preloaded files)).getD p 0 + 512 +
                4 * 512 * (pageOf (preloaded files) p).length) = true ∧
            tiles r.loop.data_copies
              ((input_sizes (preloaded files)).getD p 0 + 512 +
                4 * 512 * (pageOf (preloaded files) p).length)
              ((input_sizes (preloaded files)).getD p 0 + 512 +
                inSzTotal (pageOf (preloaded files) p)) = true) := by
  have hlenp : (preloaded files).length = files.length := by simp [preloaded]
  refine ⟨?_, ?_, ?_, ?_, ?_⟩
  · intro file hfile
    obtain ⟨h1, h2⟩ := hfiles file hfile
    have hmem : u64 (file.1 + 18446744073709551616 - kHeaderSz) = file.1 - kHeaderSz := by
      unfold u64 kHeaderSz at *
      omega
    refine ⟨?_, ?_⟩
    · unfold PreloadFile
      simp only [Bool.not_true, Bool.false_eq_true, if_false, hmem]
      rw [if_neg (by omega)]
      rfl
    · unfold LoadGTC_read
      simp only [Bool.not_true, Bool.false_eq_true, if_false, hmem]
      rw [if_neg (by omega)]
  · intro opened short hdr h
    rcases h with h | h
    · subst h
      exact ⟨rfl, rfl⟩
    · unfold PreloadFile LoadGTC_read
      cases opened
      · exact ⟨rfl, rfl⟩
      · simp only [Bool.not_true, Bool.false_eq_true, if_false, if_pos h, and_self]
  · intro h
    unfold LoadTextures_pages
    rw [collectRequests_fail (preloaded files) [] 0 h]
  · intro hsz h0
    have hcol := collectRequests_ok (preloaded files) [] 0 hsz
    unfold LoadTextures_pages
    rw [hcol, h0]
    rfl
  · intro hsz htot hn h2048
    have hin : ∀ req ∈ preloaded files,
        2048 ≤ req.in_sz ∧ req.in_sz < 18446744073709551616 := by
      intro req hreq
      unfold preloaded at hreq
      obtain ⟨file, hfile, rfl⟩ := List.mem_map.mp hreq
      have h1 := hfiles file hfile
      have h2 := h2048 file hfile
      unfold kHeaderSz at h1 h2
      simp only [Preload, kHeaderSz]
      omega
    have h := LoadTextures_pages_staged (preloaded files) hsz htot (by omega) hin
    rw [hlenp] at h
    exact h

/-- Witness for C21 (amended): sixteen files of 48 + 3000 bytes whose headers
claim 60 payload bytes. -/
theorem containers_not_validated_witness :
    (∀ file ∈ inconsistentBatch, kHeaderSz ≤ file.1 ∧ file.1 < 18446744073709551616) ∧
    (∀ req ∈ preloaded inconsistentBatch, req.sz % 512 = 0) ∧
    0 < total_pbo_size (preloaded inconsistentBatch) ∧
    16 ≤ inconsistentBatch.length ∧
    (∀ file ∈ inconsistentBatch, kHeaderSz + 2048 ≤ file.1) ∧
    ∃ pages, LoadTextures_pages (preloaded inconsistentBatch) = some pages ∧
      pages.length = pageCount inconsistentBatch.length ∧
      ∀ p, p < pageCount inconsistentBatch.length →
        ∃ r, pages[p]? = some (some r) ∧
          pageWorker (pageOf (preloaded inconsistentBatch) p)
            ((input_sizes (preloaded inconsistentBatch)).getD p 0) p = some r ∧
          r.loop.freq_copies.map Prod.snd =
            (pageOf (preloaded inconsistentBatch) p).map (fun _ => 2048) ∧
          r.loop.data_copies.map Prod.snd =
            (pageOf (preloaded inconsistentBatch) p).map (fun req => req.in_sz - 2048) ∧
          tiles r.loop.freq_copies ((input_sizes (preloaded inconsistentBatch)).getD p 0 + 512)
            ((input_sizes (preloaded inconsistentBatch)).getD p 0 + 512 +
              4 * 512 * (pageOf (preloaded inconsistentBatch) p).length) = true ∧
          tiles r.loop.data_copies
            ((input_sizes (preloaded inconsistentBatch)).getD p 0 + 512 +
              4 * 512 * (pageOf (preloaded inconsistentBatch) p).length)
            ((input_sizes (preloaded inconsistentBatch)).getD p 0 + 512 +
              inSzTotal (pageOf (preloaded inconsistentBatch) p)) = true :=
  ⟨by decide, by decide, by decide, by decide, by decide,
    (containers_not_validated inconsistentBatch (by decide)).2.2.2.2 (by decide) (by decide)
      (by decide) (by decide)⟩

/-- C22. Final texture offsets agree with the page layout: in a batch in which
all images have the same dimensions, both multiples of 4, request `i` is
assigned `off_i = sum of sz_j for j < i`; the worker of page `i / 16` returns
with the block count `N` of these dimensions, and `off_i` is the origin of the
page's destination region plus `(i mod 16) * 8 * N`, with `[off_i, off_i +
sz_i)` inside the region. -/
theorem final_offsets_in_page (reqs : List PBORequest) (W H i input_sz : Nat)
    (hW : W % 4 = 0) (hH : H % 4 = 0)
    (hreq : ∀ req ∈ reqs, req.hdr.width = W ∧ req.hdr.height = H ∧ req.sz = u32 (W * H) / 2)
    (hi : i < reqs.length) :
    ∃ req r, (assignOffsets reqs 0)[i]? = some req ∧
      req.off = total_pbo_size (reqs.take i) ∧
      pageWorker (pageOf reqs (i / 16)) input_sz (i / 16) = some r ∧
      r.num_blocks = u32 (W * H) / 16 ∧
      req.off = r.dst_origin + (i % 16) * 8 * r.num_blocks ∧
      r.dst_origin ≤ req.off ∧ req.off + req.sz ≤ r.dst_origin + r.dst_size := by
  obtain ⟨a, ha⟩ : ∃ a, W = 4 * a := ⟨W / 4, by omega⟩
  obtain ⟨b, hb⟩ : ∃ b, H = 4 * b := ⟨H / 4, by omega⟩
  have hprod : W * H = 16 * (a * b) := by
    rw [ha, hb]
    ring
  have hsz : u32 (W * H) / 2 = 8 * (u32 (W * H) / 16) := by
    unfold u32
    rw [hprod]
    omega
  have hget : reqs[i]? = some reqs[i] := List.getElem?_eq_getElem hi
  have hsum : total_pbo_size (reqs.take i) = i * (u32 (W * H) / 2) := by
    rw [total_pbo_size_uniform (reqs.take i) (u32 (W * H) / 2)
      (fun q hq => (hreq q (List.mem_of_mem_take hq)).2.2), List.length_take]
    congr 1
    omega
  have hlen := pageOf_length reqs (i / 16)
  obtain ⟨first, rest, hpage⟩ : ∃ first rest, pageOf reqs (i / 16) = first :: rest := by
    cases hp : pageOf reqs (i / 16) with
    | nil =>
      rw [hp] at hlen
      simp only [List.length_nil] at hlen
      omega
    | cons first rest => exact ⟨first, rest, rfl⟩
  have hfirst : first ∈ reqs := by
    have h1 : first ∈ pageOf reqs (i / 16) := by
      rw [hpage]
      exact List.mem_cons_self _ _
    exact List.mem_of_mem_drop (List.mem_of_mem_take h1)
  obtain ⟨hfw, hfh, _⟩ := hreq first hfirst
  have hN : numBlocks first.hdr = u32 (W * H) / 16 := by
    rw [← numBlocks_eq, hfw, hfh]
  obtain ⟨r, hr, hrN, hro, hrs⟩ : ∃ r, pageWorker (pageOf reqs (i / 16)) input_sz (i / 16) =
      some r ∧ r.num_blocks = numBlocks first.hdr ∧
      r.dst_origin = i / 16 * (16 * numBlocks first.hdr * 8) ∧
      r.dst_size = 16 * numBlocks first.hdr * 8 := by
    rw [hpage]
    exact ⟨_, pageWorker_cons first rest input_sz (i / 16), rfl, rfl, rfl⟩
  have hdm := Nat.div_add_mod i 16
  have hmod : i % 16 + 1 ≤ 16 := by omega
  have hisz := (hreq reqs[i] (List.getElem_mem hi)).2.2
  refine ⟨_, r, assignOffsets_get reqs 0 i reqs[i] hget, ?_, hr, ?_, ?_, ?_, ?_⟩
  · simp only [Nat.zero_add]
  · rw [hrN, hN]
  · simp only [Nat.zero_add, hsum, hsz, hrN, hro, hN]
    generalize u32 (W * H) / 16 = N
    calc i * (8 * N) = (16 * (i / 16) + i % 16) * (8 * N) := by rw [hdm]
      _ = i / 16 * (16 * N * 8) + i % 16 * 8 * N := by ring
  · simp only [Nat.zero_add, hsum, hsz, hro, hN]
    generalize u32 (W * H) / 16 = N
    calc i / 16 * (16 * N * 8) ≤ i / 16 * (16 * N * 8) + i % 16 * 8 * N := Nat.le_add_right _ _
      _ = (16 * (i / 16) + i % 16) * (8 * N) := by ring
      _ = i * (8 * N) := by rw [hdm]
  · simp only [Nat.zero_add, hsum, hisz, hsz, hro, hrs, hN]
    generalize u32 (W * H) / 16 = N
    calc i * (8 * N) + 8 * N = (16 * (i / 16) + i % 16) * (8 * N) + 8 * N := by rw [hdm]
      _ = i / 16 * (16 * N * 8) + (i % 16 + 1) * (8 * N) := by ring
      _ ≤ i / 16 * (16 * N * 8) + 16 * (8 * N) :=
        Nat.add_le_add_left (Nat.mul_le_mul_right _ hmod) _
      _ = i / 16 * (16 * N * 8) + 16 * N * 8 := by ring

/-- Witness for C22: request 16 of seventeen 64 x 64 images, the first of
page 1. -/
theorem final_offsets_in_page_witness :
    64 % 4 = 0 ∧
    (∀ req ∈ uniformBatch,
      req.hdr.width = 64 ∧ req.hdr.height = 64 ∧ req.sz = u32 (64 * 64) / 2) ∧
    16 < uniformBatch.length ∧
    ∃ req r, (assignOffsets uniformBatch 0)[16]? = some req ∧
      req.off = total_pbo_size (uniformBatch.take 16) ∧
      pageWorker (pageOf uniformBatch (16 / 16)) 48512 (16 / 16) = some r ∧
      r.num_blocks = u32 (64 * 64) / 16 ∧
      req.off = r.dst_origin + (16 % 16) * 8 * r.num_blocks ∧
      r.dst_origin ≤ req.off ∧ req.off + req.sz ≤ r.dst_origin + r.dst_size :=
  ⟨by decide, by decide, by decide,
    final_offsets_in_page uniformBatch 64 64 16 48512 (by decide) (by decide) (by decide)
      (by decide)⟩

/-- C23 (as stated) fails: the worker adds the compressed sizes in a `cl_uint`.
For a page of one request with `y_cmp_sz = 2^32` and `in_sz = 2048 + 2^32` the
sum wraps to 0 and `cmp_buf_sz` is 2560, not `512 + in_sz`. -/
theorem device_copy_counterexample :
    hugeRequest.in_sz = 2048 + cmpTotal hugeRequest.hdr ∧
    (pageWorker [hugeRequest] 0 0).map (fun r => r.cmp_buf_sz) = some 2560 ∧
    512 + inSzTotal [hugeRequest] = 4294969856 := by
  refine ⟨by decide, by decide, by decide⟩

/-- C23 (amended). Device copy size matches what was staged: for every page `p`
of the sizing loop whose requests satisfy `in_sz = 2048 + y_cmp_sz +
chroma_cmp_sz + palette_sz + indices_sz` and have compressed sizes that total
less than 2^32, the worker returns with `cmp_buf_sz = 512 + sum of in_sz`;
the copy from `input_sizes[p]` ends where the worker's last payload copy ends,
which is where the next page begins, or `input_mem_sz` for the last page. -/
theorem device_copy_size (reqs : List PBORequest) (p : Nat)
    (hin : ∀ req ∈ pageOf reqs p, req.in_sz = 2048 + cmpTotal req.hdr)
    (htot : pageCmpTotal (pageOf reqs p) < 4294967296)
    (hp : p < (input_sizes reqs).length) :
    ∃ r, pageWorker (pageOf reqs p) ((input_sizes reqs).getD p 0) p = some r ∧
      r.num_hdrs ≤ 16 ∧
      r.cmp_buf_sz = 512 + inSzTotal (pageOf reqs p) ∧
      tiles r.loop.freq_copies ((input_sizes reqs).getD p 0 + 512)
        ((input_sizes reqs).getD p 0 + 512 + 4 * 512 * r.num_hdrs) = true ∧
      tiles r.loop.data_copies ((input_sizes reqs).getD p 0 + 512 + 4 * 512 * r.num_hdrs)
        ((input_sizes reqs).getD p 0 + r.cmp_buf_sz) = true ∧
      (input_sizes reqs).getD p 0 + r.cmp_buf_sz =
        (input_sizes reqs).getD (p + 1) (input_mem_sz reqs) := by
  rw [input_sizes_eq, sizesOf_length] at hp
  rw [input_sizes_eq, input_mem_sz_eq]
  have hpn : 16 * p < reqs.length := by
    unfold pageCount at hp
    omega
  have hlen := pageOf_length reqs p
  have hsum : ∀ page : List PBORequest,
      (∀ req ∈ page, req.in_sz = 2048 + cmpTotal req.hdr) →
      inSzTotal page = 2048 * page.length + pageCmpTotal page := by
    intro page
    induction page with
    | nil => intro _; simp [inSzTotal, pageCmpTotal]
    | cons q rest ih =>
      intro h
      rw [inSzTotal_cons, pageCmpTotal_cons, List.length_cons,
        ih (fun x hx => h x (List.mem_cons_of_mem _ hx)), h q (List.mem_cons_self _ _)]
      omega
  have hle : ∀ (page : List PBORequest) (req : PBORequest), req ∈ page →
      cmpTotal req.hdr ≤ pageCmpTotal page := by
    intro page
    induction page with
    | nil => intro req h; simp at h
    | cons q rest ih =>
      intro req h
      rw [pageCmpTotal_cons]
      rcases List.mem_cons.mp h with h | h
      · rw [h]
        omega
      · have := ih req h
        omega
  have hinp : ∀ req ∈ pageOf reqs p, 2048 ≤ req.in_sz ∧ req.in_sz < 18446744073709551616 := by
    intro req hreq
    have h1 := hin req hreq
    have h2 := hle (pageOf reqs p) req hreq
    omega
  have hnext : (sizesOf reqs).getD p 0 + 512 + inSzTotal (pageOf reqs p) =
      (sizesOf reqs).getD (p + 1) (memOf reqs) := by
    have hlo := getD_of_some _ _ 0 _ (sizesOf_get reqs p hp)
    have hadd : inSzTotal (reqs.take (16 * (p + 1))) =
        inSzTotal (reqs.take (16 * p)) + inSzTotal (pageOf reqs p) := by
      have e : 16 * (p + 1) = 16 * p + 16 := by omega
      rw [e, inSzTotal_take_add]
      rfl
    unfold kPageSize at hlo
    by_cases hq : p + 1 < pageCount reqs.length
    · rw [getD_of_some _ _ _ _ (sizesOf_get reqs (p + 1) hq), hlo]
      unfold kPageSize
      omega
    · have hnone : (sizesOf reqs)[p + 1]? = none :=
        List.getElem?_eq_none (by rw [sizesOf_length]; omega)
      rw [getD_of_none _ _ _ hnone, hlo]
      unfold memOf
      have hall : reqs.take (16 * (p + 1)) = reqs :=
        List.take_of_length_le (by unfold pageCount at hq hp; omega)
      rw [hall] at hadd
      have hpc : pageCount reqs.length = p + 1 := by omega
      rw [hpc]
      omega
  obtain ⟨first, rest, hpage⟩ : ∃ first rest, pageOf reqs p = first :: rest := by
    cases hpg : pageOf reqs p with
    | nil =>
      rw [hpg] at hlen
      simp only [List.length_nil] at hlen
      omega
    | cons first rest => exact ⟨first, rest, rfl⟩
  rw [hpage] at hin htot hinp hlen hnext ⊢
  obtain ⟨h1, h2⟩ := foldl_pageStep_input (numBlocks first.hdr) (first :: rest)
    ⟨(sizesOf reqs).getD p 0 + 4 * (((((first :: rest).length * 4 * 2) + 127) / 128) * 128),
      (sizesOf reqs).getD p 0 + 4 * (((((first :: rest).length * 4 * 2) + 127) / 128) * 128) +
        4 * 512 * (first :: rest).length, 0, 0, [], [], [], []⟩
    (by simpa using htot)
  obtain ⟨r, hr, _, _, _, g4, g5, _⟩ :=
    pageWorker_staging (first :: rest) ((sizesOf reqs).getD p 0) p (List.cons_ne_nil _ _)
      (by omega) hinp
  have hr2 := pageWorker_cons first rest ((sizesOf reqs).getD p 0) p
  rw [hr, Option.some.injEq] at hr2
  have hK : 1 ≤ (first :: rest).length := by simp
  have hcmp : r.cmp_buf_sz = 512 + inSzTotal (first :: rest) := by
    rw [hr2]
    simp only [Nat.zero_add] at h2
    simp only [h2, hsum (first :: rest) hin]
    omega
  have hnum : r.num_hdrs = (first :: rest).length := by rw [hr2]
  refine ⟨r, hr, by omega, hcmp, ?_, ?_, ?_⟩
  · rw [hnum]
    exact g4
  · rw [hnum, hcmp, ← Nat.add_assoc]
    exact g5
  · rw [hcmp, ← Nat.add_assoc]
    exact hnext

/-- Witness for C23 (amended): page 1 of a batch of seventeen requests whose
headers account for all of their 2148 input bytes. -/
theorem device_copy_size_witness :
    (∀ req ∈ pageOf (List.replicate 17 (Preload hdr64 2148)) 1,
      req.in_sz = 2048 + cmpTotal req.hdr) ∧
    pageCmpTotal (pageOf (List.replicate 17 (Preload hdr64 2148)) 1) < 4294967296 ∧
    1 < (input_sizes (List.replicate 17 (Preload hdr64 2148))).length ∧
    ∃ r, pageWorker (pageOf (List.replicate 17 (Preload hdr64 2148)) 1)
        ((input_sizes (List.replicate 17 (Preload hdr64 2148))).getD 1 0) 1 = some r ∧
      r.num_hdrs ≤ 16 ∧
      r.cmp_buf_sz = 512 + inSzTotal (pageOf (List.replicate 17 (Preload hdr64 2148)) 1) ∧
      tiles r.loop.freq_copies
        ((input_sizes (List.replicate 17 (Preload hdr64 2148))).getD 1 0 + 512)
        ((input_sizes (List.replicate 17 (Preload hdr64 2148))).getD 1 0 + 512 +
          4 * 512 * r.num_hdrs) = true ∧
      tiles r.loop.data_copies
        ((input_sizes (List.replicate 17 (Preload hdr64 2148))).getD 1 0 + 512 +
          4 * 512 * r.num_hdrs)
        ((input_sizes (List.replicate 17 (Preload hdr64 2148))).getD 1 0 + r.cmp_buf_sz) =
          true ∧
      (input_sizes (List.replicate 17 (Preload hdr64 2148))).getD 1 0 + r.cmp_buf_sz =
        (input_sizes (List.replicate 17 (Preload hdr64 2148))).getD (1 + 1)
          (input_mem_sz (List.replicate 17 (Preload hdr64 2148))) :=
  ⟨by decide, by decide, by decide,
    device_copy_size (List.replicate 17 (Preload hdr64 2148)) 1 (by decide) (by decide)
      (by decide)⟩

/-- C24 (as stated) fails: a header of 4 x 4 pixels has both dimensions
multiples of 4, but its destination size is 8 bytes, not a multiple of 512. -/
theorem size_assertion_counterexample :
    4 % 4 = 0 ∧ (Preload ⟨4, 4, 0, 0, 0, 0, 0⟩ 2048).sz = 8 ∧ 8 % 512 ≠ 0 := by
  refine ⟨by decide, by decide, by decide⟩

/-- C24 (amended). Pixel-buffer size assertion: for every header whose width
and height are multiples of 4, the destination size `sz = (W * H) / 2` is a
multiple of 8, and it satisfies the scheduler's assertion `sz mod 512 = 0`
exactly when the pixel count `W * H` is a multiple of 1024 (as it is when both
dimensions are multiples of 32). -/
theorem size_assertion (hdr : GenTCHeader) (mem_sz : Nat)
    (hw : hdr.width % 4 = 0) (hh : hdr.height % 4 = 0) :
    (Preload hdr mem_sz).sz % 8 = 0 ∧
    ((Preload hdr mem_sz).sz % 512 = 0 ↔ hdr.width * hdr.height % 1024 = 0) ∧
    (hdr.width % 32 = 0 → hdr.height % 32 = 0 → (Preload hdr mem_sz).sz % 512 = 0) := by
  obtain ⟨a, ha⟩ : ∃ a, hdr.width = 4 * a := ⟨hdr.width / 4, by omega⟩
  obtain ⟨b, hb⟩ : ∃ b, hdr.height = 4 * b := ⟨hdr.height / 4, by omega⟩
  have hprod : hdr.width * hdr.height = 16 * (a * b) := by
    rw [ha, hb]
    ring
  have hsz : (Preload hdr mem_sz).sz = u32 (hdr.width * hdr.height) / 2 := rfl
  rw [hsz, hprod]
  unfold u32
  refine ⟨by omega, by omega, ?_⟩
  intro h32w h32h
  obtain ⟨c, hc⟩ : ∃ c, hdr.width = 32 * c := ⟨hdr.width / 32, by omega⟩
  obtain ⟨d, hd⟩ : ∃ d, hdr.height = 32 * d := ⟨hdr.height / 32, by omega⟩
  have hprod2 : 16 * (a * b) = 1024 * (c * d) := by
    rw [← hprod, hc, hd]
    ring
  rw [hprod2]
  omega

/-- Witness for C24 (amended): an image of 64 x 64 pixels. -/
theorem size_assertion_witness :
    hdr64.width % 4 = 0 ∧ hdr64.height % 4 = 0 ∧
    hdr64.width % 32 = 0 ∧ hdr64.height % 32 = 0 ∧
    (Preload hdr64 3000).sz % 8 = 0 ∧ (Preload hdr64 3000).sz % 512 = 0 :=
  ⟨by decide, by decide, by decide, by decide,
    (size_assertion hdr64 3000 (by decide) (by decide)).1,
    (size_assertion hdr64 3000 (by decide) (by decide)).2.2 (by decide) (by decide)⟩

/-! ## The claims on the command line, the sub-window grid and the work queue -/

/-- C26 (code defect): for every argument vector with `argc > 1` in which every
argument after the program name is `-p` or `-s`, the option loop of `main`
advances `next_arg` to `argc` and passes `argv[argc]`, a null pointer, to
`strncmp`: the loop has no test on `next_arg`, and the test `argc <= 1` before
it only covers the call without arguments. -/
theorem options_overrun (argv : List String) (h1 : 1 < argv.length)
    (hlen : argv.length < 4294967296)
    (hall : ∀ arg ∈ argv.tail, arg = "-p" ∨ arg = "-s") :
    mainOptions argv = OptionsResult.nullArgument argv.length := by
  unfold mainOptions
  rw [if_neg (by omega)]
  apply optionLoop_all_options argv hlen (argv.length + 1) 1 false true (by omega) (by omega)
  intro i hi hi2
  cases argv with
  | nil => simp at h1
  | cons prog rest =>
    obtain ⟨j, rfl⟩ : ∃ j, i = j + 1 := ⟨i - 1, by omega⟩
    have hj : j < rest.length := by
      rw [List.length_cons] at hi2
      omega
    have hmem : rest[j] ∈ rest := List.getElem_mem hj
    rw [List.getElem?_cons_succ, List.getElem?_eq_getElem hj]
    rcases hall rest[j] (by simp) with h | h
    · left
      rw [h]
    · right
      rw [h]

/-- Witness for C26: the call `photos_sf -p`. -/
theorem options_overrun_witness :
    1 < ["photos_sf", "-p"].length ∧ ["photos_sf", "-p"].length < 4294967296 ∧
    (∀ arg ∈ ["photos_sf", "-p"].tail, arg = "-p" ∨ arg = "-s") ∧
    mainOptions ["photos_sf", "-p"] = OptionsResult.nullArgument 2 :=
  ⟨by decide, by decide, by decide,
    options_overrun ["photos_sf", "-p"] (by decide) (by decide) (by decide)⟩

/-- C27. `GetNumSubWindows2D` returns for every count and aspect (a `size_t`
count, 0 included), with `nx * ny = count` and `nx` a power of two. -/
theorem sub_windows_grid (count aspect : Nat) (hc : count < 18446744073709551616) :
    ∃ nx ny k, GetNumSubWindows2D count aspect = some (nx, ny) ∧
      nx * ny = count ∧ nx = 2 ^ k := by
  unfold GetNumSubWindows2D
  exact subWindowsLoop_spec count aspect hc count 1 count 0 (Nat.le_refl _) rfl (Nat.one_mul _)

/-- Witness for C27: 48 windows at aspect 1 give a grid of 8 x 6; no window
gives 1 x 0. -/
theorem sub_windows_grid_witness :
    (48 : Nat) < 18446744073709551616 ∧
    GetNumSubWindows2D 48 1 = some (8, 6) ∧ GetNumSubWindows2D 0 1 = some (1, 0) ∧
    ∃ nx ny k, GetNumSubWindows2D 48 1 = some (nx, ny) ∧ nx * ny = 48 ∧ nx = 2 ^ k :=
  ⟨by decide, by decide, by decide, sub_windows_grid 48 1 (by decide)⟩

/-- C28. Crop windows tile the grid: for a `size_t` count `≥ 1`, an aspect that
is not below 1 (of integer part `a`) and `num < count`, `GetCropWindow` returns
a grid `nx x ny` with `nx ≥ 1`, `nx * ny = count` and the cell `(num mod nx, num
div nx)` inside it, so nothing is divided by zero; the grid does not depend on
`num`, and two values of `num` below `count` with the same cell are equal. -/
theorem crop_windows_tile (num count a : Nat) (hc1 : 1 ≤ count)
    (hc : count < 18446744073709551616) (hnum : num < count) :
    ∃ c, GetCropWindow num count false a = some c ∧
      1 ≤ c.nx ∧ c.nx * c.ny = count ∧
      c.xo = num % c.nx ∧ c.yo = num / c.nx ∧ c.xo < c.nx ∧ c.yo < c.ny ∧
      ∀ num2, num2 < count →
        ∃ c2, GetCropWindow num2 count false a = some c2 ∧ c2.nx = c.nx ∧ c2.ny = c.ny ∧
          (c2.xo = c.xo ∧ c2.yo = c.yo → num2 = num) := by
  obtain ⟨first, second, k, hgrid, hprod, _⟩ :
      ∃ nx ny k, GetNumSubWindows2D count a = some (nx, ny) ∧ nx * ny = count ∧ nx = 2 ^ k :=
    subWindowsLoop_spec count a hc count 1 count 0 (Nat.le_refl _) rfl (Nat.one_mul _)
  have hpos : 0 < second := by
    rcases Nat.eq_zero_or_pos second with h | h
    · rw [h, Nat.mul_zero] at hprod
      omega
    · exact h
  have hcell : ∀ n, GetCropWindow n count false a =
      some ⟨second, first, n % second, n / second⟩ := by
    intro n
    unfold GetCropWindow
    rw [hgrid]
    simp only [Bool.false_eq_true, if_false]
    rw [if_neg (by omega)]
  refine ⟨_, hcell num, hpos, by rw [Nat.mul_comm]; exact hprod, rfl, rfl,
    Nat.mod_lt _ hpos, ?_, ?_⟩
  · exact (Nat.div_lt_iff_lt_mul hpos).mpr (by rw [hprod]; exact hnum)
  · intro num2 _
    refine ⟨_, hcell num2, rfl, rfl, ?_⟩
    intro h
    obtain ⟨hx, hy⟩ := h
    simp only at hx hy
    rw [← Nat.div_add_mod num2 second, ← Nat.div_add_mod num second, hx, hy]

/-- Witness for C28: window 5 of 48 at aspect 1. -/
theorem crop_windows_tile_witness :
    (1 : Nat) ≤ 48 ∧ (48 : Nat) < 18446744073709551616 ∧ (5 : Nat) < 48 ∧
    GetCropWindow 5 48 false 1 = some ⟨6, 8, 5, 0⟩ ∧
    ∃ c, GetCropWindow 5 48 false 1 = some c ∧
      1 ≤ c.nx ∧ c.nx * c.ny = 48 ∧
      c.xo = 5 % c.nx ∧ c.yo = 5 / c.nx ∧ c.xo < c.nx ∧ c.yo < c.ny ∧
      ∀ num2, num2 < 48 →
        ∃ c2, GetCropWindow num2 48 false 1 = some c2 ∧ c2.nx = c.nx ∧ c2.ny = c.ny ∧
          (c2.xo = c.xo ∧ c2.yo = c.yo → num2 = 5) :=
  ⟨by decide, by decide, by decide, by decide,
    crop_windows_tile 5 48 1 (by decide) (by decide) (by decide)⟩

/-- C29. `AsyncTexRequest` is a FIFO work queue: after `QueueWork(f1), ...,
QueueWork(fk)` on an empty request the queue holds `f1, ..., fk`; `k`
successive calls of `Run` return true and deliver `f1, ..., fk` in this order
and leave the queue empty; every call on a non-empty queue returns true,
delivers the front and removes exactly this entry; `Run` on an empty queue
returns false and leaves the queue and the output argument unchanged. -/
theorem work_queue_fifo {F : Type} (fs : List F) (ret : F) :
    (queueAll (⟨[]⟩ : AsyncTexRequest F) fs).fns = fs ∧
    runCalls fs.length (queueAll (⟨[]⟩ : AsyncTexRequest F) fs) ret =
      (fs.map (fun f => (true, f)), ⟨[]⟩, fs.getLastD ret) ∧
    (∀ (front : F) (rest : List F),
      (⟨front :: rest⟩ : AsyncTexRequest F).Run ret = (true, front, ⟨rest⟩)) ∧
    (⟨[]⟩ : AsyncTexRequest F).Run ret = (false, ret, ⟨[]⟩) := by
  have hq : queueAll (⟨[]⟩ : AsyncTexRequest F) fs = ⟨fs⟩ := by
    have h := queueAll_fns fs (⟨[]⟩ : AsyncTexRequest F)
    simp only [List.nil_append] at h
    cases hreq : queueAll (⟨[]⟩ : AsyncTexRequest F) fs with
    | mk fns =>
      rw [hreq] at h
      simp only at h
      rw [h]
  rw [hq]
  exact ⟨rfl, runCalls_list fs ret, fun _ _ => rfl, rfl⟩

end demo

namespace ans

/-! ## Facts about the symbol generator -/

theorem accumulateInt_eq (freqs : List Int) :
    ∀ acc : Int, (∀ f ∈ freqs, 0 ≤ f) → 0 ≤ acc → acc + freqs.sum < 2147483648 →
      accumulateInt freqs acc = some (acc + freqs.sum) := by
  induction freqs with
  | nil => intro acc _ _ _; simp [accumulateInt]
  | cons f rest ih =>
    intro acc hnn hacc hsum
    have hf : 0 ≤ f := hnn f (List.mem_cons_self _ _)
    have hrest : ∀ g ∈ rest, 0 ≤ g := fun g hg => hnn g (List.mem_cons_of_mem _ hg)
    have hrs : 0 ≤ rest.sum := List.sum_nonneg hrest
    rw [List.sum_cons] at hsum
    rw [accumulateInt, if_pos (by omega), ih (acc + f) hrest (by omega) (by omega),
      List.sum_cons]
    congr 1
    omega

theorem prefixSum_zero (freqs : List Int) : prefixSum freqs 0 = 0 := by
  simp [prefixSum]

theorem prefixSum_cons (f : Int) (rest : List Int) (j : Nat) :
    prefixSum (f :: rest) (j + 1) = f + prefixSum rest j := by
  simp [prefixSum]

theorem prefixSum_succ (freqs : List Int) :
    ∀ k, k < freqs.length → prefixSum freqs (k + 1) = prefixSum freqs k + freqs.getD k 0 := by
  induction freqs with
  | nil => intro k h; simp at h
  | cons f rest ih =>
    intro k hk
    cases k with
    | zero => simp [prefixSum]
    | succ k =>
      have hk2 : k < rest.length := by simpa using hk
      rw [prefixSum_cons, prefixSum_cons, ih k hk2, List.getD_cons_succ]
      omega

theorem prefixSum_mono (freqs : List Int) (hnn : ∀ f ∈ freqs, 0 ≤ f) :
    ∀ a b, a ≤ b → prefixSum freqs a ≤ prefixSum freqs b := by
  intro a b hab
  obtain ⟨c, rfl⟩ : ∃ c, b = a + c := ⟨b - a, by omega⟩
  unfold prefixSum
  rw [List.take_add, List.sum_append]
  have : 0 ≤ ((freqs.drop a).take c).sum :=
    List.sum_nonneg (fun g hg => hnn g (List.mem_of_mem_drop (List.mem_of_mem_take hg)))
  omega

theorem prefixSum_length (freqs : List Int) : prefixSum freqs freqs.length = freqs.sum := by
  simp [prefixSum]

theorem selectSymbol_spec (rest : List Int) :
    ∀ (r : Int) (symbol : Nat) (freq : Int), (∀ f ∈ rest, 0 ≤ f) → 0 ≤ freq → freq ≤ r →
      r < freq + rest.sum → freq + rest.sum < 2147483648 →
      ∃ j, selectSymbol rest r symbol freq = some (symbol + j) ∧ j < rest.length ∧
        freq + prefixSum rest j ≤ r ∧ r < freq + prefixSum rest (j + 1) := by
  induction rest with
  | nil =>
    intro r symbol freq _ _ hle hlt _
    simp only [List.sum_nil] at hlt
    omega
  | cons f rest ih =>
    intro r symbol freq hnn hfreq hle hlt hmax
    have hf : 0 ≤ f := hnn f (List.mem_cons_self _ _)
    have hrest : ∀ g ∈ rest, 0 ≤ g := fun g hg => hnn g (List.mem_cons_of_mem _ hg)
    have hrs : 0 ≤ rest.sum := List.sum_nonneg hrest
    rw [List.sum_cons] at hlt hmax
    rw [selectSymbol, if_pos (by omega)]
    by_cases hr : r < freq + f
    · rw [if_pos hr]
      refine ⟨0, rfl, by simp, ?_, ?_⟩
      · rw [prefixSum_zero]
        omega
      · rw [prefixSum_cons, prefixSum_zero]
        omega
    · rw [if_neg hr]
      obtain ⟨j, h1, h2, h3, h4⟩ := ih r (symbol + 1) (freq + f) hrest (by omega) (by omega)
        (by omega) (by omega)
      refine ⟨j + 1, ?_, by simp only [List.length_cons]; omega, ?_, ?_⟩
      · rw [h1]
        congr 1
        omega
      · rw [prefixSum_cons]
        omega
      · rw [prefixSum_cons]
        omega

theorem generateLoop_spec (freqs : List Int) (rand : Nat → Nat)
    (hlen : freqs.length < 256) (hnn : ∀ f ∈ freqs, 0 ≤ f) (hpos : 0 < freqs.sum)
    (hT : freqs.sum < 2147483648) :
    ∀ (remaining i : Nat) (symbols : List Nat), i + remaining ≤ 2147483647 →
      ∃ out, generateLoop freqs rand remaining i symbols = some (symbols ++ out) ∧
        out.length = remaining ∧
        ∀ t, t < remaining →
          selectSymbol freqs ((rand (i + t) % freqs.sum.toNat : Nat) : Int) 0 0 =
            some (out.getD t 0) := by
  have hacc : accumulateInt freqs 0 = some freqs.sum := by
    have h := accumulateInt_eq freqs 0 hnn (Int.le_refl _) (by omega)
    rw [h]
    congr 1
    omega
  have hM : (freqs.sum % 4294967296).toNat = freqs.sum.toNat := by
    congr 1
    omega
  have hMpos : freqs.sum.toNat ≠ 0 := by omega
  intro remaining
  induction remaining with
  | zero =>
    intro i symbols _
    exact ⟨[], by simp [generateLoop], rfl, fun t ht => absurd ht (Nat.not_lt_zero _)⟩
  | succ remaining ih =>
    intro i symbols hi
    have hr0 : (0 : Int) ≤ ((rand i % freqs.sum.toNat : Nat) : Int) := Int.ofNat_nonneg _
    have hr1 : ((rand i % freqs.sum.toNat : Nat) : Int) < freqs.sum := by
      have := Nat.mod_lt (rand i) (Nat.pos_of_ne_zero hMpos)
      omega
    obtain ⟨k, hk1, hk2, _, _⟩ := selectSymbol_spec freqs _ 0 0 hnn (Int.le_refl _) hr0
      (by omega) (by omega)
    rw [Nat.zero_add] at hk1
    obtain ⟨out, ho1, ho2, ho3⟩ := ih (i + 1) (symbols ++ [k % 256]) (by omega)
    refine ⟨k :: out, ?_, by simp [ho2], ?_⟩
    · rw [generateLoop, hacc]
      simp only [hM, hMpos, if_false, hk1, if_pos hk2]
      rw [if_neg (by omega), ho1, Nat.mod_eq_of_lt (by omega)]
      simp
    · intro t ht
      cases t with
      | zero => simpa using hk1
      | succ t =>
        have := ho3 t (by omega)
        rw [List.getD_cons_succ]
        have e : i + 1 + t = i + (t + 1) := by omega
        rw [e] at this
        exact this

theorem generateLoop_overflow (freqs : List Int) (rand : Nat → Nat) :
    ∀ (remaining i : Nat) (symbols : List Nat), i ≤ 2147483647 → 2147483647 < i + remaining →
      generateLoop freqs rand remaining i symbols = none := by
  intro remaining
  induction remaining with
  | zero => intro i symbols h1 h2; omega
  | succ remaining ih =>
    intro i symbols h1 h2
    rw [generateLoop]
    by_cases hi : 2147483647 ≤ i
    · simp only [if_pos hi, ite_self]
      split
      · rfl
      · split
        · rfl
        · split <;> rfl
    · have hrec : ∀ s, generateLoop freqs rand remaining (i + 1) s = none :=
        fun s => ih (i + 1) s (by omega) (by omega)
      simp only [hrec, ite_self]
      split
      · rfl
      · split
        · rfl
        · split <;> rfl

/-! ## Facts about the loops of one Encode and one Decode call -/

theorem encodeRenorm_once (f x fuel : Nat) (w : BitWriter) (hf : 1 ≤ f) (hx2 : x < 65536 * 2048)
    (hfuel : 1 ≤ fuel) :
    encodeRenorm (kWordBase * f) fuel x w =
      if kWordBase * f ≤ x then (x >>> kWordBits, w.WriteBits (x % kWordBase) kWordBits)
      else (x, w) := by
  obtain ⟨n, rfl⟩ : ∃ n, fuel = n + 1 := ⟨fuel - 1, by omega⟩
  have hsh : x >>> 16 = x / 65536 := Nat.shiftRight_eq_div_pow x 16
  have hlt : x / 65536 < 2048 := Nat.div_lt_of_lt_mul (by omega)
  have hstop : ¬ 65536 * f ≤ x / 65536 := by omega
  rw [encodeRenorm]
  simp only [kWordBase, kWordBits, hsh]
  by_cases h : 65536 * f ≤ x
  · rw [if_pos h, if_pos h]
    cases n with
    | zero => rfl
    | succ n =>
      rw [encodeRenorm]
      simp only [kWordBase, hstop, if_false]
  · rw [if_neg h, if_neg h]

theorem ReadBits_lt (r r1 : BitReader) (n bits : Nat) (h : r.ReadBits n = some (bits, r1)) :
    bits < 2 ^ n := by
  unfold BitReader.ReadBits at h
  split at h
  · exact Option.noConfusion h
  · simp only [Option.some.injEq, Prod.mk.injEq] at h
    rw [← h.1]
    exact Nat.mod_lt _ (Nat.two_pow_pos n)

theorem ReadBits_drained (buffer n : Nat) (hn : 0 < n) :
    (BitReader.mk [] buffer 0).ReadBits n = none := by
  unfold BitReader.ReadBits
  simp only [BitReader.refill]
  rw [if_neg (by omega)]

theorem decodeRenorm_once (x : Nat) (r : BitReader) (hx1 : 1 ≤ x) (hx2 : x < 2048) :
    decodeRenorm (r.nbits + 8 * r.data.length) x r =
      match r.ReadBits kWordBits with
      | none => none
      | some (bits, r1) => some ((x <<< kWordBits) ||| bits, r1) := by
  cases hfuel : r.nbits + 8 * r.data.length with
  | zero =>
    have h1 : r.nbits = 0 := by omega
    have h2 : r.data = [] := List.eq_nil_of_length_eq_zero (by omega)
    have hr : r = ⟨[], r.buffer, 0⟩ := by
      cases r with
      | mk data buffer nbits =>
        simp only at h1 h2
        rw [h1, h2]
    rw [hr, ReadBits_drained _ _ (by decide), decodeRenorm]
    simp only [kANSTableSize, hx2, if_true]
  | succ n =>
    rw [decodeRenorm]
    simp only [kANSTableSize, hx2, if_true]
    cases hread : r.ReadBits kWordBits with
    | none => rfl
    | some p =>
      obtain ⟨bits, r1⟩ := p
      have hb : bits < 2 ^ 16 := ReadBits_lt r r1 16 bits hread
      have hor := shiftLeft_or_eq x bits 16 hb
      simp only [kWordBits] at hor ⊢
      rw [decodeRenorm_done n _ r1 (by rw [hor]; omega)]

/-! ## The claims on the coder's loops and the symbol generator -/

/-- C25. At most one word per symbol: for a normalized table (at most 256
symbols, sum M), every encoder
state `x` in `[M, b * M)` and every symbol of frequency at least 1, the
renormalisation loop of Encode is its first iteration alone (one word is written
if `b * F'[s] ≤ x`, none otherwise), so an Encode call on a writer with an empty
buffer succeeds and adds 0 or 2 bytes; and for every decoder state `X` in `[M,
b * M)` a Decode call reads no word if the state after the table step is at
least `M`, and exactly one 16-bit word otherwise. -/
theorem one_word_per_symbol (F' : List Nat) (s x X : Nat) (bs : List Nat)
    (hlen : F'.length ≤ 256) (hsum : F'.sum = kANSTableSize) (hf : 1 ≤ F'.getD s 0)
    (hx1 : kANSTableSize ≤ x) (hx2 : x < kWordBase * kANSTableSize)
    (hX1 : kANSTableSize ≤ X) (hX2 : X < kWordBase * kANSTableSize) :
    (∀ w : BitWriter, encodeRenorm (kWordBase * F'.getD s 0) x x w =
      if kWordBase * F'.getD s 0 ≤ x then
        (x >>> kWordBits, w.WriteBits (x % kWordBase) kWordBits)
      else (x, w)) ∧
    (∃ e w1, OpenCLEncoder.Encode ⟨F', x⟩ s ⟨bs, 0, 0⟩ = some (e, w1) ∧
      (w1.BytesWritten = bs.length ∨ w1.BytesWritten = bs.length + 2)) ∧
    (∃ t, OpenCLCPUDecoder.ofNormalized X F' = some ⟨t, X⟩ ∧
      ∀ r : BitReader, ∃ sym x1, 1 ≤ x1 ∧
        OpenCLCPUDecoder.Decode ⟨t, X⟩ r =
          if kANSTableSize ≤ x1 then some (sym, ⟨t, x1⟩, r)
          else
            match r.ReadBits kWordBits with
            | none => none
            | some (bits, r1) => some (sym, ⟨t, (x1 <<< kWordBits) ||| bits⟩, r1)) := by
  simp only [kANSTableSize, kWordBase] at hx1 hx2 hX1 hX2
  obtain ⟨t, hb, _, ht⟩ := BuildTables_spec F' hlen hsum
  have hloop : ∀ w : BitWriter, encodeRenorm (kWordBase * F'.getD s 0) x x w =
      if kWordBase * F'.getD s 0 ≤ x then
        (x >>> kWordBits, w.WriteBits (x % kWordBase) kWordBits)
      else (x, w) :=
    fun w => encodeRenorm_once (F'.getD s 0) x x w hf hx2 (by omega)
  refine ⟨hloop, ?_, ?_⟩
  · obtain ⟨w1, hw1⟩ := Encode_state F' s x ⟨bs, 0, 0⟩ hsum hf hx1 hx2
    have hw2 : w1 = (encodeRenorm (kWordBase * F'.getD s 0) x x ⟨bs, 0, 0⟩).2 := by
      have hf0 : ¬ F'.getD s 0 = 0 := by omega
      unfold OpenCLEncoder.Encode at hw1
      simp only [hf0, if_false] at hw1
      split at hw1
      · exact Option.noConfusion hw1
      · simp only [Option.some.injEq, Prod.mk.injEq] at hw1
        exact hw1.2.symm
    refine ⟨_, w1, hw1, ?_⟩
    rw [hw2, hloop]
    by_cases h : kWordBase * F'.getD s 0 ≤ x
    · right
      rw [if_pos h]
      simp only [kWordBase, kWordBits]
      rw [WriteBits_word bs (x % 65536) (Nat.mod_lt _ (by omega))]
      simp [BitWriter.BytesWritten]
    · left
      rw [if_neg h]
      rfl
  · refine ⟨t, by simp [OpenCLCPUDecoder.ofNormalized, hb], ?_⟩
    intro r
    have hslot : X % 2048 < F'.sum := by
      rw [hsum]
      exact Nat.mod_lt _ (by decide)
    obtain ⟨_, hc1, hc2⟩ := findSlot_spec F' (X % 2048) hslot
    obtain ⟨t1, t2, t3⟩ := ht (X % 2048) (Nat.mod_lt _ (by simp [kANSTableSize]))
    have hfs : F'.getD (findSlot F' (X % 2048)) 0 ≠ 0 := by omega
    have hq : 1 ≤ X / 2048 := (Nat.le_div_iff_mul_le (by decide)).mpr (by omega)
    have hmul : F'.getD (findSlot F' (X % 2048)) 0 ≤
        F'.getD (findSlot F' (X % 2048)) 0 * (X / 2048) := Nat.le_mul_of_pos_right _ hq
    have hx1' : 1 ≤ F'.getD (findSlot F' (X % 2048)) 0 * (X / 2048) + X % 2048 -
        cumulative F' (findSlot F' (X % 2048)) := by omega
    refine ⟨findSlot F' (X % 2048), _, hx1', ?_⟩
    simp only [OpenCLCPUDecoder.Decode, kANSTableSize, kANSTableBits, Nat.shiftRight_eq_div_pow,
      Nat.reducePow, t1, t2, t3, hfs, if_false]
    by_cases hdone : 2048 ≤ F'.getD (findSlot F' (X % 2048)) 0 * (X / 2048) + X % 2048 -
        cumulative F' (findSlot F' (X % 2048))
    · rw [if_pos hdone, decodeRenorm_done _ _ _ hdone]
    · rw [if_neg hdone, decodeRenorm_once _ r hx1' (by omega)]
      cases r.ReadBits kWordBits with
      | none => rfl
      | some p => rfl

/-- Witness for C25: the normalized form of the test table
`{12, 14, 17, 1, 1, 2, 372}`, symbol 3 and the states 70000 and 2048. -/
theorem one_word_per_symbol_witness :
    ([59, 68, 83, 5, 5, 10, 1818] : List Nat).length ≤ 256 ∧
    ([59, 68, 83, 5, 5, 10, 1818] : List Nat).sum = kANSTableSize ∧
    1 ≤ ([59, 68, 83, 5, 5, 10, 1818] : List Nat).getD 3 0 ∧
    kANSTableSize ≤ 70000 ∧ 70000 < kWordBase * kANSTableSize ∧
    kANSTableSize ≤ 2048 ∧ 2048 < kWordBase * kANSTableSize ∧
    ∃ e w1, OpenCLEncoder.Encode ⟨[59, 68, 83, 5, 5, 10, 1818], 70000⟩ 3 ⟨[], 0, 0⟩ =
        some (e, w1) ∧
      (w1.BytesWritten = ([] : List Nat).length ∨
        w1.BytesWritten = ([] : List Nat).length + 2) :=
  ⟨by decide, by decide, by decide, by decide, by decide, by decide, by decide,
    (one_word_per_symbol [59, 68, 83, 5, 5, 10, 1818] 3 70000 2048 [] (by decide) (by decide)
      (by decide) (by decide) (by decide) (by decide) (by decide)).2.1⟩

/-- C30 (as stated) fails: `GenerateSymbols` asserts `freqs.size() < 256` and
computes its sums in `int`.  For 256 frequencies of 1 the assertion does not
hold; for the two frequencies `2^31 - 1` and the draw `r = 2^31 - 1` the sum
`freq` leaves the range of `int` before a symbol is selected; for `2^31`
symbols the counter `i` does.  In all three cases no vector is returned. -/
theorem generate_symbols_counterexample :
    ((∀ f ∈ List.replicate 256 (1 : Int), 0 ≤ f) ∧ 0 < (List.replicate 256 (1 : Int)).sum ∧
      GenerateSymbols (List.replicate 256 1) 1 (fun _ => 0) = none) ∧
    ((∀ f ∈ ([2147483647, 2147483647] : List Int), 0 ≤ f) ∧
      (2147483647 : Int) < ([2147483647, 2147483647] : List Int).sum ∧
      selectSymbol [2147483647, 2147483647] 2147483647 0 0 = none ∧
      GenerateSymbols [2147483647, 2147483647] 1 (fun _ => 0) = none) ∧
    GenerateSymbols [1] 2147483648 (fun _ => 0) = none := by
  refine ⟨⟨?_, ?_, ?_⟩, ⟨by decide, by decide, by decide, by decide⟩, ?_⟩
  · intro f hf
    rw [List.eq_of_mem_replicate hf]
    decide
  · rw [List.sum_replicate]
    decide
  · unfold GenerateSymbols
    rw [if_neg (by rw [List.length_replicate]; decide)]
  · unfold GenerateSymbols
    rw [if_pos (by decide)]
    exact generateLoop_overflow [1] (fun _ => 0) 2147483648 0 [] (by decide) (by decide)

/-- C30 (amended). `GenerateSymbols` only produces encodable symbols: for every
list `freqs` of fewer than 256 non-negative frequencies with sum `T`, `0 < T <
2^31`, and every draw `r` in `[0, T)`, the inner loop selects the least index
`k` with `r < freqs[0] + ... + freqs[k]`, with `k < freqs.size()` and `freqs[k]
> 0`; and for `num_symbols < 2^31` the function returns a vector of exactly
`num_symbols` entries, entry `i` being the symbol selected for the draw
`rand() mod T` of iteration `i`. -/
theorem generated_symbols_encodable (freqs : List Int) (num_symbols : Nat) (rand : Nat → Nat)
    (hlen : freqs.length < 256) (hnn : ∀ f ∈ freqs, 0 ≤ f) (hpos : 0 < freqs.sum)
    (hT : freqs.sum < 2147483648) (hn : num_symbols < 2147483648) :
    (∀ r : Int, 0 ≤ r → r < freqs.sum →
      ∃ k, selectSymbol freqs r 0 0 = some k ∧ k < freqs.length ∧ 0 < freqs.getD k 0 ∧
        r < prefixSum freqs (k + 1) ∧ ∀ j, j < k → prefixSum freqs (j + 1) ≤ r) ∧
    ∃ symbols, GenerateSymbols freqs num_symbols rand = some symbols ∧
      symbols.length = num_symbols ∧
      ∀ i, i < num_symbols →
        selectSymbol freqs ((rand i % freqs.sum.toNat : Nat) : Int) 0 0 =
          some (symbols.getD i 0) := by
  refine ⟨?_, ?_⟩
  · intro r hr0 hr1
    obtain ⟨k, h1, h2, h3, h4⟩ := selectSymbol_spec freqs r 0 0 hnn (Int.le_refl _) hr0
      (by omega) (by omega)
    rw [Nat.zero_add] at h1
    have hs := prefixSum_succ freqs k h2
    refine ⟨k, h1, h2, by omega, by omega, ?_⟩
    intro j hj
    have := prefixSum_mono freqs hnn (j + 1) k (by omega)
    omega
  · obtain ⟨out, h1, h2, h3⟩ := generateLoop_spec freqs rand hlen hnn hpos hT num_symbols 0 []
      (by omega)
    refine ⟨out, ?_, h2, ?_⟩
    · unfold GenerateSymbols
      rw [if_pos hlen, h1, List.nil_append]
    · intro i hi
      have := h3 i hi
      rw [Nat.zero_add] at this
      exact this

/-- Witness for C30 (amended): the table of `TEST(ANS_OpenCL,
DecodeSingleStream)` and four draws. -/
theorem generated_symbols_encodable_witness :
    ([12, 14, 17, 1, 1, 2, 372] : List Int).length < 256 ∧
    (∀ f ∈ ([12, 14, 17, 1, 1, 2, 372] : List Int), 0 ≤ f) ∧
    0 < ([12, 14, 17, 1, 1, 2, 372] : List Int).sum ∧
    ([12, 14, 17, 1, 1, 2, 372] : List Int).sum < 2147483648 ∧
    (4 : Nat) < 2147483648 ∧
    GenerateSymbols [12, 14, 17, 1, 1, 2, 372] 4 (fun i => 100 * i + 5) = some [0, 6, 6, 6] ∧
    ∃ symbols, GenerateSymbols [12, 14, 17, 1, 1, 2, 372] 4 (fun i => 100 * i + 5) =
        some symbols ∧
      symbols.length = 4 ∧
      ∀ i, i < 4 →
        selectSymbol [12, 14, 17, 1, 1, 2, 372]
            (((fun i => 100 * i + 5) i % ([12, 14, 17, 1, 1, 2, 372] : List Int).sum.toNat :
              Nat) : Int) 0 0 =
          some (symbols.getD i 0) :=
  ⟨by decide, by decide, by decide, by decide, by decide, by decide,
    (generated_symbols_encodable [12, 14, 17, 1, 1, 2, 372] 4 (fun i => 100 * i + 5)
      (by decide) (by decide) (by decide) (by decide) (by decide)).2⟩

end ans
